import Mathlib

/-! # UTF-8 / CESU-8 transcoder of `driver/internal/unicode`

A shallow embedding of `unicode.go` (the two `Transform` methods and the
error constructors) together with the helpers they call:

* `utf8.*`  : the Go standard library package `unicode/utf8`;
* `utf16.*` : the Go standard library package `unicode/utf16`;
* `cesu8.*` : the repository package `driver/internal/unicode/cesu8`, whose
  source is not part of the files at hand.  The two `Transform` methods take
  the package as a parameter (`Cesu8`); `cesu8.model` is the package as the
  specification text describes it.

Bytes are natural numbers below 256, byte slices are lists, runes (`int32`)
and `int` results are integers.  A call returns an `Outcome`: the final
contents of the destination together with the three results of the Go
function, or a panic.  Where it matters which backing array a slice lies in
(the copy that `newInvalidCesu8Error` makes), slices are taken in a `Memory`
of numbered backing arrays.
-/

set_option autoImplicit false
set_option linter.unusedVariables false

/-! ## Go standard library: `unicode/utf8` -/

namespace utf8

def RuneError : Int := 0xFFFD
def RuneSelf : Nat := 0x80
def MaxRune : Int := 0x10FFFF
def UTFMax : Nat := 4

def surrogateMin : Nat := 0xD800
def surrogateMax : Nat := 0xDFFF

def t1 : Nat := 0x00
def tx : Nat := 0x80
def t2 : Nat := 0xC0
def t3 : Nat := 0xE0
def t4 : Nat := 0xF0
def t5 : Nat := 0xF8

def maskx : Nat := 0x3F
def mask2 : Nat := 0x1F
def mask3 : Nat := 0x0F
def mask4 : Nat := 0x07

def rune1Max : Nat := (1 <<< 7) - 1
def rune2Max : Nat := (1 <<< 11) - 1
def rune3Max : Nat := (1 <<< 16) - 1

def locb : Nat := 0x80
def hicb : Nat := 0xBF

def xx : Nat := 0xF1
def as : Nat := 0xF0
def s1 : Nat := 0x02
def s2 : Nat := 0x13
def s3 : Nat := 0x03
def s4 : Nat := 0x23
def s5 : Nat := 0x34
def s6 : Nat := 0x04
def s7 : Nat := 0x44

/-- The table `first`: information about the first byte of a UTF-8 sequence. -/
def firstTable : List Nat :=
  List.replicate 128 as ++          -- 0x00-0x7F
  List.replicate 64 xx ++           -- 0x80-0xBF
  [xx, xx] ++ List.replicate 14 s1 ++   -- 0xC0-0xCF
  List.replicate 16 s1 ++           -- 0xD0-0xDF
  [s2, s3, s3, s3, s3, s3, s3, s3, s3, s3, s3, s3, s3, s4, s3, s3] ++   -- 0xE0-0xEF
  [s5, s6, s6, s6, s7, xx, xx, xx, xx, xx, xx, xx, xx, xx, xx, xx]      -- 0xF0-0xFF

/-- The lookup `first[b]` for a byte `b`. -/
def first (b : Nat) : Nat := firstTable.getD b xx

/-- The table `acceptRanges`, as pairs `(lo, hi)`. -/
def acceptRangesTable : List (Nat × Nat) :=
  [(locb, hicb), (0xA0, hicb), (locb, 0x9F), (0x90, hicb), (locb, 0x8F)]

/-- The lookup `acceptRanges[k]` (entries past the fifth are zero in Go). -/
def acceptRanges (k : Nat) : Nat × Nat := acceptRangesTable.getD k (0, 0)

/-- The conversion `uint32(r)` of a rune. -/
def toUint32 (r : Int) : Nat := (r % 4294967296).toNat

/-- The conversion `byte(r)` of a rune. -/
def toByte (r : Int) : Nat := (r % 256).toNat

/-- The byte `p[k]`; every use is guarded by a length test, as in the Go text. -/
def byteAt (p : List Nat) (k : Nat) : Nat := p.getD k 0

/-- Function `utf8.FullRune`: do the bytes in `p` begin with a full UTF-8
encoding of a rune?  An invalid encoding counts as a full rune. -/
def FullRune (p : List Nat) : Bool :=
  let n := p.length
  if n = 0 then false
  else
    let x := first (byteAt p 0)
    if n ≥ (x &&& 7) then true   -- ASCII, invalid or valid.
    else
      -- Must be short or invalid.
      let accept := acceptRanges (x >>> 4)
      if n > 1 ∧ (byteAt p 1 < accept.1 ∨ accept.2 < byteAt p 1) then true
      else if n > 2 ∧ (byteAt p 2 < locb ∨ hicb < byteAt p 2) then true
      else false

/-- Function `utf8.DecodeRune`: the first rune of `p` and its width in bytes;
`(RuneError, 0)` for empty input and `(RuneError, 1)` for an invalid
encoding.  The branch-free selection `rune(p[0])&^mask | RuneError&mask` is
computed on 32-bit patterns, `mask` being all ones exactly when the low bit of
`first[p0]` is set. -/
def DecodeRune (p : List Nat) : Int × Nat :=
  let n := p.length
  if n < 1 then (RuneError, 0)
  else
    let p0 := byteAt p 0
    let x := first p0
    if x ≥ as then
      let mask : Nat := (x &&& 1) * 0xFFFFFFFF
      ((((p0 &&& (0xFFFFFFFF ^^^ mask)) ||| (0xFFFD &&& mask) : Nat) : Int), 1)
    else
      let sz := x &&& 7
      let accept := acceptRanges (x >>> 4)
      if n < sz then (RuneError, 1)
      else
        let b1 := byteAt p 1
        if b1 < accept.1 ∨ accept.2 < b1 then (RuneError, 1)
        else if sz ≤ 2 then
          (((((p0 &&& mask2) <<< 6) ||| (b1 &&& maskx) : Nat) : Int), 2)
        else
          let b2 := byteAt p 2
          if b2 < locb ∨ hicb < b2 then (RuneError, 1)
          else if sz ≤ 3 then
            (((((p0 &&& mask3) <<< 12) ||| ((b1 &&& maskx) <<< 6) ||| (b2 &&& maskx) : Nat) : Int), 3)
          else
            let b3 := byteAt p 3
            if b3 < locb ∨ hicb < b3 then (RuneError, 1)
            else
              (((((p0 &&& mask4) <<< 18) ||| ((b1 &&& maskx) <<< 12)
                  ||| ((b2 &&& maskx) <<< 6) ||| (b3 &&& maskx) : Nat) : Int), 4)

/-- Function `utf8.RuneLen`: the number of bytes of the UTF-8 encoding of
`r`, or `-1` when `r` is not a valid value to encode. -/
def RuneLen (r : Int) : Int :=
  if r < 0 then -1
  else if r ≤ rune1Max then 1
  else if r ≤ rune2Max then 2
  else if (surrogateMin : Int) ≤ r ∧ r ≤ surrogateMax then -1
  else if r ≤ rune3Max then 3
  else if r ≤ MaxRune then 4
  else -1

/-- The store `p[k] = v`; `none` stands for the index-out-of-range panic. -/
def store (p : List Nat) (k v : Nat) : Option (List Nat) :=
  if k < p.length then some (p.set k v) else none

/-- Function `utf8.EncodeRune`: writes the UTF-8 encoding of `r` at the front
of `p` and returns the new contents of `p` with the number of bytes written;
`none` when `p` is too short (the Go function panics). -/
def EncodeRune (p : List Nat) (r : Int) : Option (List Nat × Nat) :=
  let i := toUint32 r
  if i ≤ rune1Max then do
    let p ← store p 0 (toByte r)
    pure (p, 1)
  else if i ≤ rune2Max then do
    if p.length ≤ 1 then none
    let p ← store p 0 (t2 ||| toByte (r >>> (6 : Nat)))
    let p ← store p 1 (tx ||| (toByte r &&& maskx))
    pure (p, 2)
  else
    let r3 : Option Int :=
      if i > MaxRune.toNat ∨ (surrogateMin ≤ i ∧ i ≤ surrogateMax) then some RuneError
      else if i ≤ rune3Max then some r
      else none
    match r3 with
    | some r => do
      if p.length ≤ 2 then none
      let p ← store p 0 (t3 ||| toByte (r >>> (12 : Nat)))
      let p ← store p 1 (tx ||| (toByte (r >>> (6 : Nat)) &&& maskx))
      let p ← store p 2 (tx ||| (toByte r &&& maskx))
      pure (p, 3)
    | none => do
      if p.length ≤ 3 then none
      let p ← store p 0 (t4 ||| toByte (r >>> (18 : Nat)))
      let p ← store p 1 (tx ||| (toByte (r >>> (12 : Nat)) &&& maskx))
      let p ← store p 2 (tx ||| (toByte (r >>> (6 : Nat)) &&& maskx))
      let p ← store p 3 (tx ||| (toByte r &&& maskx))
      pure (p, 4)

end utf8

/-! ## Go standard library: `unicode/utf16` -/

namespace utf16

def replacementChar : Int := 0xFFFD
def maxRune : Int := 0x10FFFF

def surr1 : Int := 0xd800
def surr2 : Int := 0xdc00
def surr3 : Int := 0xe000
def surrSelf : Int := 0x10000

/-- Function `utf16.EncodeRune`: the surrogate pair `(r1, r2)` of the rune
`r`, or `(U+FFFD, U+FFFD)` when `r` needs no pair or is no valid rune.  The
masks `&0x3ff` are remainders modulo `0x400`. -/
def EncodeRune (r : Int) : Int × Int :=
  if r < surrSelf ∨ r > maxRune then (replacementChar, replacementChar)
  else
    let r := r - surrSelf
    (surr1 + (r >>> (10 : Nat)) % 0x400, surr2 + r % 0x400)

/-- Function `utf16.DecodeRune`: the rune of the surrogate pair `(r1, r2)`, or
`U+FFFD` when the pair is not valid.  In `(r1-surr1)<<10 | (r2 - surr2)` the
right operand is below `0x400`, so the union is a sum. -/
def DecodeRune (r1 r2 : Int) : Int :=
  if surr1 ≤ r1 ∧ r1 < surr2 ∧ surr2 ≤ r2 ∧ r2 < surr3 then
    ((r1 - surr1) * 0x400 + (r2 - surr2)) + surrSelf
  else replacementChar

end utf16

/-! ## Repository package `cesu8` (source not at hand) -/

namespace cesu8

/-- Modelled from the spec: the constant `cesu8.CESUMax` of the absent package
`driver/internal/unicode/cesu8`, the longest run of the variant encoding
("two 3-byte surrogate halves, i.e. up to 6 bytes"). -/
def CESUMax : Nat := 6

/-- Modelled from the spec: the test for a high (leading) surrogate value, the
first of the "two 16-bit values (high, low) jointly encoding one codepoint
above the 16-bit range"; the absent package `cesu8` takes it from UTF-16. -/
def isHighSurrogate (r : Int) : Bool := decide (utf16.surr1 ≤ r ∧ r < utf16.surr2)

/-- Modelled from the spec: the test for a low (trailing) surrogate value, the
second value of a surrogate pair, in the absent package `cesu8`. -/
def isLowSurrogate (r : Int) : Bool := decide (utf16.surr2 ≤ r ∧ r < utf16.surr3)

/-- Modelled from the spec: the absent function `cesu8.RuneLen`, "the encoded
length of the decoded codepoint in ENC-B: 1-3 bytes for codepoints up to
0xFFFF; for codepoints above 0xFFFF, 6 bytes", and `-1` for a value with "no
valid encoded representation" (outside `[0, 0x10FFFF]`). -/
def RuneLen (r : Int) : Int :=
  if r < 0 then -1
  else if r ≤ utf8.rune1Max then 1
  else if r ≤ utf8.rune2Max then 2
  else if r ≤ utf8.rune3Max then 3
  else if r ≤ utf8.MaxRune then CESUMax
  else -1

/-- Modelled from the spec: the helper of the absent `cesu8.EncodeRune` that
writes one unit of 1 to 3 bytes for a value up to `0xFFFF`, "byte-compatible
with ENC-A for codepoints ≤ 0xFFFF" (a surrogate value is written as a 3-byte
unit); `none` when `p` is too short. -/
def encodeUnit (p : List Nat) (r : Int) : Option (List Nat × Nat) :=
  let i := utf8.toUint32 r
  if i ≤ utf8.rune1Max then do
    let p ← utf8.store p 0 (utf8.toByte r)
    pure (p, 1)
  else if i ≤ utf8.rune2Max then do
    if p.length ≤ 1 then none
    let p ← utf8.store p 0 (utf8.t2 ||| utf8.toByte (r >>> (6 : Nat)))
    let p ← utf8.store p 1 (utf8.tx ||| (utf8.toByte r &&& utf8.maskx))
    pure (p, 2)
  else do
    if p.length ≤ 2 then none
    let p ← utf8.store p 0 (utf8.t3 ||| utf8.toByte (r >>> (12 : Nat)))
    let p ← utf8.store p 1 (utf8.tx ||| (utf8.toByte (r >>> (6 : Nat)) &&& utf8.maskx))
    let p ← utf8.store p 2 (utf8.tx ||| (utf8.toByte r &&& utf8.maskx))
    pure (p, 3)

/-- Modelled from the spec: the helper of the absent `cesu8.EncodeRune` that
writes the "two 3-byte surrogate halves": the unit of `high` followed by the
unit of `low`; `none` when `p` is too short. -/
def encodePair (p : List Nat) (high low : Int) : Option (List Nat × Nat) :=
  match encodeUnit p high with
  | none => none
  | some (p1, n) =>
    match encodeUnit (p1.drop n) low with
    | none => none
    | some (p2, k) => some (p1.take n ++ p2, n + k)

/-- Modelled from the spec: the absent function `cesu8.EncodeRune`, which
writes the ENC-B run of `r` at the front of `p`: the unit of 1 to 3 bytes for
a codepoint up to `0xFFFF`, and above `0xFFFF` "two 3-byte surrogate halves
encoding the high and low surrogate pair values derived from the codepoint";
`none` when `p` is too short. -/
def EncodeRune (p : List Nat) (r : Int) : Option (List Nat × Nat) :=
  if r ≤ utf8.rune3Max then encodeUnit p r
  else encodePair p (utf16.EncodeRune r).1 (utf16.EncodeRune r).2

/-- Modelled from the spec: the helper of the absent `cesu8.FullRune` and
`cesu8.DecodeRune` that decodes "a single 1-3 byte unit": the value, the width
and whether the unit is cut off by the end of `p` ("truncated trailing
bytes").  A unit is the ENC-A pattern of a value up to `0xFFFF`, surrogate
values included; any other lead/continuation pattern is malformed and yields
`(RuneError, 1)`. -/
def decodeUnit (p : List Nat) : Int × Nat × Bool :=
  let n := p.length
  if n < 1 then (utf8.RuneError, 0, true)
  else
    let c0 := utf8.byteAt p 0
    if c0 < utf8.tx then ((c0 : Int), 1, false)          -- single byte
    else if c0 < utf8.t2 then (utf8.RuneError, 1, false)   -- lone continuation byte
    else if utf8.t4 ≤ c0 then (utf8.RuneError, 1, false)   -- no 4-byte unit in ENC-B
    else if n < 2 then (utf8.RuneError, 1, true)
    else
      let c1 := utf8.byteAt p 1
      if c1 < utf8.locb ∨ utf8.hicb < c1 then (utf8.RuneError, 1, false)
      else if c0 < utf8.t3 then
        let r : Nat := ((c0 &&& utf8.mask2) <<< 6) ||| (c1 &&& utf8.maskx)
        if r ≤ utf8.rune1Max then (utf8.RuneError, 1, false) else ((r : Int), 2, false)
      else if n < 3 then (utf8.RuneError, 1, true)
      else
        let c2 := utf8.byteAt p 2
        if c2 < utf8.locb ∨ utf8.hicb < c2 then (utf8.RuneError, 1, false)
        else
          let r : Nat :=
            ((c0 &&& utf8.mask3) <<< 12) ||| ((c1 &&& utf8.maskx) <<< 6) ||| (c2 &&& utf8.maskx)
          if r ≤ utf8.rune2Max then (utf8.RuneError, 1, false) else ((r : Int), 3, false)

/-- Modelled from the spec: the absent function `cesu8.FullRune`.  A run is "a
single 1-3 byte unit or a surrogate pair spanning two consecutive 3-byte
units"; the bytes of `p` do not begin with a full run when the unit, or the
unit after a high surrogate unit, is cut off ("truncated trailing bytes →
short-source"). -/
def FullRune (p : List Nat) : Bool :=
  let u := decodeUnit p
  if u.2.2 then false
  else if !isHighSurrogate u.1 then true
  else
    let u2 := decodeUnit (p.drop u.2.1)
    !u2.2.2

/-- Modelled from the spec: the absent function `cesu8.DecodeRune`, the first
codepoint of `p` and the width of its run.  It must "recognize and reassemble
a valid high/low surrogate pair into one codepoint"; "a malformed run, or a
lone high surrogate unit not followed by a matching low surrogate unit (and
vice versa)" is invalid and yields `RuneError`, with the width of the
offending unit. -/
def DecodeRune (p : List Nat) : Int × Nat :=
  let u := decodeUnit p
  if isLowSurrogate u.1 then (utf8.RuneError, u.2.1)
  else if !isHighSurrogate u.1 then (u.1, u.2.1)
  else
    let u2 := decodeUnit (p.drop u.2.1)
    if isLowSurrogate u2.1 then (utf16.DecodeRune u.1 u2.1, u.2.1 + u2.2.1)
    else (utf8.RuneError, u.2.1)

end cesu8

/-- The four functions of package `cesu8` that `unicode.go` calls.  The package
is not among the sources, so the two `Transform` methods take it as a
parameter. -/
structure Cesu8 where
  FullRune : List Nat → Bool
  DecodeRune : List Nat → Int × Nat
  RuneLen : Int → Int
  EncodeRune : List Nat → Int → Option (List Nat × Nat)

/-- Modelled from the spec: the absent package `cesu8`, made of the four
functions above as the specification text describes them. -/
def cesu8.model : Cesu8 where
  FullRune := cesu8.FullRune
  DecodeRune := cesu8.DecodeRune
  RuneLen := cesu8.RuneLen
  EncodeRune := cesu8.EncodeRune

/-! ## Package `unicode` : `unicode.go` -/

/-- The error values a `Transform` call can return: the two sentinels of
`golang.org/x/text/transform`, the sentinel `ErrInvalidUtf8`, and the struct
`InvalidCesu8Error` with its fields `p` (position) and `v` (value). -/
inductive Error where
  | ErrShortDst
  | ErrShortSrc
  | ErrInvalidUtf8
  | InvalidCesu8Error (p : Nat) (v : List Nat)
deriving DecidableEq, Repr

/-- The ways a call can abort instead of returning. -/
inductive Abort where
  | internalError   -- the explicit `panic("internal ... transformation error")`
  | outOfRange      -- a run-time index or slice bounds panic
deriving DecidableEq, Repr

/-- What a call of `Transform` does: it returns, leaving `dst` in the
destination and giving `(nDst, nSrc, err)` (`none` is `nil`), or it panics.
`outOfFuel` is the result of the loop model when its step budget is used up. -/
inductive Outcome where
  | ret (dst : List Nat) (nDst nSrc : Nat) (err : Option Error)
  | panicked (a : Abort)
  | outOfFuel
deriving DecidableEq, Repr

/-- The builtin `make([]byte, n)`. -/
def make (n : Nat) : List Nat := List.replicate n 0

/-- The builtin `copy(dst, src)`: the new contents of `dst`. -/
def copy (dst src : List Nat) : List Nat :=
  src.take dst.length ++ dst.drop src.length

/-- Function `newInvalidCesu8Error`: the error holds a copy of `v`. -/
def newInvalidCesu8Error (p : Nat) (v : List Nat) : Error :=
  let cv := make v.length
  let cv := copy cv v
  Error.InvalidCesu8Error p cv

/-! ## The error value and the memory it is copied into

The two `Transform` methods are embedded with byte slices as lists, where
`make` followed by `copy` yields the list itself.  Which backing array the value
of an `InvalidCesu8Error` lies in is what the definitions below keep track of:
they are `newInvalidCesu8Error` again, over slices of numbered backing arrays. -/

/-- A byte slice as Go holds it, for the question which bytes two slices
share: the `len` bytes from the offset `off` of the backing array number
`buf`. -/
structure Slice where
  buf : Nat
  off : Nat
  len : Nat
deriving DecidableEq, Repr

/-- The memory of byte slices: the backing arrays, by their number. -/
structure Memory where
  arrays : List (List Nat)
deriving DecidableEq, Repr

/-- The bytes of the slice `s` in the memory `m`. -/
def Memory.read (m : Memory) (s : Slice) : List Nat :=
  ((m.arrays.getD s.buf []).drop s.off).take s.len

/-- The memory after the stores `s[k] = bytes[k]`, for every `k` below
`len(bytes)` and `len(s)`: only the backing array of `s` changes. -/
def Memory.write (m : Memory) (s : Slice) (bytes : List Nat) : Memory :=
  ⟨m.arrays.set s.buf
    ((m.arrays.getD s.buf []).take s.off ++ bytes.take s.len ++
      (m.arrays.getD s.buf []).drop (s.off + (bytes.take s.len).length))⟩

/-- The slice expression `s[i:j]`: the same backing array as `s`. -/
def Slice.slice (s : Slice) (i j : Nat) : Slice := ⟨s.buf, s.off + i, j - i⟩

/-- The builtin `make([]byte, n)` with the memory: a new backing array of `n`
zero bytes, and the slice of all of it. -/
def makeIn (m : Memory) (n : Nat) : Memory × Slice :=
  (⟨m.arrays ++ [List.replicate n 0]⟩, ⟨m.arrays.length, 0, n⟩)

/-- The builtin `copy(dst, src)` with the memory. -/
def copyIn (m : Memory) (dst src : Slice) : Memory := m.write dst (m.read src)

/-- The struct `InvalidCesu8Error` with its field `v` as the slice it is. -/
structure InvalidCesu8ErrorIn where
  p : Nat
  v : Slice
deriving DecidableEq, Repr

/-- Function `newInvalidCesu8Error` with the memory: `cv := make([]byte,
len(v))`, `copy(cv, v)`, and the error holds the slice `cv`. -/
def newInvalidCesu8ErrorIn (m : Memory) (p : Nat) (v : Slice) : Memory × InvalidCesu8ErrorIn :=
  let cv := makeIn m v.len
  let m2 := copyIn cv.1 cv.2 v
  (m2, ⟨p, cv.2⟩)

/-- The memory after a sequence of stores, each into a slice, one after the
other. -/
def Memory.writes (m : Memory) (ws : List (Slice × List Nat)) : Memory :=
  ws.foldl (fun m w => m.write w.1 w.2) m

/-! ## The two `Transform` methods -/

/-- The loop of `utf8ToCesu8Transformer.Transform`, from the state `(i, j)`
with the destination contents `dst`; one unit of `fuel` per iteration.  The
calls into package `cesu8` go to `pkg`. -/
def utf8ToCesu8Loop (pkg : Cesu8) (src : List Nat) : Nat → List Nat → Nat → Nat → Outcome
  | 0, dst, i, j => if i < src.length then Outcome.outOfFuel else Outcome.ret dst j i none
  | fuel + 1, dst, i, j =>
    if h : i < src.length then
      if src[i] < utf8.RuneSelf then
        if j < dst.length then
          utf8ToCesu8Loop pkg src fuel (dst.set j src[i]) (i + 1) (j + 1)
        else
          Outcome.ret dst j i (some Error.ErrShortDst)
      else
        if !utf8.FullRune (src.drop i) then
          Outcome.ret dst j i (some Error.ErrShortSrc)
        else
          let (r, n) := utf8.DecodeRune (src.drop i)
          if r = utf8.RuneError then
            Outcome.ret dst j i (some Error.ErrInvalidUtf8)
          else
            let m := pkg.RuneLen r
            if m = -1 then
              Outcome.panicked Abort.internalError
            else if (j : Int) + m ≤ dst.length then
              match pkg.EncodeRune (dst.drop j) r with
              | none => Outcome.panicked Abort.outOfRange
              | some (p, _) =>
                utf8ToCesu8Loop pkg src fuel (dst.take j ++ p) (i + n) (j + m.toNat)
            else
              Outcome.ret dst j i (some Error.ErrShortDst)
    else
      Outcome.ret dst j i none

/-- Method `utf8ToCesu8Transformer.Transform`.  Every iteration that does not
return advances `i`, so `len(src)` iterations are enough. -/
def Utf8ToCesu8Transform (pkg : Cesu8) (dst src : List Nat) (atEOF : Bool) : Outcome :=
  utf8ToCesu8Loop pkg src src.length dst 0 0

/-- The loop of `cesu8ToUtf8Transformer.Transform`, from the state `(i, j)`
with the destination contents `dst`; one unit of `fuel` per iteration.  The
calls into package `cesu8` go to `pkg`. -/
def cesu8ToUtf8Loop (pkg : Cesu8) (src : List Nat) : Nat → List Nat → Nat → Nat → Outcome
  | 0, dst, i, j => if i < src.length then Outcome.outOfFuel else Outcome.ret dst j i none
  | fuel + 1, dst, i, j =>
    if h : i < src.length then
      if src[i] < utf8.RuneSelf then
        if j < dst.length then
          cesu8ToUtf8Loop pkg src fuel (dst.set j src[i]) (i + 1) (j + 1)
        else
          Outcome.ret dst j i (some Error.ErrShortDst)
      else
        if !pkg.FullRune (src.drop i) then
          Outcome.ret dst j i (some Error.ErrShortSrc)
        else
          let (r, n) := pkg.DecodeRune (src.drop i)
          if r = utf8.RuneError then
            if i + n ≤ src.length then
              Outcome.ret dst j i (some (newInvalidCesu8Error i ((src.drop i).take n)))
            else
              Outcome.panicked Abort.outOfRange
          else
            let m := utf8.RuneLen r
            if m = -1 then
              Outcome.panicked Abort.internalError
            else if (j : Int) + m ≤ dst.length then
              match utf8.EncodeRune (dst.drop j) r with
              | none => Outcome.panicked Abort.outOfRange
              | some (p, _) =>
                cesu8ToUtf8Loop pkg src fuel (dst.take j ++ p) (i + n) (j + m.toNat)
            else
              Outcome.ret dst j i (some Error.ErrShortDst)
    else
      Outcome.ret dst j i none

/-- Method `cesu8ToUtf8Transformer.Transform`. -/
def Cesu8ToUtf8Transform (pkg : Cesu8) (dst src : List Nat) (atEOF : Bool) : Outcome :=
  cesu8ToUtf8Loop pkg src src.length dst 0 0

/-! ## The common shape of the two loops -/

/-- The helpers one direction of the transcoder is built from. -/
structure Codec where
  fullRune : List Nat → Bool
  decodeRune : List Nat → Int × Nat
  runeLen : Int → Int
  encodeRune : List Nat → Int → Option (List Nat × Nat)
  invalid : Nat → List Nat → Nat → Except Abort Error

/-- The loop of a `Transform` method over the helpers of `c`. -/
def Codec.loop (c : Codec) (src : List Nat) : Nat → List Nat → Nat → Nat → Outcome
  | 0, dst, i, j => if i < src.length then Outcome.outOfFuel else Outcome.ret dst j i none
  | fuel + 1, dst, i, j =>
    if h : i < src.length then
      if src[i] < utf8.RuneSelf then
        if j < dst.length then
          c.loop src fuel (dst.set j src[i]) (i + 1) (j + 1)
        else
          Outcome.ret dst j i (some Error.ErrShortDst)
      else
        if !c.fullRune (src.drop i) then
          Outcome.ret dst j i (some Error.ErrShortSrc)
        else
          if (c.decodeRune (src.drop i)).1 = utf8.RuneError then
            match c.invalid i (src.drop i) (c.decodeRune (src.drop i)).2 with
            | Except.ok e => Outcome.ret dst j i (some e)
            | Except.error a => Outcome.panicked a
          else
            if c.runeLen (c.decodeRune (src.drop i)).1 = -1 then
              Outcome.panicked Abort.internalError
            else if (j : Int) + c.runeLen (c.decodeRune (src.drop i)).1 ≤ dst.length then
              match c.encodeRune (dst.drop j) (c.decodeRune (src.drop i)).1 with
              | none => Outcome.panicked Abort.outOfRange
              | some (p, _) =>
                c.loop src fuel (dst.take j ++ p) (i + (c.decodeRune (src.drop i)).2)
                  (j + (c.runeLen (c.decodeRune (src.drop i)).1).toNat)
            else
              Outcome.ret dst j i (some Error.ErrShortDst)
    else
      Outcome.ret dst j i none

/-- A whole call over the helpers of `c`. -/
def Codec.transform (c : Codec) (dst src : List Nat) : Outcome :=
  c.loop src src.length dst 0 0

/-- The helpers of the UTF-8 to CESU-8 direction over the package `pkg`. -/
def utf8ToCesu8With (pkg : Cesu8) : Codec where
  fullRune := utf8.FullRune
  decodeRune := utf8.DecodeRune
  runeLen := pkg.RuneLen
  encodeRune := pkg.EncodeRune
  invalid := fun _ _ _ => Except.ok Error.ErrInvalidUtf8

/-- The helpers of the CESU-8 to UTF-8 direction over the package `pkg`. -/
def cesu8ToUtf8With (pkg : Cesu8) : Codec where
  fullRune := pkg.FullRune
  decodeRune := pkg.DecodeRune
  runeLen := utf8.RuneLen
  encodeRune := utf8.EncodeRune
  invalid := fun i tail n =>
    if n ≤ tail.length then Except.ok (newInvalidCesu8Error i (tail.take n))
    else Except.error Abort.outOfRange

/-- The helpers of the UTF-8 to CESU-8 direction, with the model of `cesu8`. -/
def utf8ToCesu8Codec : Codec where
  fullRune := utf8.FullRune
  decodeRune := utf8.DecodeRune
  runeLen := cesu8.RuneLen
  encodeRune := cesu8.EncodeRune
  invalid := fun _ _ _ => Except.ok Error.ErrInvalidUtf8

/-- The helpers of the CESU-8 to UTF-8 direction, with the model of `cesu8`. -/
def cesu8ToUtf8Codec : Codec where
  fullRune := cesu8.FullRune
  decodeRune := cesu8.DecodeRune
  runeLen := utf8.RuneLen
  encodeRune := utf8.EncodeRune
  invalid := fun i tail n =>
    if n ≤ tail.length then Except.ok (newInvalidCesu8Error i (tail.take n))
    else Except.error Abort.outOfRange

/-- Moving an error found in a suffix of the source back by `d` positions. -/
def Error.shift (d : Nat) : Error → Error
  | Error.InvalidCesu8Error p v => Error.InvalidCesu8Error (d + p) v
  | e => e

/-- The outcome of a call on the rest of source and destination, seen from a
call that had consumed `di` bytes and written the `dj` bytes `pre` before. -/
def Outcome.shift (pre : List Nat) (di dj : Nat) : Outcome → Outcome
  | Outcome.ret d nDst nSrc err =>
    Outcome.ret (pre ++ d) (dj + nDst) (di + nSrc) (err.map (Error.shift di))
  | o => o

/-- What the loop lemmas need to know about the helpers. -/
structure Codec.Lawful (c : Codec) : Prop where
  encode_length : ∀ p r q k, c.encodeRune p r = some (q, k) → q.length = p.length
  decode_pos : ∀ p, (c.decodeRune p).1 ≠ utf8.RuneError → 1 ≤ (c.decodeRune p).2
  invalid_shift : ∀ i tail n, c.invalid i tail n = (c.invalid 0 tail n).map (Error.shift i)

namespace utf8

/-- Lower bound of the second byte after the lead byte `b0`. -/
def loA (b0 : Nat) : Nat := if b0 = 0xE0 then 0xA0 else if b0 = 0xF0 then 0x90 else 0x80

/-- Upper bound of the second byte after the lead byte `b0`. -/
def hiA (b0 : Nat) : Nat := if b0 = 0xED then 0x9F else if b0 = 0xF4 then 0x8F else 0xBF

/-- The function `DecodeRune` over byte ranges and sums in place of the tables
and bit operations (`DecodeRune_eq_decodeA`). -/
def decodeA : List Nat → Int × Nat
  | [] => (RuneError, 0)
  | b0 :: rest =>
    if b0 < 0x80 then ((b0 : Int), 1)
    else if b0 < 0xC2 then (RuneError, 1)
    else if b0 < 0xE0 then
      match rest with
      | b1 :: _ =>
        if 0x80 ≤ b1 ∧ b1 ≤ 0xBF then (((b0 % 32 * 64 + b1 % 64 : Nat) : Int), 2)
        else (RuneError, 1)
      | [] => (RuneError, 1)
    else if b0 < 0xF0 then
      match rest with
      | b1 :: b2 :: _ =>
        if loA b0 ≤ b1 ∧ b1 ≤ hiA b0 ∧ 0x80 ≤ b2 ∧ b2 ≤ 0xBF then
          (((b0 % 16 * 4096 + b1 % 64 * 64 + b2 % 64 : Nat) : Int), 3)
        else (RuneError, 1)
      | _ => (RuneError, 1)
    else if b0 < 0xF5 then
      match rest with
      | b1 :: b2 :: b3 :: _ =>
        if loA b0 ≤ b1 ∧ b1 ≤ hiA b0 ∧ 0x80 ≤ b2 ∧ b2 ≤ 0xBF ∧ 0x80 ≤ b3 ∧ b3 ≤ 0xBF then
          (((b0 % 8 * 262144 + b1 % 64 * 4096 + b2 % 64 * 64 + b3 % 64 : Nat) : Int), 4)
        else (RuneError, 1)
      | _ => (RuneError, 1)
    else (RuneError, 1)

end utf8

namespace utf8

/-- The function `FullRune` over byte ranges (`FullRune_eq_fullA`). -/
def fullA : List Nat → Bool
  | [] => false
  | b0 :: rest =>
    if b0 < 0xC2 then true
    else if b0 < 0xE0 then decide (1 ≤ rest.length)
    else if b0 < 0xF0 then
      decide (2 ≤ rest.length ∨
        (1 ≤ rest.length ∧ (byteAt rest 0 < loA b0 ∨ hiA b0 < byteAt rest 0)))
    else if b0 < 0xF5 then
      decide (3 ≤ rest.length ∨
        (1 ≤ rest.length ∧ (byteAt rest 0 < loA b0 ∨ hiA b0 < byteAt rest 0)) ∨
        (2 ≤ rest.length ∧ (byteAt rest 1 < 0x80 ∨ 0xBF < byteAt rest 1)))
    else true

end utf8

namespace utf8

/-- The bytes of the UTF-8 encoding of `c`, as sums (`EncodeRune_cast`). -/
def runA (c : Nat) : List Nat :=
  if c < 0x80 then [c]
  else if c < 0x800 then [0xC0 + c / 64, 0x80 + c % 64]
  else if c < 0x10000 then [0xE0 + c / 4096, 0x80 + c / 64 % 64, 0x80 + c % 64]
  else [0xF0 + c / 262144, 0x80 + c / 4096 % 64, 0x80 + c / 64 % 64, 0x80 + c % 64]

end utf8

namespace cesu8

/-- The bytes of the CESU-8 encoding of `c`, as sums (`EncodeRune_cast_cesu`). -/
def runA (c : Nat) : List Nat :=
  if c < 0x10000 then utf8.runA c
  else utf8.runA (0xD800 + (c - 0x10000) / 1024) ++ utf8.runA (0xDC00 + (c - 0x10000) % 1024)

end cesu8

/-- A Unicode scalar value: a codepoint up to `0x10FFFF` outside the surrogate
range `0xD800-0xDFFF`. -/
def isScalar (u : Nat) : Prop := u ≤ 0x10FFFF ∧ ¬ (0xD800 ≤ u ∧ u ≤ 0xDFFF)

instance (u : Nat) : Decidable (isScalar u) := by unfold isScalar; infer_instance

/-- The helpers of `c` decode the runs `srcRun u` of the scalar values and
only those, and encode a scalar value `u` as `dstRun u`. -/
structure Codec.Runs (c : Codec) (srcRun dstRun : Nat → List Nat) : Prop where
  src_ascii : ∀ u, u < 0x80 → srcRun u = [u]
  dst_ascii : ∀ u, u < 0x80 → dstRun u = [u]
  src_head : ∀ u, isScalar u → 0x80 ≤ u → ∃ b t, srcRun u = b :: t ∧ 0x80 ≤ b
  decode_run : ∀ u, isScalar u → (u : Int) ≠ utf8.RuneError → ∀ t,
    c.fullRune (srcRun u ++ t) = true ∧ c.decodeRune (srcRun u ++ t) = ((u : Int), (srcRun u).length)
  decode_valid : ∀ p, (c.decodeRune p).1 ≠ utf8.RuneError →
    ∃ u, isScalar u ∧ ∃ t, p = srcRun u ++ t ∧ c.decodeRune p = ((u : Int), (srcRun u).length)
  encode : ∀ u, isScalar u → 0x80 ≤ u → c.runeLen (u : Int) = ((dstRun u).length : Nat) ∧
    ∀ q, (dstRun u).length ≤ q.length →
      c.encodeRune q (u : Int) = some (dstRun u ++ q.drop (dstRun u).length, (dstRun u).length)
  src_pos : ∀ u, 1 ≤ (srcRun u).length

/-- What the UTF-8 to CESU-8 loop relies on in `RuneLen` and `EncodeRune` of
package `cesu8`: for a scalar value `u` from `0x80`, `EncodeRune(p, u)` writes
a run `run u` of `RuneLen(u)` bytes, the same for every `p`, at the start of
`p` and leaves the rest of `p` as it is; and a call never changes the length
of the slice it is given. -/
structure Cesu8.Encodes (pkg : Cesu8) (run : Nat → List Nat) : Prop where
  keeps_length : ∀ p r q k, pkg.EncodeRune p r = some (q, k) → q.length = p.length
  rune_len : ∀ u, isScalar u → 0x80 ≤ u → pkg.RuneLen (u : Int) = ((run u).length : Nat)
  encode : ∀ u, isScalar u → 0x80 ≤ u → ∀ q, (run u).length ≤ q.length →
    pkg.EncodeRune q (u : Int) = some (run u ++ q.drop (run u).length, (run u).length)

/-- The destination run of `u`: the byte itself in the single-byte range, where
the loop copies it, and `run u` from `0x80`. -/
def byteOr (run : Nat → List Nat) (u : Nat) : List Nat :=
  if u < 0x80 then [u] else run u

/-! ## Notions the properties are stated with -/

/-- The UTF-8 run of the codepoint `c`: the bytes `utf8.EncodeRune` writes. -/
def utf8Run (c : Nat) : List Nat :=
  match utf8.EncodeRune (make utf8.UTFMax) (c : Int) with
  | some (p, n) => p.take n
  | none => []

/-- The CESU-8 run of the codepoint `c`: the bytes `cesu8.EncodeRune` writes. -/
def cesu8Run (c : Nat) : List Nat :=
  match cesu8.EncodeRune (make cesu8.CESUMax) (c : Int) with
  | some (p, n) => p.take n
  | none => []

/-- The 3-byte unit `1110xxxx 10xxxxxx 10xxxxxx` holding the 16-bit value `u`. -/
def unit3 (u : Nat) : List Nat :=
  [0xE0 ||| (u >>> 12), 0x80 ||| ((u >>> 6) &&& 0x3F), 0x80 ||| (u &&& 0x3F)]

/-- All bytes of `s` are in the single-byte range `0x00-0x7F`. -/
def isAscii (s : List Nat) : Prop := ∀ b ∈ s, b < 0x80

instance (s : List Nat) : Decidable (isAscii s) := by unfold isAscii; infer_instance

/-- The concatenation of the runs `run u` of the values `u` of a list. -/
def concatRuns (run : Nat → List Nat) : List Nat → List Nat
  | [] => []
  | u :: us => run u ++ concatRuns run us

/-- Why a call over the helpers of `c` that returns `(nDst, nSrc, err) =
(j, i, e)` with the destination `d` stopped at the source position `i`: the
source is used up; or the byte at `i` is a single-byte value and the
destination is full; or the bytes from `i` on are not a full rune; or they
decode to `RuneError`; or the run of the decoded rune does not fit into the
destination. -/
def Codec.Exit (c : Codec) (src d : List Nat) (i j : Nat) (e : Option Error) : Prop :=
  (src.length ≤ i ∧ e = none) ∨
  (i < src.length ∧
    ((src.getD i 0 < utf8.RuneSelf ∧ d.length ≤ j ∧ e = some Error.ErrShortDst) ∨
     (utf8.RuneSelf ≤ src.getD i 0 ∧ c.fullRune (src.drop i) = false ∧
        e = some Error.ErrShortSrc) ∨
     (utf8.RuneSelf ≤ src.getD i 0 ∧ c.fullRune (src.drop i) = true ∧
        (c.decodeRune (src.drop i)).1 = utf8.RuneError ∧
        ∃ e2, c.invalid i (src.drop i) (c.decodeRune (src.drop i)).2 = Except.ok e2 ∧
          e = some e2) ∨
     (utf8.RuneSelf ≤ src.getD i 0 ∧ c.fullRune (src.drop i) = true ∧
        (c.decodeRune (src.drop i)).1 ≠ utf8.RuneError ∧
        c.runeLen (c.decodeRune (src.drop i)).1 ≠ -1 ∧
        (d.length : Int) < (j : Int) + c.runeLen (c.decodeRune (src.drop i)).1 ∧
        e = some Error.ErrShortDst)))

/-- The state `(d, i, j)` of a call on `src` that started with the destination
`dst`, as a trace: the source bytes before `i` are the source runs of a list
of scalar values other than U+FFFD, the destination bytes before `j` are their
destination runs in the same order, and the destination from `j` on is as it
was. -/
def Traced (srcRun dstRun : Nat → List Nat) (src dst d : List Nat) (i j : Nat) : Prop :=
  i ≤ src.length ∧ j ≤ dst.length ∧ d.length = dst.length ∧ d.drop j = dst.drop j ∧
  ∃ us : List Nat, (∀ u ∈ us, isScalar u ∧ (u : Int) ≠ utf8.RuneError) ∧
    src.take i = concatRuns srcRun us ∧ d.take j = concatRuns dstRun us

namespace utf8

/-- One well-formed UTF-8 byte sequence, by the table of the Unicode Standard
(Table 3-7): the shortest form of a code point up to `0x10FFFF` that is not a
surrogate. -/
def validRun : List Nat → Bool
  | [b0] => decide (b0 ≤ 0x7F)
  | [b0, b1] => decide (0xC2 ≤ b0 ∧ b0 ≤ 0xDF ∧ 0x80 ≤ b1 ∧ b1 ≤ 0xBF)
  | [b0, b1, b2] =>
    decide (((b0 = 0xE0 ∧ 0xA0 ≤ b1 ∧ b1 ≤ 0xBF) ∨ (0xE1 ≤ b0 ∧ b0 ≤ 0xEC ∧ 0x80 ≤ b1 ∧ b1 ≤ 0xBF) ∨
        (b0 = 0xED ∧ 0x80 ≤ b1 ∧ b1 ≤ 0x9F) ∨ (0xEE ≤ b0 ∧ b0 ≤ 0xEF ∧ 0x80 ≤ b1 ∧ b1 ≤ 0xBF)) ∧
      0x80 ≤ b2 ∧ b2 ≤ 0xBF)
  | [b0, b1, b2, b3] =>
    decide (((b0 = 0xF0 ∧ 0x90 ≤ b1 ∧ b1 ≤ 0xBF) ∨ (0xF1 ≤ b0 ∧ b0 ≤ 0xF3 ∧ 0x80 ≤ b1 ∧ b1 ≤ 0xBF) ∨
        (b0 = 0xF4 ∧ 0x80 ≤ b1 ∧ b1 ≤ 0x8F)) ∧
      0x80 ≤ b2 ∧ b2 ≤ 0xBF ∧ 0x80 ≤ b3 ∧ b3 ≤ 0xBF)
  | _ => false

/-- A well-formed UTF-8 sequence: a concatenation of well-formed byte
sequences. -/
inductive WellFormed : List Nat → Prop where
  | nil : WellFormed []
  | run (r s : List Nat) : validRun r = true → WellFormed s → WellFormed (r ++ s)

end utf8

/-- What the CESU-8 to UTF-8 loop relies on in `FullRune` and `DecodeRune` of
package `cesu8`: for bytes that begin with a full rune, the width `DecodeRune`
gives stays within them, and a rune other than `RuneError` has a width of at
least 1 and is a value `utf8.RuneLen` accepts. -/
structure Cesu8.Decodes (pkg : Cesu8) : Prop where
  within : ∀ p, pkg.FullRune p = true → (pkg.DecodeRune p).2 ≤ p.length
  width_pos : ∀ p, pkg.FullRune p = true → (pkg.DecodeRune p).1 ≠ utf8.RuneError →
    1 ≤ (pkg.DecodeRune p).2
  scalar : ∀ p, pkg.FullRune p = true → (pkg.DecodeRune p).1 ≠ utf8.RuneError →
    utf8.RuneLen (pkg.DecodeRune p).1 ≠ -1

/-- The helpers of `c` never make the loop panic or stand still: the encoder
keeps the length of its slice; on bytes that begin with a full rune the
invalid-source error can be built; and a rune other than `RuneError`, decoded
from bytes that start at `0x80` or above, has a width of at least 1, an encoded
length of at least 1, and is encoded into every slice that is long enough. -/
structure Codec.Safe (c : Codec) : Prop where
  encode_length : ∀ p r q k, c.encodeRune p r = some (q, k) → q.length = p.length
  invalid_ok : ∀ i p, c.fullRune p = true → (c.decodeRune p).1 = utf8.RuneError →
    ∃ e, c.invalid i p (c.decodeRune p).2 = Except.ok e
  width_pos : ∀ p, c.fullRune p = true → (c.decodeRune p).1 ≠ utf8.RuneError →
    1 ≤ (c.decodeRune p).2
  len_pos : ∀ b t, utf8.RuneSelf ≤ b → c.fullRune (b :: t) = true →
    (c.decodeRune (b :: t)).1 ≠ utf8.RuneError → 1 ≤ c.runeLen (c.decodeRune (b :: t)).1
  encode_ok : ∀ b t q, utf8.RuneSelf ≤ b → c.fullRune (b :: t) = true →
    (c.decodeRune (b :: t)).1 ≠ utf8.RuneError →
    c.runeLen (c.decodeRune (b :: t)).1 ≤ (q.length : Int) →
    ∃ p k, c.encodeRune q (c.decodeRune (b :: t)).1 = some (p, k)

/-- The number of iterations of the loop of `c` that do not return, within
`fuel` iterations from the state `(i, j)`: the runs (single bytes included)
that the call transcodes.  It follows the loop branch by branch. -/
def Codec.steps (c : Codec) (src : List Nat) : Nat → List Nat → Nat → Nat → Nat
  | 0, _, _, _ => 0
  | fuel + 1, dst, i, j =>
    if h : i < src.length then
      if src[i] < utf8.RuneSelf then
        if j < dst.length then
          1 + c.steps src fuel (dst.set j src[i]) (i + 1) (j + 1)
        else 0
      else
        if !c.fullRune (src.drop i) then 0
        else
          if (c.decodeRune (src.drop i)).1 = utf8.RuneError then 0
          else
            if c.runeLen (c.decodeRune (src.drop i)).1 = -1 then 0
            else if (j : Int) + c.runeLen (c.decodeRune (src.drop i)).1 ≤ dst.length then
              match c.encodeRune (dst.drop j) (c.decodeRune (src.drop i)).1 with
              | none => 0
              | some (p, _) =>
                1 + c.steps src fuel (dst.take j ++ p) (i + (c.decodeRune (src.drop i)).2)
                  (j + (c.runeLen (c.decodeRune (src.drop i)).1).toNat)
            else 0
    else 0

/-! # Lemmas -/

/-! ## Bit operations as arithmetic -/

namespace Bits

theorem and_maskx (x : Nat) : x &&& 0x3F = x % 64 := Nat.and_pow_two_sub_one_eq_mod x 6
theorem and_mask2 (x : Nat) : x &&& 0x1F = x % 32 := Nat.and_pow_two_sub_one_eq_mod x 5
theorem and_mask3 (x : Nat) : x &&& 0x0F = x % 16 := Nat.and_pow_two_sub_one_eq_mod x 4
theorem and_mask4 (x : Nat) : x &&& 0x07 = x % 8 := Nat.and_pow_two_sub_one_eq_mod x 3
theorem and_one (x : Nat) : x &&& 1 = x % 2 := Nat.and_pow_two_sub_one_eq_mod x 1

theorem or_low (k a b : Nat) (hb : b < 2 ^ k) : (a * 2 ^ k) ||| b = a * 2 ^ k + b := by
  rw [Nat.mul_comm, ← Nat.mul_add_lt_is_or hb]

theorem tx_or (y : Nat) (h : y < 64) : 0x80 ||| y = 0x80 + y := or_low 6 2 y h
theorem t2_or (y : Nat) (h : y < 32) : 0xC0 ||| y = 0xC0 + y := or_low 5 6 y h
theorem t3_or (y : Nat) (h : y < 16) : 0xE0 ||| y = 0xE0 + y := or_low 4 14 y h
theorem t4_or (y : Nat) (h : y < 8) : 0xF0 ||| y = 0xF0 + y := or_low 3 30 y h

theorem join2 (a b : Nat) (hb : b < 64) : (a <<< 6) ||| b = a * 64 + b := by
  rw [Nat.shiftLeft_eq]; exact or_low 6 a b hb

theorem join3 (a b c : Nat) (hb : b < 64) (hc : c < 64) :
    (a <<< 12) ||| (b <<< 6) ||| c = a * 4096 + b * 64 + c := by
  have h1 : (a <<< 12) ||| (b <<< 6) = a * 4096 + b * 64 := by
    rw [Nat.shiftLeft_eq, Nat.shiftLeft_eq]
    exact or_low 12 a (b * 2 ^ 6) (by omega)
  rw [h1]
  have h2 : a * 4096 + b * 64 = (a * 64 + b) * 2 ^ 6 := by omega
  rw [h2, or_low 6 _ c hc]

theorem join4 (a b c d : Nat) (hb : b < 64) (hc : c < 64) (hd : d < 64) :
    (a <<< 18) ||| (b <<< 12) ||| (c <<< 6) ||| d = a * 262144 + b * 4096 + c * 64 + d := by
  have h1 : (a <<< 18) ||| (b <<< 12) = a * 262144 + b * 4096 := by
    rw [Nat.shiftLeft_eq, Nat.shiftLeft_eq]
    exact or_low 18 a (b * 2 ^ 12) (by omega)
  rw [h1]
  have h2 : a * 262144 + b * 4096 = (a * 64 + b) * 2 ^ 12 := by omega
  have h3 : (a * 64 + b) * 2 ^ 12 ||| (c <<< 6) = (a * 64 + b) * 2 ^ 12 + c * 64 := by
    rw [Nat.shiftLeft_eq]
    exact or_low 12 _ (c * 2 ^ 6) (by omega)
  rw [h2, h3]
  have h4 : (a * 64 + b) * 2 ^ 12 + c * 64 = ((a * 64 + b) * 64 + c) * 2 ^ 6 := by omega
  rw [h4, or_low 6 _ d hd]

end Bits

/-! ## Loop lemmas -/

theorem utf8ToCesu8Loop_eq (pkg : Cesu8) (src : List Nat) (fuel : Nat) (dst : List Nat) (i j : Nat) :
    utf8ToCesu8Loop pkg src fuel dst i j = (utf8ToCesu8With pkg).loop src fuel dst i j := by
  induction fuel generalizing dst i j with
  | zero => rfl
  | succ k ih =>
    simp only [utf8ToCesu8Loop, Codec.loop, ih, utf8ToCesu8With]

theorem cesu8ToUtf8Loop_eq (pkg : Cesu8) (src : List Nat) (fuel : Nat) (dst : List Nat) (i j : Nat) :
    cesu8ToUtf8Loop pkg src fuel dst i j = (cesu8ToUtf8With pkg).loop src fuel dst i j := by
  induction fuel generalizing dst i j with
  | zero => rfl
  | succ k ih =>
    simp only [cesu8ToUtf8Loop, Codec.loop, ih, cesu8ToUtf8With]
    by_cases h : i < src.length
    · have e : (i + (pkg.DecodeRune (List.drop i src)).2 ≤ src.length) ↔
          ((pkg.DecodeRune (List.drop i src)).2 ≤ (List.drop i src).length) := by
        rw [List.length_drop]; omega
      simp only [h, ↓reduceDIte, e]
      by_cases h2 : (pkg.DecodeRune (List.drop i src)).2 ≤ (List.drop i src).length <;>
        simp only [h2, ↓reduceIte]
    · simp only [h, ↓reduceDIte]

theorem Error.shift_zero (e : Error) : Error.shift 0 e = e := by
  cases e <;> simp [Error.shift]

theorem Error.shift_add (a b : Nat) (e : Error) :
    Error.shift a (Error.shift b e) = Error.shift (a + b) e := by
  cases e <;> simp [Error.shift, Nat.add_assoc]

theorem Outcome.shift_shift (p q : List Nat) (i j i2 j2 : Nat) (o : Outcome) :
    Outcome.shift p i j (Outcome.shift q i2 j2 o) = Outcome.shift (p ++ q) (i + i2) (j + j2) o := by
  cases o with
  | ret d a b e =>
    cases e <;> simp [Outcome.shift, Error.shift_add, Nat.add_assoc]
  | panicked a => rfl
  | outOfFuel => rfl

theorem Outcome.shift_nil (o : Outcome) : Outcome.shift [] 0 0 o = o := by
  cases o with
  | ret d a b e => cases e <;> simp [Outcome.shift, Error.shift_zero]
  | panicked a => rfl
  | outOfFuel => rfl

theorem Codec.loop_shift (c : Codec) (hc : c.Lawful) :
    ∀ (fuel : Nat) (src pre rest : List Nat) (i : Nat),
      c.loop src fuel (pre ++ rest) i pre.length
        = Outcome.shift pre i pre.length (c.loop (src.drop i) fuel rest 0 0) := by
  intro fuel
  induction fuel with
  | zero =>
    intro src pre rest i
    simp only [Codec.loop, List.length_drop]
    by_cases h : i < src.length
    · have h2 : 0 < src.length - i := by omega
      simp [h, h2, Outcome.shift]
    · have h2 : ¬ 0 < src.length - i := by omega
      simp [h, h2, Outcome.shift]
  | succ k ih =>
    intro src pre rest i
    have key : ∀ (s w t : List Nat) (i2 : Nat) (d : List Nat) (jj : Nat), d = w ++ t → jj = w.length →
        c.loop s k d i2 jj = Outcome.shift w i2 w.length (c.loop (s.drop i2) k t 0 0) := by
      intro s w t i2 d jj hd hj
      subst hd hj
      exact ih s w t i2
    by_cases h : i < src.length
    · have h0 : 0 < (src.drop i).length := by rw [List.length_drop]; omega
      have hb : (src.drop i)[0] = src[i] := by simp [List.getElem_drop]
      simp only [Codec.loop, h, h0, ↓reduceDIte, hb, List.drop_zero, List.drop_left, List.take_left,
        List.take_zero, List.nil_append]
      by_cases hascii : src[i] < utf8.RuneSelf
      · simp only [hascii, ↓reduceIte]
        cases rest with
        | nil => simp [Outcome.shift, Error.shift]
        | cons d ds =>
          have e1 : (pre ++ d :: ds).set pre.length src[i] = (pre ++ [src[i]]) ++ ds := by simp
          have e2 : (d :: ds).set 0 src[i] = [src[i]] ++ ds := by simp
          have hl : pre.length < (pre ++ d :: ds).length := by simp
          have hl2 : 0 < (d :: ds).length := by simp
          simp only [hl, hl2, ↓reduceIte]
          rw [key src (pre ++ [src[i]]) ds (i + 1) _ _ e1 (by simp),
            key (src.drop i) [src[i]] ds (0 + 1) _ _ e2 (by simp), Outcome.shift_shift]
          simp [List.drop_drop, Nat.add_comm]
      · simp only [hascii, ↓reduceIte]
        by_cases hfull : c.fullRune (List.drop i src) = true
        · simp only [hfull, Bool.not_true, Bool.false_eq_true, ↓reduceIte]
          by_cases hr : (c.decodeRune (List.drop i src)).1 = utf8.RuneError
          · simp only [hr, ↓reduceIte]
            rw [hc.invalid_shift i]
            cases c.invalid 0 (List.drop i src) (c.decodeRune (List.drop i src)).2 with
            | ok e => simp [Except.map, Outcome.shift, Error.shift_zero]
            | error a => simp [Except.map, Outcome.shift]
          · simp only [hr, ↓reduceIte]
            by_cases hm : c.runeLen (c.decodeRune (List.drop i src)).1 = -1
            · simp [hm, Outcome.shift]
            · simp only [hm, ↓reduceIte]
              have hg : ((pre.length : Int) + c.runeLen (c.decodeRune (List.drop i src)).1
                    ≤ ((pre ++ rest).length : Nat)) ↔
                  (((0 : Nat) : Int) + c.runeLen (c.decodeRune (List.drop i src)).1 ≤ (rest.length : Nat)) := by
                rw [List.length_append]; push_cast; omega
              simp only [hg]
              by_cases hcap : ((0 : Nat) : Int) + c.runeLen (c.decodeRune (List.drop i src)).1 ≤ (rest.length : Nat)
              · simp only [hcap, ↓reduceIte]
                cases henc : c.encodeRune rest (c.decodeRune (List.drop i src)).1 with
                | none => simp [Outcome.shift]
                | some pk =>
                  obtain ⟨p, kk⟩ := pk
                  have hp : p.length = rest.length := hc.encode_length _ _ _ _ henc
                  have hm2 : (c.runeLen (c.decodeRune (List.drop i src)).1).toNat ≤ p.length := by
                    rw [hp]; omega
                  simp only []
                  rw [key src (pre ++ p.take (c.runeLen (c.decodeRune (List.drop i src)).1).toNat)
                        (p.drop (c.runeLen (c.decodeRune (List.drop i src)).1).toNat) _ _ _
                        (by simp) (by simp [hm2]),
                    key (src.drop i) (p.take (c.runeLen (c.decodeRune (List.drop i src)).1).toNat)
                        (p.drop (c.runeLen (c.decodeRune (List.drop i src)).1).toNat) _ _ _
                        (by simp) (by simp [hm2]),
                    Outcome.shift_shift]
                  simp [List.drop_drop, Nat.add_comm, hm2]
              · simp only [hcap, ↓reduceIte]
                simp [Outcome.shift, Error.shift]
        · simp [hfull, Outcome.shift, Error.shift]
    · have h0 : ¬ 0 < (src.drop i).length := by rw [List.length_drop]; omega
      simp [Codec.loop, h, h0, Outcome.shift]

theorem Codec.loop_fuel (c : Codec) (hc : c.Lawful) (src : List Nat) :
    ∀ (fuel fuel2 : Nat) (dst : List Nat) (i j : Nat),
      src.length - i ≤ fuel → src.length - i ≤ fuel2 →
      c.loop src fuel dst i j = c.loop src fuel2 dst i j := by
  intro fuel
  induction fuel with
  | zero =>
    intro fuel2 dst i j h1 _
    have h : ¬ i < src.length := by omega
    cases fuel2 <;> simp [Codec.loop, h]
  | succ k ih =>
    intro fuel2 dst i j h1 h2
    cases fuel2 with
    | zero =>
      have h : ¬ i < src.length := by omega
      simp [Codec.loop, h]
    | succ k2 =>
      by_cases h : i < src.length
      · simp only [Codec.loop, h, ↓reduceDIte]
        rw [ih k2 _ (i + 1) (j + 1) (by omega) (by omega)]
        by_cases hr : (c.decodeRune (src.drop i)).1 = utf8.RuneError
        · simp only [hr, ↓reduceIte]
        · have hn := hc.decode_pos _ hr
          have e2 : ∀ p jj, c.loop src k p (i + (c.decodeRune (src.drop i)).2) jj
              = c.loop src k2 p (i + (c.decodeRune (src.drop i)).2) jj :=
            fun p jj => ih k2 p _ jj (by omega) (by omega)
          simp only [hr, ↓reduceIte, e2]
      · simp [Codec.loop, h]

/-- One iteration of a call, the rest of the work being a call on what is left
of the source and of the destination. -/
theorem Codec.transform_eq (c : Codec) (hc : c.Lawful) (dst src : List Nat) :
    c.transform dst src =
      if h : 0 < src.length then
        if src[0] < utf8.RuneSelf then
          if 0 < dst.length then
            Outcome.shift [src[0]] 1 1 (c.transform (dst.drop 1) (src.drop 1))
          else Outcome.ret dst 0 0 (some Error.ErrShortDst)
        else if !c.fullRune src then Outcome.ret dst 0 0 (some Error.ErrShortSrc)
        else if (c.decodeRune src).1 = utf8.RuneError then
          match c.invalid 0 src (c.decodeRune src).2 with
          | Except.ok e => Outcome.ret dst 0 0 (some e)
          | Except.error a => Outcome.panicked a
        else if c.runeLen (c.decodeRune src).1 = -1 then Outcome.panicked Abort.internalError
        else if c.runeLen (c.decodeRune src).1 ≤ (dst.length : Int) then
          match c.encodeRune dst (c.decodeRune src).1 with
          | none => Outcome.panicked Abort.outOfRange
          | some (p, _) =>
            Outcome.shift (p.take (c.runeLen (c.decodeRune src).1).toNat) (c.decodeRune src).2
              (c.runeLen (c.decodeRune src).1).toNat
              (c.transform (p.drop (c.runeLen (c.decodeRune src).1).toNat)
                (src.drop (c.decodeRune src).2))
        else Outcome.ret dst 0 0 (some Error.ErrShortDst)
      else Outcome.ret dst 0 0 none := by
  cases src with
  | nil => simp [Codec.transform, Codec.loop]
  | cons b s =>
    have hlen : 0 < (b :: s).length := by simp
    simp only [Codec.transform, List.length_cons, Codec.loop, hlen, ↓reduceDIte, List.getElem_cons_zero,
      List.drop_zero, List.take_zero, List.nil_append, Nat.zero_add]
    by_cases hascii : b < utf8.RuneSelf
    · simp only [hascii, ↓reduceIte]
      cases dst with
      | nil => simp
      | cons d ds =>
        have e1 : (d :: ds).set 0 b = [b] ++ ds := by simp
        have hl2 : 0 < (d :: ds).length := by simp
        simp only [hl2, ↓reduceIte, e1]
        have := c.loop_shift hc s.length (b :: s) [b] ds 1
        simp only [List.length_singleton] at this
        rw [this]
        simp only [List.drop_succ_cons, List.drop_zero]
    · simp only [hascii, ↓reduceIte]
      by_cases hfull : c.fullRune (b :: s) = true
      · simp only [hfull, Bool.not_true, Bool.false_eq_true, ↓reduceIte]
        by_cases hr : (c.decodeRune (b :: s)).1 = utf8.RuneError
        · simp only [hr, ↓reduceIte]
        · have hn := hc.decode_pos _ hr
          simp only [hr, ↓reduceIte]
          by_cases hm : c.runeLen (c.decodeRune (b :: s)).1 = -1
          · simp only [hm, ↓reduceIte]
          · simp only [hm, ↓reduceIte]
            have hz : ((0 : Nat) : Int) + c.runeLen (c.decodeRune (b :: s)).1
                = c.runeLen (c.decodeRune (b :: s)).1 := by simp
            simp only [hz]
            by_cases hcap : c.runeLen (c.decodeRune (b :: s)).1 ≤ (dst.length : Int)
            · simp only [hcap, ↓reduceIte]
              cases henc : c.encodeRune dst (c.decodeRune (b :: s)).1 with
              | none => rfl
              | some pk =>
                obtain ⟨p, kk⟩ := pk
                have hp : p.length = dst.length := hc.encode_length _ _ _ _ henc
                have hm2 : (c.runeLen (c.decodeRune (b :: s)).1).toNat ≤ p.length := by
                  rw [hp]; omega
                simp only []
                have key := c.loop_shift hc s.length (b :: s)
                  (p.take (c.runeLen (c.decodeRune (b :: s)).1).toNat)
                  (p.drop (c.runeLen (c.decodeRune (b :: s)).1).toNat) (c.decodeRune (b :: s)).2
                rw [List.take_append_drop, List.length_take, Nat.min_eq_left hm2] at key
                have hf := c.loop_fuel hc (List.drop (c.decodeRune (b :: s)).2 (b :: s)) s.length
                  (List.drop (c.decodeRune (b :: s)).2 (b :: s)).length
                  (p.drop (c.runeLen (c.decodeRune (b :: s)).1).toNat) 0 0
                  (by rw [List.length_drop, List.length_cons]; omega) (by omega)
                rw [key, hf]
            · simp only [hcap, ↓reduceIte]
      · simp [hfull]

namespace utf8

set_option maxRecDepth 100000 in
theorem firstTable_length : firstTable.length = 256 := by decide

set_option maxRecDepth 100000 in
theorem first_eq_of_lt : ∀ b, b < 256 → first b =
    if b < 0x80 then as else if b < 0xC2 then xx else if b < 0xE0 then s1
    else if b = 0xE0 then s2 else if b < 0xED then s3 else if b = 0xED then s4
    else if b < 0xF0 then s3 else if b = 0xF0 then s5 else if b < 0xF4 then s6
    else if b = 0xF4 then s7 else xx := by
  decide

theorem first_eq (b : Nat) : first b =
    if b < 0x80 then as else if b < 0xC2 then xx else if b < 0xE0 then s1
    else if b = 0xE0 then s2 else if b < 0xED then s3 else if b = 0xED then s4
    else if b < 0xF0 then s3 else if b = 0xF0 then s5 else if b < 0xF4 then s6
    else if b = 0xF4 then s7 else xx := by
  by_cases h : b < 256
  · exact first_eq_of_lt b h
  · have : first b = xx := by
      unfold first
      apply List.getD_eq_default
      rw [firstTable_length]; omega
    rw [this]
    repeat (first | rfl | (rw [if_neg (by omega)]))

end utf8

namespace utf8

theorem first_as (b : Nat) (h : b < 0x80) : first b = as := by
  rw [first_eq, if_pos h]

theorem first_xx (b : Nat) (h : (0x80 ≤ b ∧ b < 0xC2) ∨ 0xF4 < b) : first b = xx := by
  rw [first_eq]
  rcases h with h | h <;> repeat (first | rfl | rw [if_pos (by omega)] | rw [if_neg (by omega)])

theorem first_s1 (b : Nat) (h : 0xC2 ≤ b ∧ b < 0xE0) : first b = s1 := by
  rw [first_eq]; repeat (first | rfl | rw [if_pos (by omega)] | rw [if_neg (by omega)])

theorem decode_as (b : Nat) (h : b < 0x80) :
    (((b &&& (0xFFFFFFFF ^^^ ((as &&& 1) * 0xFFFFFFFF))) ||| (0xFFFD &&& ((as &&& 1) * 0xFFFFFFFF)) : Nat) : Int)
      = (b : Int) := by
  have h1 : (as &&& 1) * 0xFFFFFFFF = 0 := by decide
  have h2 : b &&& 0xFFFFFFFF = b :=
    Nat.and_pow_two_sub_one_of_lt_two_pow (n := 32) (by omega)
  rw [h1]
  simp [h2]

end utf8

namespace utf8

theorem first_s2 : first 0xE0 = s2 := by decide
theorem first_s4 : first 0xED = s4 := by decide
theorem first_s5 : first 0xF0 = s5 := by decide
theorem first_s7 : first 0xF4 = s7 := by decide
theorem first_s3 (b : Nat) (h : (0xE0 < b ∧ b < 0xED) ∨ (0xED < b ∧ b < 0xF0)) : first b = s3 := by
  rw [first_eq]
  rcases h with h | h <;> repeat (first | rfl | rw [if_pos (by omega)] | rw [if_neg (by omega)])
theorem first_s6 (b : Nat) (h : 0xF0 < b ∧ b < 0xF4) : first b = s6 := by
  rw [first_eq]
  repeat (first | rfl | rw [if_pos (by omega)] | rw [if_neg (by omega)])

theorem info_facts :
    (as ≥ as) ∧ (xx ≥ as) ∧ ¬ (s1 ≥ as) ∧ ¬ (s2 ≥ as) ∧ ¬ (s3 ≥ as) ∧ ¬ (s4 ≥ as) ∧ ¬ (s5 ≥ as)
      ∧ ¬ (s6 ≥ as) ∧ ¬ (s7 ≥ as) := by decide

theorem size_facts :
    (as &&& 7 = 0) ∧ (xx &&& 7 = 1) ∧ (s1 &&& 7 = 2) ∧ (s2 &&& 7 = 3) ∧ (s3 &&& 7 = 3)
      ∧ (s4 &&& 7 = 3) ∧ (s5 &&& 7 = 4) ∧ (s6 &&& 7 = 4) ∧ (s7 &&& 7 = 4) := by decide

theorem accept_facts :
    acceptRanges (s1 >>> 4) = (0x80, 0xBF) ∧ acceptRanges (s2 >>> 4) = (0xA0, 0xBF)
      ∧ acceptRanges (s3 >>> 4) = (0x80, 0xBF) ∧ acceptRanges (s4 >>> 4) = (0x80, 0x9F)
      ∧ acceptRanges (s5 >>> 4) = (0x90, 0xBF) ∧ acceptRanges (s6 >>> 4) = (0x80, 0xBF)
      ∧ acceptRanges (s7 >>> 4) = (0x80, 0x8F) := by decide

theorem decode2 (b0 b1 : Nat) :
    (((b0 &&& mask2) <<< 6) ||| (b1 &&& maskx)) = b0 % 32 * 64 + b1 % 64 := by
  simp only [mask2, maskx, Bits.and_mask2, Bits.and_maskx]
  exact Bits.join2 _ _ (Nat.mod_lt _ (by decide))

theorem decode3 (b0 b1 b2 : Nat) :
    (((b0 &&& mask3) <<< 12) ||| ((b1 &&& maskx) <<< 6) ||| (b2 &&& maskx))
      = b0 % 16 * 4096 + b1 % 64 * 64 + b2 % 64 := by
  simp only [mask3, maskx, Bits.and_mask3, Bits.and_maskx]
  exact Bits.join3 _ _ _ (Nat.mod_lt _ (by decide)) (Nat.mod_lt _ (by decide))

theorem decode4 (b0 b1 b2 b3 : Nat) :
    (((b0 &&& mask4) <<< 18) ||| ((b1 &&& maskx) <<< 12) ||| ((b2 &&& maskx) <<< 6) ||| (b3 &&& maskx))
      = b0 % 8 * 262144 + b1 % 64 * 4096 + b2 % 64 * 64 + b3 % 64 := by
  simp only [mask4, maskx, Bits.and_mask4, Bits.and_maskx]
  exact Bits.join4 _ _ _ _ (Nat.mod_lt _ (by decide)) (Nat.mod_lt _ (by decide)) (Nat.mod_lt _ (by decide))

theorem decode_xx (b : Nat) :
    (((b &&& (0xFFFFFFFF ^^^ ((xx &&& 1) * 0xFFFFFFFF))) ||| (0xFFFD &&& ((xx &&& 1) * 0xFFFFFFFF)) : Nat) : Int)
      = RuneError := by
  have h1 : (xx &&& 1) * 0xFFFFFFFF = 0xFFFFFFFF := by decide
  have h3 : 0xFFFD &&& 0xFFFFFFFF = 0xFFFD := by decide
  have h4 : 0xFFFFFFFF ^^^ 0xFFFFFFFF = 0 := by decide
  rw [h1, h4, h3]
  simp [RuneError]

theorem class2 (b0 : Nat) (h : 0xC2 ≤ b0 ∧ b0 < 0xE0) :
    first b0 &&& 7 = 2 ∧ ¬ first b0 ≥ as ∧ acceptRanges (first b0 >>> 4) = (0x80, 0xBF) := by
  rw [first_s1 b0 h]; decide

theorem class3 (b0 : Nat) (h : 0xE0 ≤ b0 ∧ b0 < 0xF0) :
    first b0 &&& 7 = 3 ∧ ¬ first b0 ≥ as ∧ acceptRanges (first b0 >>> 4) = (loA b0, hiA b0) := by
  by_cases e1 : b0 = 0xE0
  · subst e1; rw [first_s2]; decide
  · by_cases e2 : b0 = 0xED
    · subst e2; rw [first_s4]; decide
    · have e3 : b0 ≠ 0xF0 := by omega
      have e4 : b0 ≠ 0xF4 := by omega
      rw [first_s3 b0 (by omega)]
      simp only [loA, hiA, e1, e2, e3, e4, ↓reduceIte]
      decide

theorem class4 (b0 : Nat) (h : 0xF0 ≤ b0 ∧ b0 < 0xF5) :
    first b0 &&& 7 = 4 ∧ ¬ first b0 ≥ as ∧ acceptRanges (first b0 >>> 4) = (loA b0, hiA b0) := by
  by_cases e1 : b0 = 0xF0
  · subst e1; rw [first_s5]; decide
  · by_cases e2 : b0 = 0xF4
    · subst e2; rw [first_s7]; decide
    · have e3 : b0 ≠ 0xE0 := by omega
      have e4 : b0 ≠ 0xED := by omega
      rw [first_s6 b0 (by omega)]
      simp only [loA, hiA, e1, e2, e3, e4, ↓reduceIte]
      decide

theorem class1 (b0 : Nat) (h : b0 < 0xC2 ∨ 0xF4 < b0) : first b0 &&& 7 ≤ 1 := by
  by_cases h1 : b0 < 0x80
  · rw [first_as b0 h1]; decide
  · rw [first_xx b0 (by omega)]; decide

theorem DecodeRune_eq_decodeA (p : List Nat) : DecodeRune p = decodeA p := by
  obtain ⟨f1, f2, f3, f4, f5, f6, f7, f8, f9⟩ := info_facts
  obtain ⟨z1, z2, z3, z4, z5, z6, z7, z8, z9⟩ := size_facts
  obtain ⟨a1, a2, a3, a4, a5, a6, a7⟩ := accept_facts
  rcases p with _ | ⟨b0, rest⟩
  · rfl
  · have hlen : ¬ (b0 :: rest).length < 1 := by simp
    by_cases h1 : b0 < 0x80
    · simp only [DecodeRune, decodeA, byteAt, List.getD_cons_zero, first_as b0 h1, h1, ↓reduceIte,
        decode_as b0 h1, hlen, f1]
    · by_cases h2 : b0 < 0xC2
      · simp only [DecodeRune, decodeA, byteAt, List.getD_cons_zero,
          first_xx b0 (Or.inl ⟨by omega, h2⟩), h1, h2, ↓reduceIte, hlen, f2, decode_xx]
      · by_cases h3 : b0 < 0xE0
        · simp only [DecodeRune, decodeA, byteAt, List.getD_cons_zero,
            first_s1 b0 ⟨by omega, h3⟩, h1, h2, h3, ↓reduceIte, hlen, f3, z3, a1, decode2]
          rcases rest with _ | ⟨b1, r1⟩
          · simp
          · have hl : ¬ (b0 :: b1 :: r1).length < 2 := by simp
            simp only [hl, ↓reduceIte, List.getD_cons_succ, List.getD_cons_zero, Nat.le_refl]
            by_cases hb : 0x80 ≤ b1 ∧ b1 ≤ 0xBF
            · have : ¬ (b1 < 0x80 ∨ 0xBF < b1) := by omega
              simp only [hb, this, ↓reduceIte, and_self]
            · have : (b1 < 0x80 ∨ 0xBF < b1) := by omega
              simp only [hb, this, ↓reduceIte]
        · by_cases h4 : b0 < 0xF0
          · have hx : first b0 = s2 ∨ first b0 = s3 ∨ first b0 = s4 := by
              by_cases e1 : b0 = 0xE0
              · subst e1; exact Or.inl first_s2
              · by_cases e2 : b0 = 0xED
                · subst e2; exact Or.inr (Or.inr first_s4)
                · exact Or.inr (Or.inl (first_s3 b0 (by omega)))
            have hacc : acceptRanges (first b0 >>> 4) = (loA b0, hiA b0) := by
              by_cases e1 : b0 = 0xE0
              · subst e1; rw [first_s2, a2]; rfl
              · by_cases e2 : b0 = 0xED
                · subst e2; rw [first_s4, a4]; rfl
                · have e3 : b0 ≠ 0xF0 := by omega
                  have e4 : b0 ≠ 0xF4 := by omega
                  rw [first_s3 b0 (by omega), a3]; simp [loA, hiA, e1, e2, e3, e4]
            have hsz : first b0 &&& 7 = 3 := by
              rcases hx with e | e | e <;> rw [e] <;> assumption
            have hnas : ¬ first b0 ≥ as := by
              rcases hx with e | e | e <;> rw [e] <;> assumption
            simp only [DecodeRune, decodeA, byteAt, List.getD_cons_zero, h1, h2, h3, h4, ↓reduceIte,
              hlen, hnas, hsz, hacc, decode3]
            rcases rest with _ | ⟨b1, r1⟩
            · simp
            · rcases r1 with _ | ⟨b2, r2⟩
              · simp
              · have hl : ¬ (b0 :: b1 :: b2 :: r2).length < 3 := by simp
                simp only [hl, ↓reduceIte, List.getD_cons_succ, List.getD_cons_zero, Nat.le_refl, locb, hicb]
                by_cases hb : loA b0 ≤ b1 ∧ b1 ≤ hiA b0
                · have n1 : ¬ (b1 < loA b0 ∨ hiA b0 < b1) := by omega
                  by_cases hb2 : 0x80 ≤ b2 ∧ b2 ≤ 0xBF
                  · have n2 : ¬ (b2 < 0x80 ∨ 0xBF < b2) := by omega
                    have h32 : ¬ ((3 : Nat) ≤ 2) := by decide
                    simp only [hb, hb2, n1, n2, h32, ↓reduceIte, and_self]
                  · have n2 : (b2 < 0x80 ∨ 0xBF < b2) := by omega
                    have : ¬ (loA b0 ≤ b1 ∧ b1 ≤ hiA b0 ∧ 0x80 ≤ b2 ∧ b2 ≤ 0xBF) := by omega
                    have h32 : ¬ ((3 : Nat) ≤ 2) := by decide
                    simp only [n1, n2, this, h32, ↓reduceIte]
                · have n1 : (b1 < loA b0 ∨ hiA b0 < b1) := by omega
                  have : ¬ (loA b0 ≤ b1 ∧ b1 ≤ hiA b0 ∧ 0x80 ≤ b2 ∧ b2 ≤ 0xBF) := by omega
                  simp only [n1, this, ↓reduceIte]
          · by_cases h5 : b0 < 0xF5
            · have hx : first b0 = s5 ∨ first b0 = s6 ∨ first b0 = s7 := by
                by_cases e1 : b0 = 0xF0
                · subst e1; exact Or.inl first_s5
                · by_cases e2 : b0 = 0xF4
                  · subst e2; exact Or.inr (Or.inr first_s7)
                  · exact Or.inr (Or.inl (first_s6 b0 (by omega)))
              have hacc : acceptRanges (first b0 >>> 4) = (loA b0, hiA b0) := by
                by_cases e1 : b0 = 0xF0
                · subst e1; rw [first_s5, a5]; rfl
                · by_cases e2 : b0 = 0xF4
                  · subst e2; rw [first_s7, a7]; rfl
                  · have e3 : b0 ≠ 0xE0 := by omega
                    have e4 : b0 ≠ 0xED := by omega
                    rw [first_s6 b0 (by omega), a6]; simp [loA, hiA, e1, e2, e3, e4]
              have hsz : first b0 &&& 7 = 4 := by
                rcases hx with e | e | e <;> rw [e] <;> assumption
              have hnas : ¬ first b0 ≥ as := by
                rcases hx with e | e | e <;> rw [e] <;> assumption
              simp only [DecodeRune, decodeA, byteAt, List.getD_cons_zero, h1, h2, h3, h4, h5, ↓reduceIte,
                hlen, hnas, hsz, hacc, decode4]
              rcases rest with _ | ⟨b1, r1⟩
              · simp
              · rcases r1 with _ | ⟨b2, r2⟩
                · simp
                · rcases r2 with _ | ⟨b3, r3⟩
                  · simp
                  · have hl : ¬ (b0 :: b1 :: b2 :: b3 :: r3).length < 4 := by simp
                    have h42 : ¬ ((4 : Nat) ≤ 2) := by decide
                    have h43 : ¬ ((4 : Nat) ≤ 3) := by decide
                    simp only [hl, ↓reduceIte, List.getD_cons_succ, List.getD_cons_zero, Nat.le_refl,
                      locb, hicb, h42, h43]
                    by_cases hb : loA b0 ≤ b1 ∧ b1 ≤ hiA b0
                    · have n1 : ¬ (b1 < loA b0 ∨ hiA b0 < b1) := by omega
                      by_cases hb2 : 0x80 ≤ b2 ∧ b2 ≤ 0xBF
                      · have n2 : ¬ (b2 < 0x80 ∨ 0xBF < b2) := by omega
                        by_cases hb3 : 0x80 ≤ b3 ∧ b3 ≤ 0xBF
                        · have n3 : ¬ (b3 < 0x80 ∨ 0xBF < b3) := by omega
                          simp only [hb, hb2, hb3, n1, n2, n3, ↓reduceIte, and_self]
                        · have n3 : (b3 < 0x80 ∨ 0xBF < b3) := by omega
                          have : ¬ (loA b0 ≤ b1 ∧ b1 ≤ hiA b0 ∧ 0x80 ≤ b2 ∧ b2 ≤ 0xBF ∧ 0x80 ≤ b3 ∧ b3 ≤ 0xBF) := by
                            omega
                          simp only [n1, n2, n3, this, ↓reduceIte]
                      · have n2 : (b2 < 0x80 ∨ 0xBF < b2) := by omega
                        have : ¬ (loA b0 ≤ b1 ∧ b1 ≤ hiA b0 ∧ 0x80 ≤ b2 ∧ b2 ≤ 0xBF ∧ 0x80 ≤ b3 ∧ b3 ≤ 0xBF) := by
                          omega
                        simp only [n1, n2, this, ↓reduceIte]
                    · have n1 : (b1 < loA b0 ∨ hiA b0 < b1) := by omega
                      have : ¬ (loA b0 ≤ b1 ∧ b1 ≤ hiA b0 ∧ 0x80 ≤ b2 ∧ b2 ≤ 0xBF ∧ 0x80 ≤ b3 ∧ b3 ≤ 0xBF) := by
                        omega
                      simp only [n1, this, ↓reduceIte]
            · simp only [DecodeRune, decodeA, byteAt, List.getD_cons_zero,
                first_xx b0 (Or.inr (by omega)), h1, h2, h3, h4, h5, ↓reduceIte, hlen, f2, decode_xx]

theorem FullRune_eq_fullA (p : List Nat) : FullRune p = fullA p := by
  rcases p with _ | ⟨b0, rest⟩
  · rfl
  · have hlen : ¬ (b0 :: rest).length = 0 := by simp
    simp only [FullRune, fullA, byteAt, List.getD_cons_zero, hlen, ↓reduceIte]
    by_cases h2 : b0 < 0xC2
    · have := class1 b0 (Or.inl h2)
      have hl : (b0 :: rest).length ≥ first b0 &&& 7 := by simp; omega
      simp only [hl, h2, ↓reduceIte]
    · by_cases h3 : b0 < 0xE0
      · obtain ⟨hsz, -, hacc⟩ := class2 b0 ⟨by omega, h3⟩
        simp only [h2, h3, ↓reduceIte, hsz, hacc]
        rcases rest with _ | ⟨b1, r1⟩
        · simp
        · simp
      · by_cases h4 : b0 < 0xF0
        · obtain ⟨hsz, -, hacc⟩ := class3 b0 ⟨by omega, h4⟩
          simp only [h2, h3, h4, ↓reduceIte, hsz, hacc, locb, hicb]
          rcases rest with _ | ⟨b1, r1⟩
          · simp
          · rcases r1 with _ | ⟨b2, r2⟩
            · simp
            · simp
        · by_cases h5 : b0 < 0xF5
          · obtain ⟨hsz, -, hacc⟩ := class4 b0 ⟨by omega, h5⟩
            simp only [h2, h3, h4, h5, ↓reduceIte, hsz, hacc, locb, hicb]
            rcases rest with _ | ⟨b1, r1⟩
            · simp
            · rcases r1 with _ | ⟨b2, r2⟩
              · simp
              · rcases r2 with _ | ⟨b3, r3⟩
                · simp
                · simp
          · have := class1 b0 (Or.inr (by omega))
            have hl : (b0 :: rest).length ≥ first b0 &&& 7 := by simp; omega
            simp only [hl, h2, h3, h4, h5, ↓reduceIte]

end utf8

namespace utf8

theorem shiftRight_cast (c k : Nat) : ((c : Int) >>> k) = ((c >>> k : Nat) : Int) := rfl

theorem toByte_cast (c : Nat) : toByte (c : Int) = c % 256 := by
  unfold toByte; omega

theorem toUint32_cast (c : Nat) (h : c < 4294967296) : toUint32 (c : Int) = c := by
  unfold toUint32; omega

theorem toByte_shift (c k : Nat) : toByte ((c : Int) >>> k) = (c / 2 ^ k) % 256 := by
  rw [shiftRight_cast, toByte_cast, Nat.shiftRight_eq_div_pow]

theorem lead2 (c : Nat) (h : c < 0x800) : t2 ||| toByte ((c : Int) >>> (6 : Nat)) = 0xC0 + c / 64 := by
  rw [toByte_shift, t2, Bits.t2_or _ (by omega)]; omega

theorem lead3 (c : Nat) (h : c < 0x10000) : t3 ||| toByte ((c : Int) >>> (12 : Nat)) = 0xE0 + c / 4096 := by
  rw [toByte_shift, t3, Bits.t3_or _ (by omega)]; omega

theorem lead4 (c : Nat) (h : c < 0x200000) : t4 ||| toByte ((c : Int) >>> (18 : Nat)) = 0xF0 + c / 262144 := by
  rw [toByte_shift, t4, Bits.t4_or _ (by omega)]; omega

theorem cont0 (c : Nat) : tx ||| (toByte (c : Int) &&& maskx) = 0x80 + c % 64 := by
  rw [toByte_cast, maskx, Bits.and_maskx, tx, Bits.tx_or _ (by omega)]; omega

theorem contk (c k : Nat) : tx ||| (toByte ((c : Int) >>> k) &&& maskx) = 0x80 + c / 2 ^ k % 64 := by
  rw [toByte_shift, maskx, Bits.and_maskx, tx, Bits.tx_or _ (by omega)]; omega

theorem EncodeRune_cast (c : Nat) (hc : c ≤ 0x10FFFF) (hs : ¬ (0xD800 ≤ c ∧ c ≤ 0xDFFF)) (q : List Nat) :
    EncodeRune q (c : Int) =
      if (runA c).length ≤ q.length then some (runA c ++ q.drop (runA c).length, (runA c).length)
      else none := by
  have hu : toUint32 (c : Int) = c := toUint32_cast c (by omega)
  have hmax : MaxRune.toNat = 0x10FFFF := by decide
  simp only [EncodeRune, hu, rune1Max, rune2Max, rune3Max, surrogateMin, surrogateMax, hmax]
  by_cases h1 : c < 0x80
  · have : c ≤ (1 <<< 7) - 1 := by simp; omega
    simp only [this, ↓reduceIte, runA, h1, toByte_cast]
    rcases q with _ | ⟨a, q⟩
    · simp [store]
    · simp [store]; omega
  · have n1 : ¬ c ≤ (1 <<< 7) - 1 := by simp; omega
    by_cases h2 : c < 0x800
    · have : c ≤ (1 <<< 11) - 1 := by simp; omega
      simp only [n1, this, ↓reduceIte, runA, h1, h2, lead2 c h2, cont0]
      rcases q with _ | ⟨a, _ | ⟨b, q⟩⟩
      · simp [store]
      · simp [store]
      · simp [store]
    · have n2 : ¬ c ≤ (1 <<< 11) - 1 := by simp; omega
      by_cases h3 : c < 0x10000
      · have e3 : c ≤ (1 <<< 16) - 1 := by simp; omega
        have e4 : ¬ (c > 0x10FFFF ∨ (0xD800 ≤ c ∧ c ≤ 0xDFFF)) := by omega
        simp only [n1, n2, e3, e4, ↓reduceIte, runA, h1, h2, h3, lead3 c h3, cont0, contk]
        rcases q with _ | ⟨a, _ | ⟨b, _ | ⟨d, q⟩⟩⟩
        · simp [store]
        · simp [store]
        · simp [store]
        · simp [store]
      · have e3 : ¬ c ≤ (1 <<< 16) - 1 := by simp; omega
        have e4 : ¬ (c > 0x10FFFF ∨ (0xD800 ≤ c ∧ c ≤ 0xDFFF)) := by omega
        simp only [n1, n2, e3, e4, ↓reduceIte, runA, h1, h2, h3, lead4 c (by omega), cont0, contk]
        rcases q with _ | ⟨a, _ | ⟨b, _ | ⟨d, _ | ⟨e, q⟩⟩⟩⟩
        · simp [store]
        · simp [store]
        · simp [store]
        · simp [store]
        · simp [store]

end utf8

namespace cesu8

theorem encodeUnit_cast (c : Nat) (hc : c < 0x10000) (q : List Nat) :
    encodeUnit q (c : Int) =
      if (utf8.runA c).length ≤ q.length then
        some (utf8.runA c ++ q.drop (utf8.runA c).length, (utf8.runA c).length)
      else none := by
  have hu : utf8.toUint32 (c : Int) = c := utf8.toUint32_cast c (by omega)
  simp only [encodeUnit, hu, utf8.rune1Max, utf8.rune2Max]
  by_cases h1 : c < 0x80
  · have : c ≤ (1 <<< 7) - 1 := by simp; omega
    simp only [this, ↓reduceIte, utf8.runA, h1, utf8.toByte_cast]
    rcases q with _ | ⟨a, q⟩
    · simp [utf8.store]
    · simp [utf8.store]; omega
  · have n1 : ¬ c ≤ (1 <<< 7) - 1 := by simp; omega
    by_cases h2 : c < 0x800
    · have : c ≤ (1 <<< 11) - 1 := by simp; omega
      simp only [n1, this, ↓reduceIte, utf8.runA, h1, h2, utf8.lead2 c h2, utf8.cont0]
      rcases q with _ | ⟨a, _ | ⟨b, q⟩⟩
      · simp [utf8.store]
      · simp [utf8.store]
      · simp [utf8.store]
    · have n2 : ¬ c ≤ (1 <<< 11) - 1 := by simp; omega
      simp only [n1, n2, ↓reduceIte, utf8.runA, h1, h2, hc, utf8.lead3 c hc, utf8.cont0, utf8.contk]
      rcases q with _ | ⟨a, _ | ⟨b, _ | ⟨d, q⟩⟩⟩
      · simp [utf8.store]
      · simp [utf8.store]
      · simp [utf8.store]
      · simp [utf8.store]

end cesu8

namespace utf16

theorem EncodeRune_surr (c : Nat) (h1 : 0x10000 ≤ c) (h2 : c ≤ 0x10FFFF) :
    EncodeRune (c : Int) =
      (((0xD800 + (c - 0x10000) / 1024 : Nat) : Int), ((0xDC00 + (c - 0x10000) % 1024 : Nat) : Int)) := by
  have e : (c : Int) - surrSelf = ((c - 0x10000 : Nat) : Int) := by
    simp only [surrSelf]; omega
  have n : ¬ ((c : Int) < surrSelf ∨ (c : Int) > maxRune) := by
    simp only [surrSelf, maxRune]; omega
  simp only [EncodeRune, n, ↓reduceIte, e, utf8.shiftRight_cast, Nat.shiftRight_eq_div_pow, surr1, surr2]
  refine Prod.ext ?_ ?_ <;> simp only <;> omega

end utf16

namespace utf8

theorem runA_length (c : Nat) : (runA c).length =
    if c < 0x80 then 1 else if c < 0x800 then 2 else if c < 0x10000 then 3 else 4 := by
  unfold runA
  split_ifs <;> rfl

theorem RuneLen_cast (c : Nat) (hc : c ≤ 0x10FFFF) (hs : ¬ (0xD800 ≤ c ∧ c ≤ 0xDFFF)) :
    RuneLen (c : Int) = ((runA c).length : Nat) := by
  rw [runA_length]
  simp only [RuneLen, rune1Max, rune2Max, rune3Max, surrogateMin, surrogateMax, MaxRune]
  have e1 : ((1 <<< 7 - 1 : Nat) : Int) = 127 := by decide
  have e2 : ((1 <<< 11 - 1 : Nat) : Int) = 2047 := by decide
  have e3 : ((1 <<< 16 - 1 : Nat) : Int) = 65535 := by decide
  simp only [e1, e2, e3]
  split_ifs <;> first | rfl | omega

end utf8

namespace cesu8

theorem runA_length_cesu (c : Nat) (hc : c ≤ 0x10FFFF) :
    (runA c).length = if c < 0x10000 then (utf8.runA c).length else 6 := by
  unfold runA
  by_cases h : c < 0x10000
  · simp only [h, ↓reduceIte]
  · simp only [h, ↓reduceIte, List.length_append, utf8.runA_length]
    have a1 : ¬ (0xD800 + (c - 0x10000) / 1024 < 0x80) := by omega
    have a2 : ¬ (0xD800 + (c - 0x10000) / 1024 < 0x800) := by omega
    have b1 : ¬ (0xDC00 + (c - 0x10000) % 1024 < 0x80) := by omega
    have b2 : ¬ (0xDC00 + (c - 0x10000) % 1024 < 0x800) := by omega
    rw [if_neg a1, if_neg a2, if_pos (by omega), if_neg b1, if_neg b2, if_pos (by omega)]

theorem RuneLen_cast_if (c : Nat) (hc : c ≤ 0x10FFFF) :
    RuneLen (c : Int)
      = (if c < 0x80 then 1 else if c < 0x800 then 2 else if c < 0x10000 then 3 else 6 : Nat) := by
  simp only [RuneLen, utf8.rune1Max, utf8.rune2Max, utf8.rune3Max, utf8.MaxRune, CESUMax]
  have e1 : ((1 <<< 7 - 1 : Nat) : Int) = 127 := by decide
  have e2 : ((1 <<< 11 - 1 : Nat) : Int) = 2047 := by decide
  have e3 : ((1 <<< 16 - 1 : Nat) : Int) = 65535 := by decide
  simp only [e1, e2, e3]
  split_ifs <;> omega

theorem runA_length_if (c : Nat) (hc : c ≤ 0x10FFFF) :
    (runA c).length = if c < 0x80 then 1 else if c < 0x800 then 2 else if c < 0x10000 then 3 else 6 := by
  rw [runA_length_cesu c hc, utf8.runA_length]
  split_ifs <;> first | rfl | omega

theorem RuneLen_cast_cesu (c : Nat) (hc : c ≤ 0x10FFFF) :
    RuneLen (c : Int) = ((runA c).length : Nat) := by
  have h1 := RuneLen_cast_if c hc
  have h2 := runA_length_if c hc
  rw [h2]
  exact h1

theorem encodePair_cast (hi lo : Nat) (bhi : 0x800 ≤ hi ∧ hi < 0x10000)
    (blo : 0x800 ≤ lo ∧ lo < 0x10000) (q : List Nat) :
    encodePair q (hi : Int) (lo : Int) =
      if 6 ≤ q.length then some (utf8.runA hi ++ utf8.runA lo ++ q.drop 6, 6) else none := by
  have l1 : (utf8.runA hi).length = 3 := by
    rw [utf8.runA_length, if_neg (by omega), if_neg (by omega), if_pos (by omega)]
  have l2 : (utf8.runA lo).length = 3 := by
    rw [utf8.runA_length, if_neg (by omega), if_neg (by omega), if_pos (by omega)]
  have hd : List.drop 3 (utf8.runA hi ++ List.drop 3 q) = List.drop 3 q := by
    rw [List.drop_append_of_le_length (by omega), List.drop_of_length_le (by omega), List.nil_append]
  have ht : List.take 3 (utf8.runA hi ++ List.drop 3 q) = utf8.runA hi := by
    rw [List.take_append_of_le_length (by omega), List.take_of_length_le (by omega)]
  rw [encodePair, encodeUnit_cast _ bhi.2, l1]
  by_cases hq3 : 3 ≤ q.length
  · rw [if_pos hq3]
    simp only [hd, ht]
    rw [encodeUnit_cast _ blo.2, l2, List.length_drop]
    by_cases hq : 6 ≤ q.length
    · rw [if_pos (show 3 ≤ q.length - 3 by omega), if_pos hq]
      simp only [List.drop_drop, List.append_assoc]
    · rw [if_neg (show ¬ 3 ≤ q.length - 3 by omega), if_neg hq]
  · rw [if_neg hq3, if_neg (show ¬ 6 ≤ q.length by omega)]

theorem EncodeRune_cast_cesu (c : Nat) (hc : c ≤ 0x10FFFF) (q : List Nat) :
    EncodeRune q (c : Int) =
      if (runA c).length ≤ q.length then some (runA c ++ q.drop (runA c).length, (runA c).length)
      else none := by
  have e3 : ((utf8.rune3Max : Nat) : Int) = 65535 := by decide
  by_cases h : c < 0x10000
  · have h2 : (c : Int) ≤ (utf8.rune3Max : Nat) := by rw [e3]; omega
    rw [EncodeRune, if_pos h2, encodeUnit_cast c h, runA, if_pos h]
  · have h2 : ¬ (c : Int) ≤ (utf8.rune3Max : Nat) := by rw [e3]; omega
    have hl := runA_length_cesu c hc
    rw [if_neg h] at hl
    have p1 : (utf16.EncodeRune (c : Int)).1 = ((0xD800 + (c - 0x10000) / 1024 : Nat) : Int) := by
      rw [utf16.EncodeRune_surr c (by omega) hc]
    have p2 : (utf16.EncodeRune (c : Int)).2 = ((0xDC00 + (c - 0x10000) % 1024 : Nat) : Int) := by
      rw [utf16.EncodeRune_surr c (by omega) hc]
    rw [EncodeRune, if_neg h2, hl, p1, p2, encodePair_cast _ _ (by omega) (by omega), runA, if_neg h]

end cesu8

namespace utf8
theorem rune1Max_eq : rune1Max = 127 := by decide
theorem rune2Max_eq : rune2Max = 2047 := by decide
theorem rune3Max_eq : rune3Max = 65535 := by decide
end utf8

namespace cesu8

/-- A valid unit is the UTF-8 pattern of a value below `0x10000`. -/
theorem decodeUnit_valid (p : List Nat) (h : (decodeUnit p).1 ≠ utf8.RuneError) :
    ∃ u : Nat, u < 0x10000 ∧ ∃ t, p = utf8.runA u ++ t ∧
      decodeUnit p = ((u : Int), (utf8.runA u).length, false) := by
  rcases p with _ | ⟨b0, rest⟩
  · simp [decodeUnit] at h
  · simp only [decodeUnit, utf8.byteAt, List.getD_cons_zero, utf8.tx, utf8.t2, utf8.t4, utf8.t3,
      utf8.locb, utf8.hicb, utf8.rune1Max_eq, utf8.rune2Max_eq, utf8.decode2, utf8.decode3] at h ⊢
    by_cases h1 : b0 < 0x80
    · refine ⟨b0, by omega, rest, ?_, ?_⟩
      · simp [utf8.runA, h1]
      · simp [utf8.runA, h1]
    · simp only [h1, ↓reduceIte] at h ⊢
      by_cases h2 : b0 < 0xC0
      · simp [h2] at h
      · simp only [h2, ↓reduceIte] at h ⊢
        by_cases h3 : 0xF0 ≤ b0
        · simp [h3] at h
        · simp only [h3, ↓reduceIte] at h ⊢
          rcases rest with _ | ⟨b1, r1⟩
          · simp at h
          · have hl : ¬ (b0 :: b1 :: r1).length < 2 := by simp
            simp only [hl, ↓reduceIte, List.getD_cons_succ, List.getD_cons_zero] at h ⊢
            by_cases hb1 : b1 < 0x80 ∨ 0xBF < b1
            · simp [hb1] at h
            · simp only [hb1, ↓reduceIte] at h ⊢
              by_cases h4 : b0 < 0xE0
              · simp only [h4, ↓reduceIte] at h ⊢
                by_cases hov : b0 % 32 * 64 + b1 % 64 ≤ 127
                · simp [hov] at h
                · simp only [hov, ↓reduceIte] at h ⊢
                  refine ⟨b0 % 32 * 64 + b1 % 64, by omega, r1, ?_, ?_⟩
                  · have e1 : ¬ b0 % 32 * 64 + b1 % 64 < 0x80 := by omega
                    have e2 : b0 % 32 * 64 + b1 % 64 < 0x800 := by omega
                    simp only [utf8.runA, e1, e2, ↓reduceIte, List.cons_append, List.nil_append]
                    congr 1
                    · omega
                    · congr 1; omega
                  · have e1 : ¬ b0 % 32 * 64 + b1 % 64 < 0x80 := by omega
                    have e2 : b0 % 32 * 64 + b1 % 64 < 0x800 := by omega
                    simp [utf8.runA, e1, e2]
              · simp only [h4, ↓reduceIte] at h ⊢
                rcases r1 with _ | ⟨b2, r2⟩
                · simp at h
                · have hl3 : ¬ (b0 :: b1 :: b2 :: r2).length < 3 := by simp
                  simp only [hl3, ↓reduceIte, List.getD_cons_succ, List.getD_cons_zero] at h ⊢
                  by_cases hb2 : b2 < 0x80 ∨ 0xBF < b2
                  · simp [hb2] at h
                  · simp only [hb2, ↓reduceIte] at h ⊢
                    by_cases hov : b0 % 16 * 4096 + b1 % 64 * 64 + b2 % 64 ≤ 2047
                    · simp [hov] at h
                    · simp only [hov, ↓reduceIte] at h ⊢
                      have e1 : ¬ b0 % 16 * 4096 + b1 % 64 * 64 + b2 % 64 < 0x80 := by omega
                      have e2 : ¬ b0 % 16 * 4096 + b1 % 64 * 64 + b2 % 64 < 0x800 := by omega
                      have e3 : b0 % 16 * 4096 + b1 % 64 * 64 + b2 % 64 < 0x10000 := by omega
                      refine ⟨b0 % 16 * 4096 + b1 % 64 * 64 + b2 % 64, e3, r2, ?_, ?_⟩
                      · simp only [utf8.runA, e1, e2, e3, ↓reduceIte, List.cons_append, List.nil_append]
                        congr 1
                        · omega
                        · congr 1
                          · omega
                          · congr 1; omega
                      · simp [utf8.runA, e1, e2, e3]

end cesu8

namespace utf8

theorem decodeA_run (c : Nat) (hc : c ≤ 0x10FFFF) (hs : ¬ (0xD800 ≤ c ∧ c ≤ 0xDFFF)) (t : List Nat) :
    decodeA (runA c ++ t) = ((c : Int), (runA c).length) ∧ fullA (runA c ++ t) = true := by
  by_cases h1 : c < 0x80
  · simp only [runA, h1, ↓reduceIte, List.cons_append, List.nil_append, decodeA, fullA]
    have : c < 0xC2 := by omega
    simp [this]
  · by_cases h2 : c < 0x800
    · have a1 : ¬ 0xC0 + c / 64 < 0x80 := by omega
      have a2 : ¬ 0xC0 + c / 64 < 0xC2 := by omega
      have a3 : 0xC0 + c / 64 < 0xE0 := by omega
      have a4 : 0x80 ≤ 0x80 + c % 64 ∧ 0x80 + c % 64 ≤ 0xBF := by omega
      have a5 : (0xC0 + c / 64) % 32 * 64 + (0x80 + c % 64) % 64 = c := by omega
      simp only [runA, h1, h2, ↓reduceIte, List.cons_append, List.nil_append, decodeA, fullA, a1, a2, a3,
        a4, a5, and_self]
      simp
    · by_cases h3 : c < 0x10000
      · have a1 : ¬ 0xE0 + c / 4096 < 0x80 := by omega
        have a2 : ¬ 0xE0 + c / 4096 < 0xC2 := by omega
        have a3 : ¬ 0xE0 + c / 4096 < 0xE0 := by omega
        have a3b : 0xE0 + c / 4096 < 0xF0 := by omega
        have a4 : loA (0xE0 + c / 4096) ≤ 0x80 + c / 64 % 64 ∧ 0x80 + c / 64 % 64 ≤ hiA (0xE0 + c / 4096)
            ∧ 0x80 ≤ 0x80 + c % 64 ∧ 0x80 + c % 64 ≤ 0xBF := by
          unfold loA hiA
          split_ifs <;> omega
        have a5 : (0xE0 + c / 4096) % 16 * 4096 + (0x80 + c / 64 % 64) % 64 * 64 + (0x80 + c % 64) % 64 = c := by
          omega
        simp only [runA, h1, h2, h3, ↓reduceIte, List.cons_append, List.nil_append, decodeA, fullA, a1, a2,
          a3, a3b, a4, a5, and_self]
        simp
      · have a1 : ¬ 0xF0 + c / 262144 < 0x80 := by omega
        have a2 : ¬ 0xF0 + c / 262144 < 0xC2 := by omega
        have a3 : ¬ 0xF0 + c / 262144 < 0xE0 := by omega
        have a3b : ¬ 0xF0 + c / 262144 < 0xF0 := by omega
        have a3c : 0xF0 + c / 262144 < 0xF5 := by omega
        have a4 : loA (0xF0 + c / 262144) ≤ 0x80 + c / 4096 % 64
            ∧ 0x80 + c / 4096 % 64 ≤ hiA (0xF0 + c / 262144)
            ∧ 0x80 ≤ 0x80 + c / 64 % 64 ∧ 0x80 + c / 64 % 64 ≤ 0xBF
            ∧ 0x80 ≤ 0x80 + c % 64 ∧ 0x80 + c % 64 ≤ 0xBF := by
          unfold loA hiA
          split_ifs <;> omega
        have a5 : (0xF0 + c / 262144) % 8 * 262144 + (0x80 + c / 4096 % 64) % 64 * 4096
            + (0x80 + c / 64 % 64) % 64 * 64 + (0x80 + c % 64) % 64 = c := by
          omega
        simp only [runA, h1, h2, h3, ↓reduceIte, List.cons_append, List.nil_append, decodeA, fullA, a1, a2,
          a3, a3b, a3c, a4, a5, and_self]
        simp

end utf8

namespace utf8

theorem loA_spec (b0 b1 : Nat) (h : loA b0 ≤ b1) :
    0x80 ≤ b1 ∧ (b0 = 0xE0 → 0xA0 ≤ b1) ∧ (b0 = 0xF0 → 0x90 ≤ b1) := by
  unfold loA at h
  split_ifs at h <;> omega

theorem hiA_spec (b0 b1 : Nat) (h : b1 ≤ hiA b0) :
    b1 ≤ 0xBF ∧ (b0 = 0xED → b1 ≤ 0x9F) ∧ (b0 = 0xF4 → b1 ≤ 0x8F) := by
  unfold hiA at h
  split_ifs at h <;> omega

theorem decodeA_valid (p : List Nat) (h : (decodeA p).1 ≠ RuneError) :
    ∃ c : Nat, c ≤ 0x10FFFF ∧ ¬ (0xD800 ≤ c ∧ c ≤ 0xDFFF) ∧ ∃ t, p = runA c ++ t ∧
      decodeA p = ((c : Int), (runA c).length) := by
  rcases p with _ | ⟨b0, rest⟩
  · simp [decodeA] at h
  · simp only [decodeA] at h ⊢
    by_cases h1 : b0 < 0x80
    · refine ⟨b0, by omega, by omega, rest, ?_, ?_⟩
      · simp [runA, h1]
      · simp [runA, h1]
    · simp only [h1, ↓reduceIte] at h ⊢
      by_cases h2 : b0 < 0xC2
      · simp [h2] at h
      · simp only [h2, ↓reduceIte] at h ⊢
        by_cases h3 : b0 < 0xE0
        · simp only [h3, ↓reduceIte] at h ⊢
          rcases rest with _ | ⟨b1, r1⟩
          · simp at h
          · simp only at h ⊢
            by_cases hb1 : 0x80 ≤ b1 ∧ b1 ≤ 0xBF
            · simp only [hb1, and_self, ↓reduceIte] at h ⊢
              have e1 : ¬ b0 % 32 * 64 + b1 % 64 < 0x80 := by omega
              have e2 : b0 % 32 * 64 + b1 % 64 < 0x800 := by omega
              refine ⟨b0 % 32 * 64 + b1 % 64, by omega, by omega, r1, ?_, ?_⟩
              · simp only [runA, e1, e2, ↓reduceIte, List.cons_append, List.nil_append]
                congr 1
                · omega
                · congr 1; omega
              · simp [runA, e1, e2]
            · simp [hb1] at h
        · simp only [h3, ↓reduceIte] at h ⊢
          by_cases h4 : b0 < 0xF0
          · simp only [h4, ↓reduceIte] at h ⊢
            rcases rest with _ | ⟨b1, _ | ⟨b2, r2⟩⟩
            · simp at h
            · simp at h
            · simp only at h ⊢
              by_cases hb : loA b0 ≤ b1 ∧ b1 ≤ hiA b0 ∧ 0x80 ≤ b2 ∧ b2 ≤ 0xBF
              · simp only [hb, and_self, ↓reduceIte] at h ⊢
                obtain ⟨l1, l2, l3⟩ := loA_spec b0 b1 hb.1
                obtain ⟨u1, u2, u3⟩ := hiA_spec b0 b1 hb.2.1
                have e1 : ¬ b0 % 16 * 4096 + b1 % 64 * 64 + b2 % 64 < 0x80 := by omega
                have e2 : ¬ b0 % 16 * 4096 + b1 % 64 * 64 + b2 % 64 < 0x800 := by omega
                have e3 : b0 % 16 * 4096 + b1 % 64 * 64 + b2 % 64 < 0x10000 := by omega
                refine ⟨b0 % 16 * 4096 + b1 % 64 * 64 + b2 % 64, by omega, ?_, r2, ?_, ?_⟩
                · omega
                · simp only [runA, e1, e2, e3, ↓reduceIte, List.cons_append, List.nil_append]
                  congr 1
                  · omega
                  · congr 1
                    · omega
                    · congr 1; omega
                · simp [runA, e1, e2, e3]
              · simp [hb] at h
          · simp only [h4, ↓reduceIte] at h ⊢
            by_cases h5 : b0 < 0xF5
            · simp only [h5, ↓reduceIte] at h ⊢
              rcases rest with _ | ⟨b1, _ | ⟨b2, _ | ⟨b3, r3⟩⟩⟩
              · simp at h
              · simp at h
              · simp at h
              · simp only at h ⊢
                by_cases hb : loA b0 ≤ b1 ∧ b1 ≤ hiA b0 ∧ 0x80 ≤ b2 ∧ b2 ≤ 0xBF ∧ 0x80 ≤ b3 ∧ b3 ≤ 0xBF
                · simp only [hb, and_self, ↓reduceIte] at h ⊢
                  obtain ⟨l1, l2, l3⟩ := loA_spec b0 b1 hb.1
                  obtain ⟨u1, u2, u3⟩ := hiA_spec b0 b1 hb.2.1
                  have e3 : ¬ b0 % 8 * 262144 + b1 % 64 * 4096 + b2 % 64 * 64 + b3 % 64 < 0x10000 := by omega
                  have e1 : ¬ b0 % 8 * 262144 + b1 % 64 * 4096 + b2 % 64 * 64 + b3 % 64 < 0x80 := by omega
                  have e2 : ¬ b0 % 8 * 262144 + b1 % 64 * 4096 + b2 % 64 * 64 + b3 % 64 < 0x800 := by omega
                  refine ⟨b0 % 8 * 262144 + b1 % 64 * 4096 + b2 % 64 * 64 + b3 % 64, ?_, by omega, r3, ?_, ?_⟩
                  · omega
                  · simp only [runA, e1, e2, e3, ↓reduceIte, List.cons_append, List.nil_append]
                    congr 1
                    · omega
                    · congr 1
                      · omega
                      · congr 1
                        · omega
                        · congr 1; omega
                  · simp [runA, e1, e2, e3]
                · simp [hb] at h
            · simp [h5] at h

end utf8

namespace cesu8

theorem decodeUnit_run (u : Nat) (hu : u < 0x10000) (t : List Nat) :
    decodeUnit (utf8.runA u ++ t) = ((u : Int), (utf8.runA u).length, false) := by
  by_cases h1 : u < 0x80
  · simp only [utf8.runA, h1, ↓reduceIte, List.cons_append, List.nil_append, decodeUnit, utf8.byteAt,
      List.getD_cons_zero, utf8.tx]
    simp [h1]
  · by_cases h2 : u < 0x800
    · have a1 : ¬ 0xC0 + u / 64 < 0x80 := by omega
      have a2 : ¬ 0xC0 + u / 64 < 0xC0 := by omega
      have a3 : ¬ 0xF0 ≤ 0xC0 + u / 64 := by omega
      have a4 : ¬ (0x80 + u % 64 < 0x80 ∨ 0xBF < 0x80 + u % 64) := by omega
      have a5 : 0xC0 + u / 64 < 0xE0 := by omega
      have a6 : (0xC0 + u / 64) % 32 * 64 + (0x80 + u % 64) % 64 = u := by omega
      have a7 : ¬ u ≤ 127 := by omega
      simp only [utf8.runA, h1, h2, ↓reduceIte, List.cons_append, List.nil_append, decodeUnit, utf8.byteAt,
        List.getD_cons_zero, List.getD_cons_succ, utf8.tx, utf8.t2, utf8.t3, utf8.t4, utf8.locb,
        utf8.hicb, utf8.rune1Max_eq, utf8.decode2, a1, a2, a3, a4, a5, a6, a7]
      simp
    · have a1 : ¬ 0xE0 + u / 4096 < 0x80 := by omega
      have a2 : ¬ 0xE0 + u / 4096 < 0xC0 := by omega
      have a3 : ¬ 0xF0 ≤ 0xE0 + u / 4096 := by omega
      have a4 : ¬ (0x80 + u / 64 % 64 < 0x80 ∨ 0xBF < 0x80 + u / 64 % 64) := by omega
      have a4b : ¬ (0x80 + u % 64 < 0x80 ∨ 0xBF < 0x80 + u % 64) := by omega
      have a5 : ¬ 0xE0 + u / 4096 < 0xE0 := by omega
      have a6 : (0xE0 + u / 4096) % 16 * 4096 + (0x80 + u / 64 % 64) % 64 * 64 + (0x80 + u % 64) % 64 = u := by
        omega
      have a7 : ¬ u ≤ 2047 := by omega
      simp only [utf8.runA, h1, h2, hu, ↓reduceIte, List.cons_append, List.nil_append, decodeUnit,
        utf8.byteAt, List.getD_cons_zero, List.getD_cons_succ, utf8.tx, utf8.t2, utf8.t3, utf8.t4,
        utf8.locb, utf8.hicb, utf8.rune2Max_eq, utf8.decode3, a1, a2, a3, a4, a4b, a5, a6, a7]
      simp
      rw [if_neg (by omega), if_neg (by omega)]

theorem isHigh_cast (u : Nat) : isHighSurrogate (u : Int) = decide (0xD800 ≤ u ∧ u < 0xDC00) := by
  simp only [isHighSurrogate, utf16.surr1, utf16.surr2]
  apply decide_eq_decide.mpr
  omega

theorem isLow_cast (u : Nat) : isLowSurrogate (u : Int) = decide (0xDC00 ≤ u ∧ u < 0xE000) := by
  simp only [isLowSurrogate, utf16.surr2, utf16.surr3]
  apply decide_eq_decide.mpr
  omega

theorem isHigh_RuneError : isHighSurrogate utf8.RuneError = false := by decide
theorem isLow_RuneError : isLowSurrogate utf8.RuneError = false := by decide

theorem DecodeRune_unit (u : Nat) (hu : u < 0x10000) (hs : ¬ (0xD800 ≤ u ∧ u ≤ 0xDFFF)) (t : List Nat) :
    FullRune (utf8.runA u ++ t) = true ∧
      DecodeRune (utf8.runA u ++ t) = ((u : Int), (utf8.runA u).length) := by
  have hh : isHighSurrogate (u : Int) = false := by
    rw [isHigh_cast]; apply decide_eq_false; omega
  have hl : isLowSurrogate (u : Int) = false := by
    rw [isLow_cast]; apply decide_eq_false; omega
  simp [FullRune, DecodeRune, decodeUnit_run u hu t, hh, hl]

theorem DecodeRune_pair (hi lo : Nat) (bhi : 0xD800 ≤ hi ∧ hi < 0xDC00) (blo : 0xDC00 ≤ lo ∧ lo < 0xE000)
    (t : List Nat) :
    FullRune (utf8.runA hi ++ utf8.runA lo ++ t) = true ∧
      DecodeRune (utf8.runA hi ++ utf8.runA lo ++ t)
        = ((((hi - 0xD800) * 0x400 + (lo - 0xDC00) + 0x10000 : Nat) : Int), 6) := by
  have hh : isHighSurrogate (hi : Int) = true := by
    rw [isHigh_cast]; apply decide_eq_true; omega
  have hl : isLowSurrogate (hi : Int) = false := by
    rw [isLow_cast]; apply decide_eq_false; omega
  have hl2 : isLowSurrogate (lo : Int) = true := by
    rw [isLow_cast]; apply decide_eq_true; omega
  have l1 : (utf8.runA hi).length = 3 := by
    rw [utf8.runA_length, if_neg (by omega), if_neg (by omega), if_pos (by omega)]
  have l2 : (utf8.runA lo).length = 3 := by
    rw [utf8.runA_length, if_neg (by omega), if_neg (by omega), if_pos (by omega)]
  have d1 := decodeUnit_run hi (by omega) (utf8.runA lo ++ t)
  have d2 := decodeUnit_run lo (by omega) t
  rw [l1] at d1
  rw [l2] at d2
  have hd : List.drop 3 (utf8.runA hi ++ (utf8.runA lo ++ t)) = utf8.runA lo ++ t := by
    rw [List.drop_append_of_le_length (by omega), List.drop_of_length_le (by omega), List.nil_append]
  have hj : utf16.DecodeRune (hi : Int) (lo : Int)
      = (((hi - 0xD800) * 0x400 + (lo - 0xDC00) + 0x10000 : Nat) : Int) := by
    have c1 : utf16.surr1 ≤ (hi : Int) ∧ (hi : Int) < utf16.surr2 ∧ utf16.surr2 ≤ (lo : Int)
        ∧ (lo : Int) < utf16.surr3 := by
      simp only [utf16.surr1, utf16.surr2, utf16.surr3]; omega
    rw [utf16.DecodeRune, if_pos c1]
    simp only [utf16.surr1, utf16.surr2, utf16.surrSelf]
    omega
  simp only [List.append_assoc, FullRune, DecodeRune, d1, d2, hd, hh, hl, hl2, hj]
  simp

theorem runA_pair (hi lo : Nat) (bhi : 0xD800 ≤ hi ∧ hi < 0xDC00) (blo : 0xDC00 ≤ lo ∧ lo < 0xE000) :
    runA ((hi - 0xD800) * 0x400 + (lo - 0xDC00) + 0x10000) = utf8.runA hi ++ utf8.runA lo := by
  have e1 : 0xD800 + ((hi - 0xD800) * 0x400 + (lo - 0xDC00) + 0x10000 - 0x10000) / 1024 = hi := by omega
  have e2 : 0xDC00 + ((hi - 0xD800) * 0x400 + (lo - 0xDC00) + 0x10000 - 0x10000) % 1024 = lo := by omega
  rw [runA, if_neg (by omega), e1, e2]

theorem DecodeRune_run (c : Nat) (hc : c ≤ 0x10FFFF) (hs : ¬ (0xD800 ≤ c ∧ c ≤ 0xDFFF)) (t : List Nat) :
    FullRune (runA c ++ t) = true ∧ DecodeRune (runA c ++ t) = ((c : Int), (runA c).length) := by
  by_cases h : c < 0x10000
  · rw [runA, if_pos h]
    exact DecodeRune_unit c h hs t
  · obtain ⟨hi, hhi⟩ : ∃ hi : Nat, hi = 0xD800 + (c - 0x10000) / 1024 := ⟨_, rfl⟩
    obtain ⟨lo, hlo⟩ : ∃ lo : Nat, lo = 0xDC00 + (c - 0x10000) % 1024 := ⟨_, rfl⟩
    have bhi : 0xD800 ≤ hi ∧ hi < 0xDC00 := by omega
    have blo : 0xDC00 ≤ lo ∧ lo < 0xE000 := by omega
    have hcv : (hi - 0xD800) * 0x400 + (lo - 0xDC00) + 0x10000 = c := by omega
    have hl := runA_length_cesu c hc
    rw [if_neg h] at hl
    have hr : runA c = utf8.runA hi ++ utf8.runA lo := by
      rw [← hcv]; exact runA_pair hi lo bhi blo
    have := DecodeRune_pair hi lo bhi blo t
    rw [hcv] at this
    rw [hl, hr]
    exact this

theorem DecodeRune_valid (p : List Nat) (h : (DecodeRune p).1 ≠ utf8.RuneError) :
    ∃ c : Nat, c ≤ 0x10FFFF ∧ ¬ (0xD800 ≤ c ∧ c ≤ 0xDFFF) ∧ ∃ t, p = runA c ++ t ∧
      DecodeRune p = ((c : Int), (runA c).length) := by
  by_cases hlo : isLowSurrogate (decodeUnit p).1 = true
  · simp [DecodeRune, hlo] at h
  · by_cases hhi : isHighSurrogate (decodeUnit p).1 = true
    · have hne : (decodeUnit p).1 ≠ utf8.RuneError := by
        intro e; rw [e, isHigh_RuneError] at hhi; exact absurd hhi (by simp)
      obtain ⟨u, hu, t1, hp, hd⟩ := decodeUnit_valid p hne
      rw [hd] at hhi hlo
      rw [isHigh_cast] at hhi
      have bhi : 0xD800 ≤ u ∧ u < 0xDC00 := by simpa using hhi
      have l1 : (utf8.runA u).length = 3 := by
        rw [utf8.runA_length, if_neg (by omega), if_neg (by omega), if_pos (by omega)]
      by_cases hlo2 : isLowSurrogate (decodeUnit (p.drop 3)).1 = true
      · have hne2 : (decodeUnit (p.drop 3)).1 ≠ utf8.RuneError := by
          intro e; rw [e, isLow_RuneError] at hlo2; exact absurd hlo2 (by simp)
        obtain ⟨v, hv, t2, hp2, hd2⟩ := decodeUnit_valid (p.drop 3) hne2
        rw [hd2, isLow_cast] at hlo2
        have blo : 0xDC00 ≤ v ∧ v < 0xE000 := by simpa using hlo2
        have hdrop : p.drop 3 = t1 := by
          rw [hp, List.drop_append_of_le_length (by omega), List.drop_of_length_le (by omega),
            List.nil_append]
        have hp3 : p = utf8.runA u ++ utf8.runA v ++ t2 := by
          rw [hdrop] at hp2
          rw [hp, hp2, List.append_assoc]
        refine ⟨(u - 0xD800) * 0x400 + (v - 0xDC00) + 0x10000, by omega, by omega, t2, ?_, ?_⟩
        · rw [runA_pair u v bhi blo]; exact hp3
        · have := (DecodeRune_pair u v bhi blo t2).2
          rw [← hp3] at this
          rw [this, runA_pair u v bhi blo, List.length_append, l1]
          have l2 : (utf8.runA v).length = 3 := by
            rw [utf8.runA_length, if_neg (by omega), if_neg (by omega), if_pos (by omega)]
          rw [l2]
      · exfalso
        apply h
        have hlo1 : isLowSurrogate (u : Int) = false := by
          rw [isLow_cast]; apply decide_eq_false; omega
        have hhi1 : isHighSurrogate (u : Int) = true := by
          rw [isHigh_cast]; apply decide_eq_true; omega
        simp only [DecodeRune, hd, hlo1, hhi1, l1]
        simp [hlo2]
    · have hne : (decodeUnit p).1 ≠ utf8.RuneError := by
        intro e; apply h; simp [DecodeRune, e, isLow_RuneError, isHigh_RuneError]
      obtain ⟨u, hu, t1, hp, hd⟩ := decodeUnit_valid p hne
      rw [hd] at hhi hlo
      rw [isHigh_cast] at hhi
      rw [isLow_cast] at hlo
      have b1 : ¬ (0xD800 ≤ u ∧ u < 0xDC00) := by simpa using hhi
      have b2 : ¬ (0xDC00 ≤ u ∧ u < 0xE000) := by simpa using hlo
      have hs : ¬ (0xD800 ≤ u ∧ u ≤ 0xDFFF) := by omega
      refine ⟨u, by omega, hs, t1, ?_, ?_⟩
      · rw [runA, if_pos hu]; exact hp
      · rw [runA, if_pos hu]
        have := (DecodeRune_unit u hu hs t1).2
        rw [← hp] at this
        exact this

end cesu8

theorem Codec.transform_nil (c : Codec) (hc : c.Lawful) (dst : List Nat) :
    c.transform dst [] = Outcome.ret dst 0 0 none := by
  rw [c.transform_eq hc]; simp

theorem Codec.transform_ascii (c : Codec) (hc : c.Lawful) (dst : List Nat) (b : Nat) (s : List Nat)
    (hb : b < 0x80) :
    c.transform dst (b :: s) =
      if 0 < dst.length then Outcome.shift [b] 1 1 (c.transform (dst.drop 1) s)
      else Outcome.ret dst 0 0 (some Error.ErrShortDst) := by
  rw [c.transform_eq hc]
  have hb2 : b < utf8.RuneSelf := hb
  simp [hb2]

/-- A run of the source encoding at the head of the source is transcoded as a
whole or not at all. -/
theorem Codec.transform_run (c : Codec) (hc : c.Lawful) (srcRun dstRun : Nat → List Nat)
    (hr : c.Runs srcRun dstRun) (u : Nat) (hu : isScalar u) (hne : (u : Int) ≠ utf8.RuneError)
    (dst t : List Nat) :
    c.transform dst (srcRun u ++ t) =
      if (dstRun u).length ≤ dst.length then
        Outcome.shift (dstRun u) (srcRun u).length (dstRun u).length
          (c.transform (dst.drop (dstRun u).length) t)
      else Outcome.ret dst 0 0 (some Error.ErrShortDst) := by
  by_cases h1 : u < 0x80
  · rw [hr.src_ascii u h1, hr.dst_ascii u h1]
    simp only [List.cons_append, List.nil_append, List.length_singleton]
    rw [c.transform_ascii hc dst u t h1]
    rfl
  · obtain ⟨b, s, hs, hb⟩ := hr.src_head u hu (by omega)
    obtain ⟨hfull, hdec⟩ := hr.decode_run u hu hne t
    obtain ⟨hlen, henc⟩ := hr.encode u hu (by omega)
    rw [c.transform_eq hc]
    have hlen0 : 0 < (srcRun u ++ t).length := by rw [hs]; simp
    have hb0 : (srcRun u ++ t)[0] = b := by simp [hs]
    have hnb : ¬ b < utf8.RuneSelf := by simp only [utf8.RuneSelf]; omega
    have hm1 : ¬ ((dstRun u).length : Int) = -1 := by omega
    simp only [hlen0, ↓reduceDIte, hb0, hnb, ↓reduceIte, hfull, Bool.not_true, Bool.false_eq_true, hdec,
      hne, hlen, hm1, Nat.cast_le, Int.toNat_ofNat]
    by_cases hfit : (dstRun u).length ≤ dst.length
    · simp only [hfit, ↓reduceIte, henc dst hfit]
      simp
    · simp only [hfit, ↓reduceIte]

/-- At the head of any source there is a run of a scalar value, or the call
returns (or aborts) before consuming or writing anything, in the same way for
every destination. -/
theorem Codec.head_cases (c : Codec) (hc : c.Lawful) (srcRun dstRun : Nat → List Nat)
    (hr : c.Runs srcRun dstRun) (src : List Nat) :
    (∃ u t, isScalar u ∧ (u : Int) ≠ utf8.RuneError ∧ src = srcRun u ++ t) ∨
    (∃ e, ((src = [] ∧ e = none) ∨ e = some Error.ErrShortSrc ∨
        ∃ n e2, c.invalid 0 src n = Except.ok e2 ∧ e = some e2) ∧
      ∀ dst, c.transform dst src = Outcome.ret dst 0 0 e) ∨
    (∃ a, ∀ dst, c.transform dst src = Outcome.panicked a) := by
  rcases src with _ | ⟨b, s⟩
  · exact Or.inr (Or.inl ⟨none, Or.inl ⟨rfl, rfl⟩, fun dst => c.transform_nil hc dst⟩)
  · by_cases hb : b < 0x80
    · refine Or.inl ⟨b, s, ⟨by omega, by omega⟩, ?_, ?_⟩
      · simp only [utf8.RuneError]; omega
      · rw [hr.src_ascii b hb]; rfl
    · have hnb : ¬ b < utf8.RuneSelf := hb
      by_cases hfull : c.fullRune (b :: s) = true
      · by_cases hdec : (c.decodeRune (b :: s)).1 = utf8.RuneError
        · cases hinv : c.invalid 0 (b :: s) (c.decodeRune (b :: s)).2 with
          | ok e =>
            refine Or.inr (Or.inl ⟨some e, Or.inr (Or.inr ⟨_, e, hinv, rfl⟩), fun dst => ?_⟩)
            rw [c.transform_eq hc]
            simp [hnb, hfull, hdec, hinv]
          | error a =>
            refine Or.inr (Or.inr ⟨a, fun dst => ?_⟩)
            rw [c.transform_eq hc]
            simp [hnb, hfull, hdec, hinv]
        · obtain ⟨u, hu, t, hp, hd⟩ := hr.decode_valid (b :: s) hdec
          refine Or.inl ⟨u, t, hu, ?_, hp⟩
          rw [hd] at hdec
          exact hdec
      · refine Or.inr (Or.inl ⟨some Error.ErrShortSrc, Or.inr (Or.inl rfl), fun dst => ?_⟩)
        rw [c.transform_eq hc]
        simp [hnb, hfull]

/-- What a call has consumed and written does not depend on what follows the
source, nor on the room left in the destination: a call on a longer source
and a destination that is long enough does the same work first. -/
theorem Codec.transform_append (c : Codec) (hc : c.Lawful) (srcRun dstRun : Nat → List Nat)
    (hr : c.Runs srcRun dstRun) :
    ∀ (n : Nat) (src : List Nat), src.length ≤ n →
      ∀ (dst1 d1 : List Nat) (j1 i1 : Nat) (e1 : Option Error),
        c.transform dst1 src = Outcome.ret d1 j1 i1 e1 →
        ∀ (dst s2 : List Nat), j1 ≤ dst.length →
          c.transform dst (src ++ s2) =
            Outcome.shift (d1.take j1) i1 j1 (c.transform (dst.drop j1) (src.drop i1 ++ s2)) := by
  intro n
  induction n with
  | zero =>
    intro src hn dst1 d1 j1 i1 e1 h1 dst s2 hj
    have hs : src = [] := List.length_eq_zero.mp (by omega)
    subst hs
    rw [c.transform_nil hc] at h1
    cases h1
    simp [Outcome.shift_nil]
  | succ n ih =>
    intro src hn dst1 d1 j1 i1 e1 h1 dst s2 hj
    rcases c.head_cases hc srcRun dstRun hr src with ⟨u, t, hu, hne, hsrc⟩ | ⟨e, -, he⟩ | ⟨a, ha⟩
    · subst hsrc
      rw [c.transform_run hc srcRun dstRun hr u hu hne] at h1
      by_cases hfit : (dstRun u).length ≤ dst1.length
      · rw [if_pos hfit] at h1
        cases hin : c.transform (dst1.drop (dstRun u).length) t with
        | ret d' j' i' e' =>
          rw [hin] at h1
          simp only [Outcome.shift, Outcome.ret.injEq] at h1
          obtain ⟨hd, hj1, hi1, he1⟩ := h1
          subst hd hj1 hi1
          have hpos := hr.src_pos u
          have hlt : t.length ≤ n := by
            rw [List.length_append] at hn; omega
          have hfit2 : (dstRun u).length ≤ dst.length := by omega
          have key := ih t hlt _ d' j' i' e' hin (dst.drop (dstRun u).length) s2
            (by rw [List.length_drop]; omega)
          rw [List.append_assoc, c.transform_run hc srcRun dstRun hr u hu hne, if_pos hfit2, key,
            Outcome.shift_shift]
          rw [List.take_append, List.drop_append, List.drop_drop]
        | panicked a => rw [hin] at h1; simp [Outcome.shift] at h1
        | outOfFuel => rw [hin] at h1; simp [Outcome.shift] at h1
      · rw [if_neg hfit] at h1
        cases h1
        simp [Outcome.shift_nil]
    · rw [he dst1] at h1
      cases h1
      simp [Outcome.shift_nil]
    · rw [ha dst1] at h1
      cases h1

/-- A call writes only the first `nDst` bytes of the destination, and what it
does depends on the destination through its length only. -/
theorem Codec.transform_dst (c : Codec) (hc : c.Lawful) (srcRun dstRun : Nat → List Nat)
    (hr : c.Runs srcRun dstRun) :
    ∀ (n : Nat) (src : List Nat), src.length ≤ n →
      ∀ (dst d : List Nat) (j i : Nat) (e : Option Error),
        c.transform dst src = Outcome.ret d j i e →
        j ≤ dst.length ∧ d.length = dst.length ∧ d = d.take j ++ dst.drop j ∧
        ∀ dst2 : List Nat, dst2.length = dst.length →
          c.transform dst2 src = Outcome.ret (d.take j ++ dst2.drop j) j i e := by
  intro n
  induction n with
  | zero =>
    intro src hn dst d j i e h1
    have hs : src = [] := List.length_eq_zero.mp (by omega)
    subst hs
    rw [c.transform_nil hc] at h1
    cases h1
    refine ⟨by omega, rfl, by simp, fun dst2 _ => ?_⟩
    rw [c.transform_nil hc]; simp
  | succ n ih =>
    intro src hn dst d j i e h1
    rcases c.head_cases hc srcRun dstRun hr src with ⟨u, t, hu, hne, hsrc⟩ | ⟨e0, -, he⟩ | ⟨a, ha⟩
    · subst hsrc
      rw [c.transform_run hc srcRun dstRun hr u hu hne] at h1
      by_cases hfit : (dstRun u).length ≤ dst.length
      · rw [if_pos hfit] at h1
        cases hin : c.transform (dst.drop (dstRun u).length) t with
        | ret d' j' i' e' =>
          rw [hin] at h1
          simp only [Outcome.shift, Outcome.ret.injEq] at h1
          obtain ⟨hd, hj1, hi1, he1⟩ := h1
          subst hd hj1 hi1
          have hpos := hr.src_pos u
          have hlt : t.length ≤ n := by
            rw [List.length_append] at hn; omega
          obtain ⟨k1, k0, k2, k3⟩ := ih t hlt _ d' j' i' e' hin
          rw [List.length_drop] at k1 k0
          refine ⟨by omega, ?_, ?_, fun dst2 h2 => ?_⟩
          · rw [List.length_append, k0]; omega
          · rw [List.take_append, List.append_assoc, ← List.drop_drop, ← k2]
          · rw [c.transform_run hc srcRun dstRun hr u hu hne, if_pos (by omega),
              k3 (dst2.drop (dstRun u).length) (by rw [List.length_drop, List.length_drop, h2])]
            simp only [Outcome.shift, Outcome.ret.injEq, and_true, true_and]
            refine ⟨?_, he1⟩
            rw [List.take_append, List.append_assoc, List.drop_drop]
        | panicked a => rw [hin] at h1; simp [Outcome.shift] at h1
        | outOfFuel => rw [hin] at h1; simp [Outcome.shift] at h1
      · rw [if_neg hfit] at h1
        cases h1
        refine ⟨by omega, rfl, by simp, fun dst2 h2 => ?_⟩
        rw [c.transform_run hc srcRun dstRun hr u hu hne, if_neg (by omega)]
        simp
    · rw [he dst] at h1
      cases h1
      refine ⟨by omega, rfl, by simp, fun dst2 _ => ?_⟩
      rw [he dst2]; simp
    · rw [ha dst] at h1
      cases h1

namespace utf8

theorem store_length (p q : List Nat) (k v : Nat) (h : store p k v = some q) : q.length = p.length := by
  unfold store at h
  split at h
  · cases h; simp
  · cases h

theorem EncodeRune_length (p : List Nat) (r : Int) (q : List Nat) (k : Nat)
    (h : EncodeRune p r = some (q, k)) : q.length = p.length := by
  unfold EncodeRune at h
  simp only [bind, pure] at h
  split at h
  · simp only [Option.bind_eq_some, Option.some.injEq, Prod.mk.injEq] at h
    obtain ⟨a, ha, rfl, -⟩ := h
    exact store_length _ _ _ _ ha
  · split at h
    · split at h
      · simp at h
      · simp only [Option.bind_eq_some, Option.some.injEq, Prod.mk.injEq, exists_eq_left] at h
        obtain ⟨-, -, a, ha, b, hb, rfl, -⟩ := h
        rw [store_length _ _ _ _ hb, store_length _ _ _ _ ha]
    · split at h
      · split at h
        · simp at h
        · simp only [Option.bind_eq_some, Option.some.injEq, Prod.mk.injEq, exists_eq_left] at h
          obtain ⟨-, -, a, ha, b, hb, d, hd, rfl, -⟩ := h
          rw [store_length _ _ _ _ hd, store_length _ _ _ _ hb, store_length _ _ _ _ ha]
      · split at h
        · simp at h
        · simp only [Option.bind_eq_some, Option.some.injEq, Prod.mk.injEq, exists_eq_left] at h
          obtain ⟨-, -, a, ha, b, hb, d, hd, e, he, rfl, -⟩ := h
          rw [store_length _ _ _ _ he, store_length _ _ _ _ hd, store_length _ _ _ _ hb,
            store_length _ _ _ _ ha]

end utf8

namespace cesu8

theorem encodeUnit_length (p : List Nat) (r : Int) (q : List Nat) (k : Nat)
    (h : encodeUnit p r = some (q, k)) : q.length = p.length := by
  unfold encodeUnit at h
  simp only [bind, pure] at h
  split at h
  · simp only [Option.bind_eq_some, Option.some.injEq, Prod.mk.injEq] at h
    obtain ⟨a, ha, rfl, -⟩ := h
    exact utf8.store_length _ _ _ _ ha
  · split at h
    · split at h
      · simp at h
      · simp only [Option.bind_eq_some, Option.some.injEq, Prod.mk.injEq, exists_eq_left] at h
        obtain ⟨-, -, a, ha, b, hb, rfl, -⟩ := h
        rw [utf8.store_length _ _ _ _ hb, utf8.store_length _ _ _ _ ha]
    · split at h
      · simp at h
      · simp only [Option.bind_eq_some, Option.some.injEq, Prod.mk.injEq, exists_eq_left] at h
        obtain ⟨-, -, a, ha, b, hb, d, hd, rfl, -⟩ := h
        rw [utf8.store_length _ _ _ _ hd, utf8.store_length _ _ _ _ hb, utf8.store_length _ _ _ _ ha]

theorem EncodeRune_length_cesu (p : List Nat) (r : Int) (q : List Nat) (k : Nat)
    (h : EncodeRune p r = some (q, k)) : q.length = p.length := by
  unfold EncodeRune at h
  split at h
  · exact encodeUnit_length _ _ _ _ h
  · unfold encodePair at h
    cases h1 : encodeUnit p (utf16.EncodeRune r).1 with
    | none => rw [h1] at h; cases h
    | some pn =>
      obtain ⟨p1, n⟩ := pn
      rw [h1] at h
      simp only at h
      cases h2 : encodeUnit (List.drop n p1) (utf16.EncodeRune r).2 with
      | none => rw [h2] at h; cases h
      | some pk =>
        obtain ⟨p2, k2⟩ := pk
        rw [h2] at h
        simp only [Option.some.injEq, Prod.mk.injEq] at h
        obtain ⟨rfl, -⟩ := h
        have l1 := encodeUnit_length _ _ _ _ h1
        have l2 := encodeUnit_length _ _ _ _ h2
        rw [List.length_append, List.length_take, l2, List.length_drop, ← l1]
        omega

end cesu8

theorem utf8.runA_pos (u : Nat) : 1 ≤ (utf8.runA u).length := by
  rw [utf8.runA_length]; split_ifs <;> omega

theorem cesu8.runA_pos_cesu (u : Nat) : 1 ≤ (cesu8.runA u).length := by
  unfold cesu8.runA
  split_ifs
  · exact utf8.runA_pos u
  · rw [List.length_append]; have := utf8.runA_pos (0xD800 + (u - 0x10000) / 1024); omega

theorem utf8.runA_head (u : Nat) (h : 0x80 ≤ u) : ∃ b t, utf8.runA u = b :: t ∧ 0x80 ≤ b := by
  unfold utf8.runA
  split_ifs
  · omega
  · exact ⟨_, _, rfl, by omega⟩
  · exact ⟨_, _, rfl, by omega⟩
  · exact ⟨_, _, rfl, by omega⟩

theorem cesu8.runA_head_cesu (u : Nat) (h : 0x80 ≤ u) : ∃ b t, cesu8.runA u = b :: t ∧ 0x80 ≤ b := by
  unfold cesu8.runA
  split_ifs
  · exact utf8.runA_head u h
  · obtain ⟨b, t, e, hb⟩ := utf8.runA_head (0xD800 + (u - 0x10000) / 1024) (by omega)
    exact ⟨b, t ++ utf8.runA (0xDC00 + (u - 0x10000) % 1024), by rw [e]; rfl, hb⟩

theorem utf8ToCesu8Codec_lawful : utf8ToCesu8Codec.Lawful where
  encode_length := fun p r q k h => cesu8.EncodeRune_length_cesu p r q k h
  decode_pos := by
    intro p h
    simp only [utf8ToCesu8Codec, utf8.DecodeRune_eq_decodeA] at h ⊢
    obtain ⟨c, -, -, t, -, hd⟩ := utf8.decodeA_valid p h
    rw [hd]
    exact utf8.runA_pos c
  invalid_shift := by
    intro i tail n
    simp [utf8ToCesu8Codec, Except.map, Error.shift]

theorem cesu8ToUtf8Codec_lawful : cesu8ToUtf8Codec.Lawful where
  encode_length := fun p r q k h => utf8.EncodeRune_length p r q k h
  decode_pos := by
    intro p h
    simp only [cesu8ToUtf8Codec] at h ⊢
    obtain ⟨c, -, -, t, -, hd⟩ := cesu8.DecodeRune_valid p h
    rw [hd]
    exact cesu8.runA_pos_cesu c
  invalid_shift := by
    intro i tail n
    simp only [cesu8ToUtf8Codec]
    split_ifs <;> simp [Except.map, Error.shift, newInvalidCesu8Error]

theorem utf8ToCesu8Codec_runs : utf8ToCesu8Codec.Runs utf8.runA cesu8.runA where
  src_ascii := fun u h => by simp [utf8.runA, h]
  dst_ascii := fun u h => by
    have : u < 0x10000 := by omega
    simp [cesu8.runA, utf8.runA, h, this]
  src_head := fun u _ h => utf8.runA_head u h
  decode_run := by
    intro u hu _ t
    simp only [utf8ToCesu8Codec, utf8.DecodeRune_eq_decodeA, utf8.FullRune_eq_fullA]
    exact (utf8.decodeA_run u hu.1 hu.2 t).symm
  decode_valid := by
    intro p h
    simp only [utf8ToCesu8Codec, utf8.DecodeRune_eq_decodeA] at h ⊢
    obtain ⟨c, h1, h2, t, hp, hd⟩ := utf8.decodeA_valid p h
    exact ⟨c, ⟨h1, h2⟩, t, hp, hd⟩
  encode := fun u hu _ => ⟨cesu8.RuneLen_cast_cesu u hu.1, fun q hq => by
    show cesu8.EncodeRune q (u : Int) = _
    rw [cesu8.EncodeRune_cast_cesu u hu.1 q, if_pos hq]⟩
  src_pos := utf8.runA_pos

theorem cesu8ToUtf8Codec_runs : cesu8ToUtf8Codec.Runs cesu8.runA utf8.runA where
  src_ascii := fun u h => by
    have : u < 0x10000 := by omega
    simp [cesu8.runA, utf8.runA, h, this]
  dst_ascii := fun u h => by simp [utf8.runA, h]
  src_head := fun u _ h => cesu8.runA_head_cesu u h
  decode_run := by
    intro u hu _ t
    exact cesu8.DecodeRune_run u hu.1 hu.2 t
  decode_valid := by
    intro p h
    obtain ⟨c, h1, h2, t, hp, hd⟩ := cesu8.DecodeRune_valid p h
    exact ⟨c, ⟨h1, h2⟩, t, hp, hd⟩
  encode := fun u hu _ => ⟨utf8.RuneLen_cast u hu.1 hu.2, fun q hq => by
    show utf8.EncodeRune q (u : Int) = _
    rw [utf8.EncodeRune_cast u hu.1 hu.2 q, if_pos hq]⟩
  src_pos := cesu8.runA_pos_cesu

theorem Utf8ToCesu8Transform_with (pkg : Cesu8) (dst src : List Nat) (atEOF : Bool) :
    Utf8ToCesu8Transform pkg dst src atEOF = (utf8ToCesu8With pkg).transform dst src := by
  unfold Utf8ToCesu8Transform Codec.transform
  exact utf8ToCesu8Loop_eq pkg src src.length dst 0 0

theorem Utf8ToCesu8Transform_eq (dst src : List Nat) (atEOF : Bool) :
    Utf8ToCesu8Transform cesu8.model dst src atEOF = utf8ToCesu8Codec.transform dst src :=
  Utf8ToCesu8Transform_with cesu8.model dst src atEOF

theorem Cesu8ToUtf8Transform_with (pkg : Cesu8) (dst src : List Nat) (atEOF : Bool) :
    Cesu8ToUtf8Transform pkg dst src atEOF = (cesu8ToUtf8With pkg).transform dst src := by
  unfold Cesu8ToUtf8Transform Codec.transform
  exact cesu8ToUtf8Loop_eq pkg src src.length dst 0 0

theorem Cesu8ToUtf8Transform_eq (dst src : List Nat) (atEOF : Bool) :
    Cesu8ToUtf8Transform cesu8.model dst src atEOF = cesu8ToUtf8Codec.transform dst src :=
  Cesu8ToUtf8Transform_with cesu8.model dst src atEOF

theorem utf8Run_eq (c : Nat) (hc : isScalar c) : utf8Run c = utf8.runA c := by
  have hl : (utf8.runA c).length ≤ 4 := by
    rw [utf8.runA_length]; split_ifs <;> omega
  have hm : (make utf8.UTFMax).length = 4 := by simp [make, utf8.UTFMax]
  unfold utf8Run
  rw [utf8.EncodeRune_cast c hc.1 hc.2, hm, if_pos hl]
  simp

theorem cesu8Run_eq (c : Nat) (hc : c ≤ 0x10FFFF) : cesu8Run c = cesu8.runA c := by
  have hl : (cesu8.runA c).length ≤ 6 := by
    rw [cesu8.runA_length_if c hc]; split_ifs <;> omega
  have hm : (make cesu8.CESUMax).length = 6 := by simp [make, cesu8.CESUMax]
  unfold cesu8Run
  rw [cesu8.EncodeRune_cast_cesu c hc, hm, if_pos hl]
  simp

theorem unit3_eq (u : Nat) (h1 : 0x800 ≤ u) (h2 : u < 0x10000) : unit3 u = utf8.runA u := by
  unfold unit3 utf8.runA
  rw [if_neg (by omega), if_neg (by omega), if_pos h2]
  rw [Nat.shiftRight_eq_div_pow, Nat.shiftRight_eq_div_pow, Bits.and_maskx, Bits.and_maskx,
    Bits.t3_or _ (by omega), Bits.tx_or _ (by omega), Bits.tx_or _ (by omega)]

/-- An ASCII prefix of the source is copied byte for byte. -/
theorem Codec.transform_ascii_prefix (c : Codec) (hc : c.Lawful) :
    ∀ (a : List Nat), isAscii a → ∀ (dst rest : List Nat), a.length ≤ dst.length →
      c.transform dst (a ++ rest) =
        Outcome.shift a a.length a.length (c.transform (dst.drop a.length) rest) := by
  intro a
  induction a with
  | nil =>
    intro _ dst rest _
    simp [Outcome.shift_nil]
  | cons b s ih =>
    intro ha dst rest hl
    have hb : b < 0x80 := ha b (by simp)
    have hs : isAscii s := fun x hx => ha x (by simp [hx])
    have hpos : 0 < dst.length := by simp at hl; omega
    rw [List.cons_append, c.transform_ascii hc dst b (s ++ rest) hb, if_pos hpos,
      ih hs (dst.drop 1) rest (by simp at hl ⊢; omega), Outcome.shift_shift]
    simp [Nat.add_comm]

theorem cesu8.model_encodes : cesu8.model.Encodes cesu8.runA where
  keeps_length := fun p r q k h => cesu8.EncodeRune_length_cesu p r q k h
  rune_len := fun u hu _ => cesu8.RuneLen_cast_cesu u hu.1
  encode := fun u hu _ q hq => by
    show cesu8.EncodeRune q (u : Int) = _
    rw [cesu8.EncodeRune_cast_cesu u hu.1 q, if_pos hq]

theorem utf8ToCesu8With_lawful (pkg : Cesu8) (run : Nat → List Nat) (hp : pkg.Encodes run) :
    (utf8ToCesu8With pkg).Lawful where
  encode_length := hp.keeps_length
  decode_pos := by
    intro p h
    simp only [utf8ToCesu8With, utf8.DecodeRune_eq_decodeA] at h ⊢
    obtain ⟨c, -, -, t, -, hd⟩ := utf8.decodeA_valid p h
    rw [hd]
    exact utf8.runA_pos c
  invalid_shift := by
    intro i tail n
    simp [utf8ToCesu8With, Except.map, Error.shift]

theorem utf8ToCesu8With_runs (pkg : Cesu8) (run : Nat → List Nat) (hp : pkg.Encodes run) :
    (utf8ToCesu8With pkg).Runs utf8.runA (byteOr run) where
  src_ascii := fun u h => by simp [utf8.runA, h]
  dst_ascii := fun u h => by simp [byteOr, h]
  src_head := fun u _ h => utf8.runA_head u h
  decode_run := by
    intro u hu _ t
    simp only [utf8ToCesu8With, utf8.DecodeRune_eq_decodeA, utf8.FullRune_eq_fullA]
    exact (utf8.decodeA_run u hu.1 hu.2 t).symm
  decode_valid := by
    intro p h
    simp only [utf8ToCesu8With, utf8.DecodeRune_eq_decodeA] at h ⊢
    obtain ⟨c, h1, h2, t, hp, hd⟩ := utf8.decodeA_valid p h
    exact ⟨c, ⟨h1, h2⟩, t, hp, hd⟩
  encode := fun u hu h80 => by
    have e : byteOr run u = run u := by
      unfold byteOr
      rw [if_neg (by omega)]
    rw [e]
    exact ⟨hp.rune_len u hu h80, hp.encode u hu h80⟩
  src_pos := utf8.runA_pos

/-- The UTF-8 to CESU-8 direction returns only the three sentinel errors. -/
theorem utf8ToCesu8With_errors (pkg : Cesu8) (run : Nat → List Nat) (hp : pkg.Encodes run) :
    ∀ (n : Nat) (src : List Nat), src.length ≤ n →
      ∀ (dst d : List Nat) (j i : Nat) (e : Error),
        (utf8ToCesu8With pkg).transform dst src = Outcome.ret d j i (some e) →
        e = Error.ErrShortDst ∨ e = Error.ErrShortSrc ∨ e = Error.ErrInvalidUtf8 := by
  have hl := utf8ToCesu8With_lawful pkg run hp
  have hr := utf8ToCesu8With_runs pkg run hp
  intro n
  induction n with
  | zero =>
    intro src hn dst d j i e h
    have hs : src = [] := List.length_eq_zero.mp (by omega)
    subst hs
    rw [(utf8ToCesu8With pkg).transform_nil hl] at h
    cases h
  | succ n ih =>
    intro src hn dst d j i e h
    rcases (utf8ToCesu8With pkg).head_cases hl _ _ hr src with
      ⟨u, t, hu, hne, hsrc⟩ | ⟨e0, hcase, he⟩ | ⟨a, ha⟩
    · subst hsrc
      rw [(utf8ToCesu8With pkg).transform_run hl _ _ hr u hu hne] at h
      by_cases hfit : (byteOr run u).length ≤ dst.length
      · rw [if_pos hfit] at h
        cases hin : (utf8ToCesu8With pkg).transform (dst.drop (byteOr run u).length) t with
        | ret d2 j2 i2 e2 =>
          rw [hin] at h
          simp only [Outcome.shift, Outcome.ret.injEq] at h
          obtain ⟨-, -, -, he2⟩ := h
          cases e2 with
          | none => cases he2
          | some e3 =>
            have hpos := utf8.runA_pos u
            have := ih t (by rw [List.length_append] at hn; omega) _ d2 j2 i2 e3 hin
            simp only [Option.map_some', Option.some.injEq] at he2
            rcases this with rfl | rfl | rfl <;> simp [Error.shift] at he2 <;> simp [← he2]
        | panicked a => rw [hin] at h; simp [Outcome.shift] at h
        | outOfFuel => rw [hin] at h; simp [Outcome.shift] at h
      · rw [if_neg hfit] at h
        cases h
        exact Or.inl rfl
    · rw [he dst] at h
      simp only [Outcome.ret.injEq] at h
      obtain ⟨-, -, -, rfl⟩ := h
      rcases hcase with ⟨-, h0⟩ | h0 | ⟨m, e2, hinv, h0⟩
      · cases h0
      · cases h0; exact Or.inr (Or.inl rfl)
      · cases h0
        simp only [utf8ToCesu8With, Except.ok.injEq] at hinv
        exact Or.inr (Or.inr hinv.symm)
    · rw [ha dst] at h
      cases h

/-- A stretch of single-byte values in the source is copied byte for byte,
whatever the helpers of `c` are. -/
theorem Codec.loop_ascii (c : Codec) :
    ∀ (a : List Nat), isAscii a → ∀ (pre rest dst : List Nat) (fuel j : Nat),
      j + a.length ≤ dst.length →
      c.loop (pre ++ (a ++ rest)) (a.length + fuel) dst pre.length j =
        c.loop (pre ++ (a ++ rest)) fuel (dst.take j ++ (a ++ dst.drop (j + a.length)))
          (pre.length + a.length) (j + a.length) := by
  intro a
  induction a with
  | nil =>
    intro _ pre rest dst fuel j _
    simp
  | cons b s ih =>
    intro ha pre rest dst fuel j hl
    have hb : b < utf8.RuneSelf := ha b (by simp)
    have hs : isAscii s := fun x hx => ha x (by simp [hx])
    rw [List.length_cons] at hl
    have hf : (b :: s).length + fuel = (s.length + fuel) + 1 := by rw [List.length_cons]; omega
    have hi : pre.length < (pre ++ (b :: s ++ rest)).length := by simp
    have hb0 : (pre ++ (b :: s ++ rest))[pre.length] = b := by
      rw [List.getElem_append_right (Nat.le_refl _)]
      simp
    have hj : j < dst.length := by omega
    rw [hf, Codec.loop, dif_pos hi, hb0, if_pos hb, if_pos hj]
    have hsrc : pre ++ (b :: s ++ rest) = (pre ++ [b]) ++ (s ++ rest) := by simp
    have hlen : pre.length + 1 = (pre ++ [b]).length := by simp
    rw [hsrc, hlen, ih hs (pre ++ [b]) rest (dst.set j b) fuel (j + 1) (by rw [List.length_set]; omega)]
    have hL : (dst.take j).length = j := by rw [List.length_take]; omega
    have hset : dst.set j b = dst.take j ++ b :: dst.drop (j + 1) :=
      List.set_eq_take_cons_drop b hj
    have k1 : ∀ (L R : List Nat), (L ++ b :: R).take (L.length + 1) = L ++ [b] := by
      intro L R
      rw [List.take_append]
      simp
    have k2 : ∀ (L R : List Nat) (k : Nat), (L ++ b :: R).drop (L.length + 1 + k) = R.drop k := by
      intro L R k
      rw [Nat.add_assoc, List.drop_append]
      simp [Nat.add_comm 1 k]
    have e1 : (dst.set j b).take (j + 1) = dst.take j ++ [b] := by
      have := k1 (dst.take j) (dst.drop (j + 1))
      rw [hL] at this
      rw [hset, this]
    have e2 : (dst.set j b).drop (j + 1 + s.length) = dst.drop (j + (s.length + 1)) := by
      have := k2 (dst.take j) (dst.drop (j + 1)) s.length
      rw [hL] at this
      rw [hset, this, List.drop_drop]
      congr 1; omega
    rw [e1, e2]
    simp only [List.length_append, List.length_singleton, List.length_cons, List.append_assoc,
      List.singleton_append, Nat.add_assoc, Nat.add_comm 1, List.length_nil, Nat.zero_add,
      List.cons_append, List.nil_append]

/-- An ASCII prefix of the source is copied, whatever the helpers of `c` are;
the call goes on from the first byte after it. -/
theorem Codec.transform_ascii_loop (c : Codec) (a rest dst : List Nat) (ha : isAscii a)
    (hl : a.length ≤ dst.length) :
    c.transform dst (a ++ rest) =
      c.loop (a ++ rest) rest.length (a ++ dst.drop a.length) a.length a.length := by
  have := c.loop_ascii a ha [] rest dst rest.length 0 (by omega)
  simp only [List.nil_append, List.length_nil, Nat.zero_add, List.take_zero] at this
  unfold Codec.transform
  rw [List.length_append, this]

/-- An all-ASCII source is copied byte for byte, whatever the helpers are. -/
theorem Codec.transform_all_ascii (c : Codec) (s dst : List Nat) (hs : isAscii s)
    (hd : s.length ≤ dst.length) :
    c.transform dst s = Outcome.ret (s ++ dst.drop s.length) s.length s.length none := by
  have := c.transform_ascii_loop s [] dst hs hd
  rw [List.append_nil] at this
  rw [this]
  simp [Codec.loop]

/-- An invariant of the loop holds when the call returns, and the call returns
for one of the reasons of `Codec.Exit`. -/
theorem Codec.loop_inv (c : Codec) (src : List Nat) (P : List Nat → Nat → Nat → Prop)
    (hcopy : ∀ (dst : List Nat) (i j : Nat) (h : i < src.length), P dst i j →
      src[i] < utf8.RuneSelf → j < dst.length → P (dst.set j src[i]) (i + 1) (j + 1))
    (hrun : ∀ (dst : List Nat) (i j : Nat) (h : i < src.length) (p : List Nat) (k : Nat),
      P dst i j → utf8.RuneSelf ≤ src[i] → c.fullRune (src.drop i) = true →
      (c.decodeRune (src.drop i)).1 ≠ utf8.RuneError →
      c.runeLen (c.decodeRune (src.drop i)).1 ≠ -1 →
      (j : Int) + c.runeLen (c.decodeRune (src.drop i)).1 ≤ dst.length →
      c.encodeRune (dst.drop j) (c.decodeRune (src.drop i)).1 = some (p, k) →
      P (dst.take j ++ p) (i + (c.decodeRune (src.drop i)).2)
        (j + (c.runeLen (c.decodeRune (src.drop i)).1).toNat)) :
    ∀ (fuel : Nat) (dst : List Nat) (i j : Nat), P dst i j →
      ∀ (d : List Nat) (j2 i2 : Nat) (e : Option Error),
        c.loop src fuel dst i j = Outcome.ret d j2 i2 e →
        P d i2 j2 ∧ c.Exit src d i2 j2 e := by
  intro fuel
  induction fuel with
  | zero =>
    intro dst i j hP d j2 i2 e h
    by_cases hi : i < src.length
    · simp [Codec.loop, hi] at h
    · simp only [Codec.loop, hi, ↓reduceIte, Outcome.ret.injEq] at h
      obtain ⟨rfl, rfl, rfl, rfl⟩ := h
      exact ⟨hP, Or.inl ⟨by omega, rfl⟩⟩
  | succ f ih =>
    intro dst i j hP d j2 i2 e h
    by_cases hi : i < src.length
    · have hg : src.getD i 0 = src[i] := by simp [List.getD_eq_getElem?_getD, hi]
      rw [Codec.loop, dif_pos hi] at h
      by_cases ha : src[i] < utf8.RuneSelf
      · rw [if_pos ha] at h
        by_cases hj : j < dst.length
        · rw [if_pos hj] at h
          exact ih _ _ _ (hcopy dst i j hi hP ha hj) d j2 i2 e h
        · rw [if_neg hj] at h
          simp only [Outcome.ret.injEq] at h
          obtain ⟨rfl, rfl, rfl, rfl⟩ := h
          exact ⟨hP, Or.inr ⟨hi, Or.inl ⟨by rw [hg]; exact ha, by omega, rfl⟩⟩⟩
      · rw [if_neg ha] at h
        have ha2 : utf8.RuneSelf ≤ src.getD i 0 := by rw [hg]; omega
        by_cases hf : c.fullRune (src.drop i) = true
        · rw [hf] at h
          simp only [Bool.not_true, Bool.false_eq_true, ↓reduceIte] at h
          by_cases hr : (c.decodeRune (src.drop i)).1 = utf8.RuneError
          · rw [if_pos hr] at h
            cases hinv : c.invalid i (src.drop i) (c.decodeRune (src.drop i)).2 with
            | ok e2 =>
              rw [hinv] at h
              simp only [Outcome.ret.injEq] at h
              obtain ⟨rfl, rfl, rfl, rfl⟩ := h
              exact ⟨hP, Or.inr ⟨hi, Or.inr (Or.inr (Or.inl ⟨ha2, hf, hr, e2, hinv, rfl⟩))⟩⟩
            | error a =>
              rw [hinv] at h
              cases h
          · rw [if_neg hr] at h
            by_cases hm : c.runeLen (c.decodeRune (src.drop i)).1 = -1
            · rw [if_pos hm] at h
              cases h
            · rw [if_neg hm] at h
              by_cases hfit : (j : Int) + c.runeLen (c.decodeRune (src.drop i)).1 ≤ dst.length
              · rw [if_pos hfit] at h
                cases henc : c.encodeRune (dst.drop j) (c.decodeRune (src.drop i)).1 with
                | none =>
                  rw [henc] at h
                  cases h
                | some pk =>
                  obtain ⟨p, k⟩ := pk
                  rw [henc] at h
                  exact ih _ _ _ (hrun dst i j hi p k hP (by omega) hf hr hm hfit henc) d j2 i2 e h
              · rw [if_neg hfit] at h
                simp only [Outcome.ret.injEq] at h
                obtain ⟨rfl, rfl, rfl, rfl⟩ := h
                exact ⟨hP, Or.inr ⟨hi, Or.inr (Or.inr (Or.inr
                  ⟨ha2, hf, hr, hm, by omega, rfl⟩))⟩⟩
        · have hf2 : c.fullRune (src.drop i) = false := by simpa using hf
          rw [hf2] at h
          simp only [Bool.not_false, ↓reduceIte, Outcome.ret.injEq] at h
          obtain ⟨rfl, rfl, rfl, rfl⟩ := h
          exact ⟨hP, Or.inr ⟨hi, Or.inr (Or.inl ⟨ha2, hf2, rfl⟩)⟩⟩
    · rw [Codec.loop, dif_neg hi] at h
      simp only [Outcome.ret.injEq] at h
      obtain ⟨rfl, rfl, rfl, rfl⟩ := h
      exact ⟨hP, Or.inl ⟨by omega, rfl⟩⟩

/-- A call that has returned returns the same with a larger step budget. -/
theorem Codec.loop_mono (c : Codec) (src : List Nat) :
    ∀ (fuel : Nat) (dst : List Nat) (i j : Nat) (d : List Nat) (j2 i2 : Nat) (e : Option Error),
      c.loop src fuel dst i j = Outcome.ret d j2 i2 e →
      ∀ extra : Nat, c.loop src (fuel + extra) dst i j = Outcome.ret d j2 i2 e := by
  intro fuel
  induction fuel with
  | zero =>
    intro dst i j d j2 i2 e h extra
    by_cases hi : i < src.length
    · simp [Codec.loop, hi] at h
    · cases extra with
      | zero => exact h
      | succ x =>
        simp only [Codec.loop, hi, ↓reduceIte] at h
        rw [Nat.zero_add, Codec.loop, dif_neg hi]
        exact h
  | succ f ih =>
    intro dst i j d j2 i2 e h extra
    have hx : f + 1 + extra = (f + extra) + 1 := by omega
    rw [hx]
    rw [Codec.loop] at h ⊢
    by_cases hi : i < src.length
    · rw [dif_pos hi] at h ⊢
      by_cases ha : src[i] < utf8.RuneSelf
      · rw [if_pos ha] at h ⊢
        by_cases hj : j < dst.length
        · rw [if_pos hj] at h ⊢
          exact ih _ _ _ _ _ _ _ h extra
        · rw [if_neg hj] at h ⊢
          exact h
      · rw [if_neg ha] at h ⊢
        by_cases hf : (!c.fullRune (src.drop i)) = true
        · rw [if_pos hf] at h ⊢
          exact h
        · rw [if_neg hf] at h ⊢
          by_cases hr : (c.decodeRune (src.drop i)).1 = utf8.RuneError
          · rw [if_pos hr] at h ⊢
            exact h
          · rw [if_neg hr] at h ⊢
            by_cases hm : c.runeLen (c.decodeRune (src.drop i)).1 = -1
            · rw [if_pos hm] at h ⊢
              exact h
            · rw [if_neg hm] at h ⊢
              by_cases hfit : (j : Int) + c.runeLen (c.decodeRune (src.drop i)).1 ≤ dst.length
              · rw [if_pos hfit] at h ⊢
                cases henc : c.encodeRune (dst.drop j) (c.decodeRune (src.drop i)).1 with
                | none =>
                  rw [henc] at h
                  cases h
                | some pk =>
                  obtain ⟨p, k⟩ := pk
                  rw [henc] at h
                  exact ih _ _ _ _ _ _ _ h extra
              · rw [if_neg hfit] at h ⊢
                exact h
    · rw [dif_neg hi] at h ⊢
      exact h

/-- A call returns, within a budget of `len(src) - i` steps and also within one
of `len(dst) - j + 1` steps, when the helpers never make the loop panic and
every run has at least one byte in the source and in the destination. -/
theorem Codec.loop_returns (c : Codec) (src : List Nat) (L : Nat)
    (P : List Nat → Nat → Nat → Prop)
    (hL : ∀ (dst : List Nat) (i j : Nat), P dst i j → dst.length = L)
    (hcopy : ∀ (dst : List Nat) (i j : Nat) (h : i < src.length), P dst i j →
      src[i] < utf8.RuneSelf → j < dst.length → P (dst.set j src[i]) (i + 1) (j + 1))
    (hrun : ∀ (dst : List Nat) (i j : Nat) (h : i < src.length) (p : List Nat) (k : Nat),
      P dst i j → utf8.RuneSelf ≤ src[i] → c.fullRune (src.drop i) = true →
      (c.decodeRune (src.drop i)).1 ≠ utf8.RuneError →
      c.runeLen (c.decodeRune (src.drop i)).1 ≠ -1 →
      (j : Int) + c.runeLen (c.decodeRune (src.drop i)).1 ≤ dst.length →
      c.encodeRune (dst.drop j) (c.decodeRune (src.drop i)).1 = some (p, k) →
      P (dst.take j ++ p) (i + (c.decodeRune (src.drop i)).2)
        (j + (c.runeLen (c.decodeRune (src.drop i)).1).toNat))
    (hsafe : ∀ (dst : List Nat) (i j : Nat) (h : i < src.length), P dst i j →
      utf8.RuneSelf ≤ src[i] → c.fullRune (src.drop i) = true →
      ((c.decodeRune (src.drop i)).1 = utf8.RuneError →
        ∃ e, c.invalid i (src.drop i) (c.decodeRune (src.drop i)).2 = Except.ok e) ∧
      ((c.decodeRune (src.drop i)).1 ≠ utf8.RuneError →
        1 ≤ (c.decodeRune (src.drop i)).2 ∧ 1 ≤ c.runeLen (c.decodeRune (src.drop i)).1 ∧
        ((j : Int) + c.runeLen (c.decodeRune (src.drop i)).1 ≤ dst.length →
          ∃ p k, c.encodeRune (dst.drop j) (c.decodeRune (src.drop i)).1 = some (p, k)))) :
    ∀ (fuel : Nat) (dst : List Nat) (i j : Nat), P dst i j →
      (src.length - i ≤ fuel ∨ L - j + 1 ≤ fuel) →
      ∃ d j2 i2 e, c.loop src fuel dst i j = Outcome.ret d j2 i2 e := by
  intro fuel
  induction fuel with
  | zero =>
    intro dst i j hP hb
    have hi : ¬ i < src.length := by omega
    exact ⟨dst, j, i, none, by simp [Codec.loop, hi]⟩
  | succ f ih =>
    intro dst i j hP hb
    have hdl := hL dst i j hP
    rw [Codec.loop]
    by_cases hi : i < src.length
    · rw [dif_pos hi]
      by_cases ha : src[i] < utf8.RuneSelf
      · rw [if_pos ha]
        by_cases hj : j < dst.length
        · rw [if_pos hj]
          exact ih _ _ _ (hcopy dst i j hi hP ha hj) (by omega)
        · rw [if_neg hj]
          exact ⟨_, _, _, _, rfl⟩
      · rw [if_neg ha]
        by_cases hf : c.fullRune (src.drop i) = true
        · obtain ⟨s1, s2⟩ := hsafe dst i j hi hP (by omega) hf
          rw [hf]
          simp only [Bool.not_true, Bool.false_eq_true, ↓reduceIte]
          by_cases hr : (c.decodeRune (src.drop i)).1 = utf8.RuneError
          · rw [if_pos hr]
            obtain ⟨e, he⟩ := s1 hr
            rw [he]
            exact ⟨_, _, _, _, rfl⟩
          · rw [if_neg hr]
            obtain ⟨hn, hm, henc⟩ := s2 hr
            have hm1 : c.runeLen (c.decodeRune (src.drop i)).1 ≠ -1 := by omega
            rw [if_neg hm1]
            by_cases hfit : (j : Int) + c.runeLen (c.decodeRune (src.drop i)).1 ≤ dst.length
            · rw [if_pos hfit]
              obtain ⟨p, k, hpk⟩ := henc hfit
              rw [hpk]
              exact ih _ _ _ (hrun dst i j hi p k hP (by omega) hf hr hm1 hfit hpk) (by omega)
            · rw [if_neg hfit]
              exact ⟨_, _, _, _, rfl⟩
        · have hf2 : c.fullRune (src.drop i) = false := by simpa using hf
          rw [hf2]
          exact ⟨_, _, _, _, rfl⟩
    · rw [dif_neg hi]
      exact ⟨_, _, _, _, rfl⟩

/-- A call that stops inside the source returns an error, one that stops at its
end returns nil. -/
theorem Codec.Exit_nil_iff (c : Codec) (src d : List Nat) (i j : Nat) (e : Option Error)
    (h : c.Exit src d i j e) (hi : i ≤ src.length) :
    (e = none ↔ i = src.length) ∧ (e ≠ none → i < src.length) := by
  rcases h with ⟨h1, rfl⟩ | ⟨h1, h2⟩
  · exact ⟨⟨fun _ => by omega, fun _ => rfl⟩, fun h => absurd rfl h⟩
  · have hne : e ≠ none := by
      rcases h2 with ⟨-, -, rfl⟩ | ⟨-, -, rfl⟩ | ⟨-, -, -, e2, -, rfl⟩ | ⟨-, -, -, -, -, rfl⟩ <;> simp
    exact ⟨⟨fun h => absurd h hne, fun h => by omega⟩, fun _ => h1⟩

/-- The width `utf8.DecodeRune` gives for a rune other than `RuneError` is at
least 1 and stays within the bytes it is given. -/
theorem utf8.DecodeRune_width (p : List Nat) (h : (utf8.DecodeRune p).1 ≠ utf8.RuneError) :
    1 ≤ (utf8.DecodeRune p).2 ∧ (utf8.DecodeRune p).2 ≤ p.length := by
  rw [utf8.DecodeRune_eq_decodeA] at h ⊢
  obtain ⟨c, -, -, t, hp, hd⟩ := utf8.decodeA_valid p h
  have hpos := utf8.runA_pos c
  rw [hd]
  refine ⟨hpos, ?_⟩
  have : p.length = (utf8.runA c).length + t.length := by rw [hp, List.length_append]
  simp only
  omega

/-- The source position of the UTF-8 to CESU-8 loop never passes the end of the
source, whatever package `cesu8` does. -/
theorem utf8ToCesu8With_pos (pkg : Cesu8) (src : List Nat) (fuel : Nat) (dst : List Nat)
    (d : List Nat) (j i : Nat) (e : Option Error)
    (h : (utf8ToCesu8With pkg).loop src fuel dst 0 0 = Outcome.ret d j i e) :
    i ≤ src.length ∧ (utf8ToCesu8With pkg).Exit src d i j e := by
  refine (utf8ToCesu8With pkg).loop_inv src (fun _ i _ => i ≤ src.length) ?_ ?_ fuel dst 0 0
    (Nat.zero_le _) d j i e h
  · intro dst i j hi _ _ _
    omega
  · intro dst i j hi p k _ _ _ hr _ _ _
    have hw := (utf8.DecodeRune_width (src.drop i) hr).2
    rw [List.length_drop] at hw
    show i + (utf8.DecodeRune (src.drop i)).2 ≤ src.length
    omega

/-- The source position of the CESU-8 to UTF-8 loop never passes the end of the
source when the width `cesu8.DecodeRune` gives stays within its argument. -/
theorem cesu8ToUtf8With_pos (pkg : Cesu8)
    (hw : ∀ p, pkg.FullRune p = true → (pkg.DecodeRune p).1 ≠ utf8.RuneError →
      (pkg.DecodeRune p).2 ≤ p.length)
    (src : List Nat) (fuel : Nat) (dst : List Nat)
    (d : List Nat) (j i : Nat) (e : Option Error)
    (h : (cesu8ToUtf8With pkg).loop src fuel dst 0 0 = Outcome.ret d j i e) :
    i ≤ src.length ∧ (cesu8ToUtf8With pkg).Exit src d i j e := by
  refine (cesu8ToUtf8With pkg).loop_inv src (fun _ i _ => i ≤ src.length) ?_ ?_ fuel dst 0 0
    (Nat.zero_le _) d j i e h
  · intro dst i j hi _ _ _
    omega
  · intro dst i j hi p k _ _ hf hr _ _ _
    have hw := hw (src.drop i) hf hr
    rw [List.length_drop] at hw
    show i + (pkg.DecodeRune (src.drop i)).2 ≤ src.length
    omega

/-- The model of `cesu8.DecodeRune` gives a width within its argument. -/
theorem cesu8.model_within (p : List Nat) (hf : cesu8.model.FullRune p = true)
    (h : (cesu8.model.DecodeRune p).1 ≠ utf8.RuneError) :
    (cesu8.model.DecodeRune p).2 ≤ p.length := by
  obtain ⟨c, -, -, t, hp, hd⟩ := cesu8.DecodeRune_valid p h
  have : p.length = (cesu8.runA c).length + t.length := by rw [hp, List.length_append]
  show (cesu8.DecodeRune p).2 ≤ p.length
  rw [hd]
  simp only
  omega

theorem concatRuns_append (run : Nat → List Nat) (us vs : List Nat) :
    concatRuns run (us ++ vs) = concatRuns run us ++ concatRuns run vs := by
  induction us with
  | nil => rfl
  | cons u us ih => simp [concatRuns, ih]

theorem concatRuns_concat (run : Nat → List Nat) (us : List Nat) (u : Nat) :
    concatRuns run (us ++ [u]) = concatRuns run us ++ run u := by
  rw [concatRuns_append]
  simp [concatRuns]

theorem List.take_set_succ (d : List Nat) (j b : Nat) (hj : j < d.length) :
    (d.set j b).take (j + 1) = d.take j ++ [b] := by
  have hL : (d.take j).length = j := by rw [List.length_take]; omega
  rw [List.set_eq_take_cons_drop b hj]
  have := @List.take_append Nat (d.take j) (b :: d.drop (j + 1)) 1
  rw [hL] at this
  rw [this]
  rfl

theorem List.drop_set_succ (d : List Nat) (j b : Nat) :
    (d.set j b).drop (j + 1) = d.drop (j + 1) :=
  List.drop_set_of_lt b d (by omega)

/-- What a step that writes the run `p` at `j` leaves in the destination. -/
theorem List.take_drop_write (d p : List Nat) (j : Nat) (hj : j + p.length ≤ d.length) :
    (d.take j ++ (p ++ (d.drop j).drop p.length)).length = d.length ∧
    (d.take j ++ (p ++ (d.drop j).drop p.length)).take (j + p.length) = d.take j ++ p ∧
    (d.take j ++ (p ++ (d.drop j).drop p.length)).drop (j + p.length) = d.drop (j + p.length) := by
  have hL : (d.take j).length = j := by rw [List.length_take]; omega
  refine ⟨?_, ?_, ?_⟩
  · simp only [List.length_append, List.length_take, List.length_drop]
    omega
  · have := @List.take_append Nat (d.take j) (p ++ (d.drop j).drop p.length) p.length
    rw [hL] at this
    rw [this, List.take_left]
  · have := @List.drop_append Nat (d.take j) (p ++ (d.drop j).drop p.length) p.length
    rw [hL] at this
    rw [this, List.drop_left, List.drop_drop]

/-- A codec whose helpers decode and encode runs keeps the trace: whenever a
call returns, what it consumed and what it wrote are the runs of the same
scalar values. -/
theorem Codec.loop_traced (c : Codec) (srcRun dstRun : Nat → List Nat)
    (hr : c.Runs srcRun dstRun) (src dst : List Nat) (fuel : Nat)
    (d : List Nat) (j i : Nat) (e : Option Error)
    (h : c.loop src fuel dst 0 0 = Outcome.ret d j i e) :
    Traced srcRun dstRun src dst d i j ∧ c.Exit src d i j e := by
  refine c.loop_inv src (fun d i j => Traced srcRun dstRun src dst d i j) ?_ ?_ fuel dst 0 0
    ⟨Nat.zero_le _, Nat.zero_le _, rfl, rfl, [], by simp, by simp [concatRuns],
      by simp [concatRuns]⟩ d j i e h
  · intro d0 i0 j0 hi ⟨h1, h2, h3, h4, us, hus, hs, hd⟩ ha hj
    have hb : src[i0] < 0x80 := ha
    refine ⟨by omega, by omega, by rw [List.length_set, h3], ?_, us ++ [src[i0]], ?_, ?_, ?_⟩
    · rw [List.drop_set_succ, ← List.drop_drop, h4, List.drop_drop]
    · intro u hu
      rcases List.mem_append.mp hu with hu | hu
      · exact hus u hu
      · rw [List.mem_singleton] at hu
        subst hu
        refine ⟨⟨by omega, by omega⟩, ?_⟩
        simp only [utf8.RuneError]
        omega
    · rw [concatRuns_concat, hr.src_ascii _ hb, ← hs, List.take_succ,
        List.getElem?_eq_getElem hi]
      rfl
    · rw [concatRuns_concat, hr.dst_ascii _ hb, ← hd, List.take_set_succ d0 j0 _ hj]
  · intro d0 i0 j0 hi p k ⟨h1, h2, h3, h4, us, hus, hs, hd⟩ ha hf hne hm hfit henc
    obtain ⟨u, hu, t, hp, hdec⟩ := hr.decode_valid (src.drop i0) hne
    have hru : (u : Int) ≠ utf8.RuneError := by
      rw [hdec] at hne
      exact hne
    have h80 : 0x80 ≤ u := by
      by_contra hlt
      have hlt : u < 0x80 := by omega
      have hcons : src.drop i0 = src[i0] :: src.drop (i0 + 1) := List.drop_eq_getElem_cons hi
      rw [hp, hr.src_ascii u hlt] at hcons
      simp only [List.singleton_append, List.cons.injEq] at hcons
      have ha2 : utf8.RuneSelf ≤ u := by rw [hcons.1]; exact ha
      simp only [utf8.RuneSelf] at ha2
      omega
    obtain ⟨hlen, hencode⟩ := hr.encode u hu h80
    rw [hdec] at hfit henc ⊢
    simp only at hfit henc ⊢
    rw [hlen] at hfit ⊢
    have hfit2 : j0 + (dstRun u).length ≤ d0.length := by omega
    rw [hencode (d0.drop j0) (by rw [List.length_drop]; omega)] at henc
    simp only [Option.some.injEq, Prod.mk.injEq] at henc
    obtain ⟨rfl, -⟩ := henc
    obtain ⟨w1, w2, w3⟩ := List.take_drop_write d0 (dstRun u) j0 hfit2
    have hsl : (src.drop i0).length = (srcRun u).length + t.length := by
      rw [hp, List.length_append]
    rw [List.length_drop] at hsl
    rw [Int.toNat_ofNat]
    refine ⟨by omega, by omega, by rw [w1, h3], ?_, us ++ [u], ?_, ?_, ?_⟩
    · rw [w3, ← List.drop_drop, h4, List.drop_drop]
    · intro v hv
      rcases List.mem_append.mp hv with hv | hv
      · exact hus v hv
      · rw [List.mem_singleton] at hv
        subst hv
        exact ⟨hu, hru⟩
    · rw [concatRuns_concat, ← hs, List.take_add, hp, List.take_left]
    · rw [concatRuns_concat, ← hd, w2]

/-- The run of a scalar value from `0x80` that the loop decodes at `i`. -/
theorem Codec.Runs.decode_from (c : Codec) (srcRun dstRun : Nat → List Nat)
    (hr : c.Runs srcRun dstRun) (src : List Nat) (i : Nat) (hi : i < src.length)
    (ha : utf8.RuneSelf ≤ src.getD i 0)
    (hne : (c.decodeRune (src.drop i)).1 ≠ utf8.RuneError) :
    ∃ u t, isScalar u ∧ 0x80 ≤ u ∧ (u : Int) ≠ utf8.RuneError ∧ src.drop i = srcRun u ++ t ∧
      c.decodeRune (src.drop i) = ((u : Int), (srcRun u).length) ∧
      c.runeLen (u : Int) = ((dstRun u).length : Nat) ∧
      i + (srcRun u).length ≤ src.length := by
  obtain ⟨u, hu, t, hp, hdec⟩ := hr.decode_valid (src.drop i) hne
  have hru : (u : Int) ≠ utf8.RuneError := by
    rw [hdec] at hne
    exact hne
  have hg : src.getD i 0 = src[i] := by simp [List.getD_eq_getElem?_getD, hi]
  have h80 : 0x80 ≤ u := by
    by_contra hlt
    have hlt : u < 0x80 := by omega
    have hcons : src.drop i = src[i] :: src.drop (i + 1) := List.drop_eq_getElem_cons hi
    rw [hp, hr.src_ascii u hlt] at hcons
    simp only [List.singleton_append, List.cons.injEq] at hcons
    have ha2 : utf8.RuneSelf ≤ u := by rw [hcons.1, ← hg]; exact ha
    simp only [utf8.RuneSelf] at ha2
    omega
  have hsl : (src.drop i).length = (srcRun u).length + t.length := by
    rw [hp, List.length_append]
  rw [List.length_drop] at hsl
  exact ⟨u, t, hu, h80, hru, hp, hdec, (hr.encode u hu h80).1, by omega⟩

/-- Lengths of the two runs of a scalar value. -/
theorem run_lengths (u : Nat) (hu : isScalar u) :
    1 ≤ (utf8.runA u).length ∧ (utf8.runA u).length ≤ (cesu8.runA u).length ∧
    2 * (cesu8.runA u).length ≤ 3 * (utf8.runA u).length := by
  rw [cesu8.runA_length_if u hu.1, utf8.runA_length]
  split_ifs <;> omega

theorem concatRuns_lengths (us : List Nat) (hus : ∀ u ∈ us, isScalar u) :
    (concatRuns utf8.runA us).length ≤ (concatRuns cesu8.runA us).length ∧
    2 * (concatRuns cesu8.runA us).length ≤ 3 * (concatRuns utf8.runA us).length := by
  induction us with
  | nil => simp [concatRuns]
  | cons u us ih =>
    have h1 := run_lengths u (hus u (by simp))
    have h2 := ih (fun v hv => hus v (by simp [hv]))
    simp only [concatRuns, List.length_append]
    omega

theorem concatRuns_congr (f g : Nat → List Nat) (us : List Nat) (h : ∀ u ∈ us, f u = g u) :
    concatRuns f us = concatRuns g us := by
  induction us with
  | nil => rfl
  | cons u us ih =>
    simp only [concatRuns]
    rw [h u (by simp), ih (fun v hv => h v (by simp [hv]))]

/-- The UTF-8 run of a scalar value is a well-formed byte sequence. -/
theorem utf8.validRun_runA (u : Nat) (hu : isScalar u) : utf8.validRun (utf8.runA u) = true := by
  obtain ⟨h1, h2⟩ := hu
  unfold utf8.runA
  by_cases c1 : u < 0x80
  · rw [if_pos c1]
    simp only [utf8.validRun, decide_eq_true_eq]
    omega
  · rw [if_neg c1]
    by_cases c2 : u < 0x800
    · rw [if_pos c2]
      simp only [utf8.validRun, decide_eq_true_eq]
      omega
    · rw [if_neg c2]
      by_cases c3 : u < 0x10000
      · rw [if_pos c3]
        simp only [utf8.validRun, decide_eq_true_eq]
        omega
      · rw [if_neg c3]
        simp only [utf8.validRun, decide_eq_true_eq]
        omega

theorem utf8.wellFormed_concatRuns (us : List Nat) (hus : ∀ u ∈ us, isScalar u) :
    utf8.WellFormed (concatRuns utf8.runA us) := by
  induction us with
  | nil => exact utf8.WellFormed.nil
  | cons u us ih =>
    exact utf8.WellFormed.run _ _ (utf8.validRun_runA u (hus u (by simp)))
      (ih (fun v hv => hus v (by simp [hv])))

/-- A sequence of UTF-8 runs of scalar values encodes one list of scalar
values only. -/
theorem utf8.concatRuns_inj (us vs : List Nat) (hus : ∀ u ∈ us, isScalar u)
    (hvs : ∀ v ∈ vs, isScalar v) (h : concatRuns utf8.runA us = concatRuns utf8.runA vs) :
    us = vs := by
  induction us generalizing vs with
  | nil =>
    cases vs with
    | nil => rfl
    | cons v vs =>
      have := utf8.runA_pos v
      simp only [concatRuns] at h
      have hl := congrArg List.length h
      simp only [List.length_nil, List.length_append] at hl
      omega
  | cons u us ih =>
    cases vs with
    | nil =>
      have := utf8.runA_pos u
      simp only [concatRuns] at h
      have hl := congrArg List.length h
      simp only [List.length_nil, List.length_append] at hl
      omega
    | cons v vs =>
      simp only [concatRuns] at h
      have hu := hus u (by simp)
      have hv := hvs v (by simp)
      have d1 := (utf8.decodeA_run u hu.1 hu.2 (concatRuns utf8.runA us)).1
      have d2 := (utf8.decodeA_run v hv.1 hv.2 (concatRuns utf8.runA vs)).1
      rw [h, d2] at d1
      simp only [Prod.mk.injEq, Nat.cast_inj] at d1
      obtain ⟨rfl, -⟩ := d1
      have ht := List.append_cancel_left h
      rw [ih vs (fun w hw => hus w (by simp [hw])) (fun w hw => hvs w (by simp [hw])) ht]

/-- Over helpers that decode and encode runs, the source runs of scalar values
other than U+FFFD are transcoded to their destination runs when these fit. -/
theorem Codec.transform_concat (c : Codec) (hc : c.Lawful) (srcRun dstRun : Nat → List Nat)
    (hr : c.Runs srcRun dstRun) :
    ∀ (us : List Nat), (∀ u ∈ us, isScalar u ∧ (u : Int) ≠ utf8.RuneError) →
      ∀ (dst : List Nat), (concatRuns dstRun us).length ≤ dst.length →
      c.transform dst (concatRuns srcRun us) =
        Outcome.ret (concatRuns dstRun us ++ dst.drop (concatRuns dstRun us).length)
          (concatRuns dstRun us).length (concatRuns srcRun us).length none := by
  intro us
  induction us with
  | nil =>
    intro _ dst _
    simp [concatRuns, c.transform_nil hc]
  | cons u us ih =>
    intro hus dst hl
    obtain ⟨hu, hne⟩ := hus u (by simp)
    simp only [concatRuns, List.length_append] at hl ⊢
    rw [c.transform_run hc srcRun dstRun hr u hu hne, if_pos (by omega),
      ih (fun v hv => hus v (by simp [hv])) _ (by rw [List.length_drop]; omega)]
    simp [Outcome.shift, List.drop_drop]

/-- A rune that `utf8.RuneLen` accepts is a scalar value. -/
theorem utf8.RuneLen_valid (r : Int) (h : utf8.RuneLen r ≠ -1) :
    ∃ u : Nat, r = (u : Int) ∧ isScalar u := by
  have e1 : ((utf8.rune1Max : Nat) : Int) = 127 := by decide
  have e2 : ((utf8.rune2Max : Nat) : Int) = 2047 := by decide
  have e3 : ((utf8.rune3Max : Nat) : Int) = 65535 := by decide
  have e4 : ((utf8.surrogateMin : Nat) : Int) = 0xD800 := by decide
  have e5 : ((utf8.surrogateMax : Nat) : Int) = 0xDFFF := by decide
  have e6 : utf8.MaxRune = 0x10FFFF := by decide
  unfold utf8.RuneLen at h
  rw [e1, e2, e3, e4, e5, e6] at h
  refine ⟨r.toNat, ?_, ?_⟩
  · split_ifs at h <;> omega
  · unfold isScalar
    split_ifs at h <;> omega

/-- What the CESU-8 to UTF-8 loop has written when it returns, whatever
package `cesu8` does: UTF-8 runs of scalar values in the first `nDst` bytes of
the destination, and nothing after them. -/
theorem cesu8ToUtf8With_output (pkg : Cesu8) (src dst : List Nat) (fuel : Nat)
    (d : List Nat) (j i : Nat) (e : Option Error)
    (h : (cesu8ToUtf8With pkg).loop src fuel dst 0 0 = Outcome.ret d j i e) :
    j ≤ dst.length ∧ d.length = dst.length ∧ d.drop j = dst.drop j ∧
    ∃ us : List Nat, (∀ u ∈ us, isScalar u) ∧ d.take j = concatRuns utf8.runA us := by
  refine ((cesu8ToUtf8With pkg).loop_inv src
    (fun d i j => j ≤ dst.length ∧ d.length = dst.length ∧ d.drop j = dst.drop j ∧
      ∃ us : List Nat, (∀ u ∈ us, isScalar u) ∧ d.take j = concatRuns utf8.runA us)
    ?_ ?_ fuel dst 0 0 ⟨Nat.zero_le _, rfl, rfl, [], by simp, by simp [concatRuns]⟩ d j i e h).1
  · intro d0 i0 j0 hi ⟨h2, h3, h4, us, hus, hd⟩ ha hj
    have hb : src[i0] < 0x80 := ha
    refine ⟨by omega, by rw [List.length_set, h3], ?_, us ++ [src[i0]], ?_, ?_⟩
    · rw [List.drop_set_succ, ← List.drop_drop, h4, List.drop_drop]
    · intro u hu
      rcases List.mem_append.mp hu with hu | hu
      · exact hus u hu
      · rw [List.mem_singleton] at hu
        subst hu
        exact ⟨by omega, by omega⟩
    · have hrun : utf8.runA src[i0] = [src[i0]] := by simp [utf8.runA, hb]
      rw [concatRuns_concat, hrun, ← hd, List.take_set_succ d0 j0 _ hj]
  · intro d0 i0 j0 hi p k ⟨h2, h3, h4, us, hus, hd⟩ ha hf hne hm hfit henc
    have hm2 : utf8.RuneLen (pkg.DecodeRune (src.drop i0)).1 ≠ -1 := hm
    obtain ⟨u, hr, hu⟩ := utf8.RuneLen_valid _ hm2
    have hfit2 : (j0 : Int) + utf8.RuneLen (pkg.DecodeRune (src.drop i0)).1 ≤ d0.length := hfit
    have henc2 : utf8.EncodeRune (d0.drop j0) (pkg.DecodeRune (src.drop i0)).1 = some (p, k) := henc
    have hlen : (cesu8ToUtf8With pkg).runeLen ((cesu8ToUtf8With pkg).decodeRune (src.drop i0)).1
        = (((utf8.runA u).length : Nat) : Int) := by
      show utf8.RuneLen (pkg.DecodeRune (src.drop i0)).1 = _
      rw [hr, utf8.RuneLen_cast u hu.1 hu.2]
    rw [hr] at hfit2 henc2
    rw [utf8.RuneLen_cast u hu.1 hu.2] at hfit2
    have hfit3 : j0 + (utf8.runA u).length ≤ d0.length := by omega
    rw [utf8.EncodeRune_cast u hu.1 hu.2, if_pos (by rw [List.length_drop]; omega)] at henc2
    simp only [Option.some.injEq, Prod.mk.injEq] at henc2
    obtain ⟨rfl, -⟩ := henc2
    obtain ⟨w1, w2, w3⟩ := List.take_drop_write d0 (utf8.runA u) j0 hfit3
    simp only [hlen, Int.toNat_ofNat]
    refine ⟨by omega, by rw [w1, h3], ?_, us ++ [u], ?_, ?_⟩
    · rw [w3, ← List.drop_drop, h4, List.drop_drop]
    · intro v hv
      rcases List.mem_append.mp hv with hv | hv
      · exact hus v hv
      · rw [List.mem_singleton] at hv
        subst hv
        exact hu
    · rw [concatRuns_concat, ← hd, w2]

/-- With safe helpers a call returns: within `len(src)` iterations, and also
within `len(dst) + 1`. -/
theorem Codec.returns (c : Codec) (hs : c.Safe) (src dst : List Nat) (fuel : Nat)
    (hf : src.length ≤ fuel ∨ dst.length + 1 ≤ fuel) :
    ∃ d j i e, c.loop src fuel dst 0 0 = Outcome.ret d j i e := by
  refine c.loop_returns src dst.length (fun d _ _ => d.length = dst.length) (fun _ _ _ h => h)
    ?_ ?_ ?_ fuel dst 0 0 rfl (by omega)
  · intro d0 i0 j0 hi h _ _
    rw [List.length_set, h]
  · intro d0 i0 j0 hi p k h _ _ _ _ _ henc
    have := hs.encode_length _ _ _ _ henc
    rw [List.length_append, List.length_take, this, List.length_drop]
    omega
  · intro d0 i0 j0 hi h ha hf
    have hcons : src.drop i0 = src[i0] :: src.drop (i0 + 1) := List.drop_eq_getElem_cons hi
    refine ⟨fun hr => hs.invalid_ok i0 _ hf hr, fun hr => ⟨hs.width_pos _ hf hr, ?_, fun hfit => ?_⟩⟩
    · have := hs.len_pos src[i0] (src.drop (i0 + 1)) ha (by rw [← hcons]; exact hf)
        (by rw [← hcons]; exact hr)
      rw [← hcons] at this
      exact this
    · have := hs.encode_ok src[i0] (src.drop (i0 + 1)) (d0.drop j0) ha (by rw [← hcons]; exact hf)
        (by rw [← hcons]; exact hr)
      rw [← hcons] at this
      exact this (by rw [List.length_drop]; omega)

/-- With safe helpers every iteration that does not return moves on by at
least one byte in the source and in the destination, so their number is at
most what is left of either. -/
theorem Codec.steps_le (c : Codec) (hs : c.Safe) (src : List Nat) :
    ∀ (fuel : Nat) (dst : List Nat) (i j : Nat),
      c.steps src fuel dst i j ≤ min (src.length - i) (dst.length - j) := by
  intro fuel
  induction fuel with
  | zero =>
    intro dst i j
    simp [Codec.steps]
  | succ f ih =>
    intro dst i j
    rw [Codec.steps]
    by_cases hi : i < src.length
    · rw [dif_pos hi]
      by_cases ha : src[i] < utf8.RuneSelf
      · rw [if_pos ha]
        by_cases hj : j < dst.length
        · rw [if_pos hj]
          have := ih (dst.set j src[i]) (i + 1) (j + 1)
          rw [List.length_set] at this
          omega
        · rw [if_neg hj]
          exact Nat.zero_le _
      · rw [if_neg ha]
        by_cases hf : c.fullRune (src.drop i) = true
        · rw [hf]
          simp only [Bool.not_true, Bool.false_eq_true, ↓reduceIte]
          by_cases hr : (c.decodeRune (src.drop i)).1 = utf8.RuneError
          · rw [if_pos hr]
            exact Nat.zero_le _
          · rw [if_neg hr]
            by_cases hm : c.runeLen (c.decodeRune (src.drop i)).1 = -1
            · rw [if_pos hm]
              exact Nat.zero_le _
            · rw [if_neg hm]
              by_cases hfit : (j : Int) + c.runeLen (c.decodeRune (src.drop i)).1 ≤ dst.length
              · rw [if_pos hfit]
                cases henc : c.encodeRune (dst.drop j) (c.decodeRune (src.drop i)).1 with
                | none => exact Nat.zero_le _
                | some pk =>
                  obtain ⟨p, k⟩ := pk
                  have hcons : src.drop i = src[i] :: src.drop (i + 1) :=
                    List.drop_eq_getElem_cons hi
                  have hn := hs.width_pos _ hf hr
                  have hl := hs.len_pos src[i] (src.drop (i + 1)) (by omega)
                    (by rw [← hcons]; exact hf) (by rw [← hcons]; exact hr)
                  rw [← hcons] at hl
                  have hp := hs.encode_length _ _ _ _ henc
                  have := ih (dst.take j ++ p) (i + (c.decodeRune (src.drop i)).2)
                    (j + (c.runeLen (c.decodeRune (src.drop i)).1).toNat)
                  rw [List.length_append, List.length_take, hp, List.length_drop] at this
                  simp only []
                  omega
              · rw [if_neg hfit]
                exact Nat.zero_le _
        · have hf2 : c.fullRune (src.drop i) = false := by simpa using hf
          rw [hf2]
          exact Nat.zero_le _
    · rw [dif_neg hi]
      exact Nat.zero_le _

/-- One iteration of the loop from any state: it returns (or panics), or the
loop goes on from a state in which both positions have moved on by at least
one byte. -/
theorem Codec.advance (c : Codec) (hs : c.Safe) (src dst : List Nat) (i j : Nat) :
    (∃ o, o ≠ Outcome.outOfFuel ∧ ∀ f, c.loop src (f + 1) dst i j = o) ∨
    (∃ d2 i2 j2, i + 1 ≤ i2 ∧ j + 1 ≤ j2 ∧
      ∀ f, c.loop src (f + 1) dst i j = c.loop src f d2 i2 j2) := by
  by_cases hi : i < src.length
  · by_cases ha : src[i] < utf8.RuneSelf
    · by_cases hj : j < dst.length
      · refine Or.inr ⟨dst.set j src[i], i + 1, j + 1, Nat.le_refl _, Nat.le_refl _, fun f => ?_⟩
        rw [Codec.loop, dif_pos hi, if_pos ha, if_pos hj]
      · refine Or.inl ⟨Outcome.ret dst j i (some Error.ErrShortDst), by simp, fun f => ?_⟩
        rw [Codec.loop, dif_pos hi, if_pos ha, if_neg hj]
    · by_cases hf : c.fullRune (src.drop i) = true
      · by_cases hr : (c.decodeRune (src.drop i)).1 = utf8.RuneError
        · cases hinv : c.invalid i (src.drop i) (c.decodeRune (src.drop i)).2 with
          | ok e =>
            refine Or.inl ⟨Outcome.ret dst j i (some e), by simp, fun f => ?_⟩
            rw [Codec.loop, dif_pos hi, if_neg ha, hf]
            simp only [Bool.not_true, Bool.false_eq_true, ↓reduceIte]
            rw [if_pos hr, hinv]
          | error a =>
            refine Or.inl ⟨Outcome.panicked a, by simp, fun f => ?_⟩
            rw [Codec.loop, dif_pos hi, if_neg ha, hf]
            simp only [Bool.not_true, Bool.false_eq_true, ↓reduceIte]
            rw [if_pos hr, hinv]
        · have hcons : src.drop i = src[i] :: src.drop (i + 1) := List.drop_eq_getElem_cons hi
          have hn := hs.width_pos _ hf hr
          have hl := hs.len_pos src[i] (src.drop (i + 1)) (by omega)
            (by rw [← hcons]; exact hf) (by rw [← hcons]; exact hr)
          rw [← hcons] at hl
          have hm : c.runeLen (c.decodeRune (src.drop i)).1 ≠ -1 := by omega
          by_cases hfit : (j : Int) + c.runeLen (c.decodeRune (src.drop i)).1 ≤ dst.length
          · cases henc : c.encodeRune (dst.drop j) (c.decodeRune (src.drop i)).1 with
            | none =>
              refine Or.inl ⟨Outcome.panicked Abort.outOfRange, by simp, fun f => ?_⟩
              rw [Codec.loop, dif_pos hi, if_neg ha, hf]
              simp only [Bool.not_true, Bool.false_eq_true, ↓reduceIte]
              rw [if_neg hr, if_neg hm, if_pos hfit, henc]
            | some pk =>
              obtain ⟨p, k⟩ := pk
              refine Or.inr ⟨dst.take j ++ p, i + (c.decodeRune (src.drop i)).2,
                j + (c.runeLen (c.decodeRune (src.drop i)).1).toNat, by omega, by omega,
                fun f => ?_⟩
              rw [Codec.loop, dif_pos hi, if_neg ha, hf]
              simp only [Bool.not_true, Bool.false_eq_true, ↓reduceIte]
              rw [if_neg hr, if_neg hm, if_pos hfit, henc]
          · refine Or.inl ⟨Outcome.ret dst j i (some Error.ErrShortDst), by simp, fun f => ?_⟩
            rw [Codec.loop, dif_pos hi, if_neg ha, hf]
            simp only [Bool.not_true, Bool.false_eq_true, ↓reduceIte]
            rw [if_neg hr, if_neg hm, if_neg hfit]
      · have hf2 : c.fullRune (src.drop i) = false := by simpa using hf
        refine Or.inl ⟨Outcome.ret dst j i (some Error.ErrShortSrc), by simp, fun f => ?_⟩
        rw [Codec.loop, dif_pos hi, if_neg ha, hf2]
        rfl
  · refine Or.inl ⟨Outcome.ret dst j i none, by simp, fun f => ?_⟩
    rw [Codec.loop, dif_neg hi]

/-- A unit that is not cut off has a width of at least 1 within the bytes. -/
theorem cesu8.decodeUnit_within (p : List Nat) (h : (cesu8.decodeUnit p).2.2 = false) :
    1 ≤ (cesu8.decodeUnit p).2.1 ∧ (cesu8.decodeUnit p).2.1 ≤ p.length := by
  rcases p with _ | ⟨b0, rest⟩
  · simp [cesu8.decodeUnit] at h
  · simp only [cesu8.decodeUnit, utf8.byteAt, List.getD_cons_zero, utf8.tx, utf8.t2, utf8.t4,
      utf8.t3, utf8.locb, utf8.hicb] at h ⊢
    have hl1 : ¬ (b0 :: rest).length < 1 := by simp
    simp only [hl1, ↓reduceIte] at h ⊢
    by_cases h1 : b0 < 0x80
    · simp [h1]
    · simp only [h1, ↓reduceIte] at h ⊢
      by_cases h2 : b0 < 0xC0
      · simp [h2]
      · simp only [h2, ↓reduceIte] at h ⊢
        by_cases h3 : 0xF0 ≤ b0
        · simp [h3]
        · simp only [h3, ↓reduceIte] at h ⊢
          rcases rest with _ | ⟨b1, r1⟩
          · simp at h
          · have hl : ¬ (b0 :: b1 :: r1).length < 2 := by simp
            simp only [hl, ↓reduceIte, List.getD_cons_succ, List.getD_cons_zero] at h ⊢
            by_cases hb1 : b1 < 0x80 ∨ 0xBF < b1
            · simp [hb1]
            · simp only [hb1, ↓reduceIte] at h ⊢
              by_cases h4 : b0 < 0xE0
              · simp only [h4, ↓reduceIte] at h ⊢
                split_ifs <;> simp
              · simp only [h4, ↓reduceIte] at h ⊢
                rcases r1 with _ | ⟨b2, r2⟩
                · simp at h
                · have hl3 : ¬ (b0 :: b1 :: b2 :: r2).length < 3 := by simp
                  simp only [hl3, ↓reduceIte, List.getD_cons_succ, List.getD_cons_zero] at h ⊢
                  by_cases hb2 : b2 < 0x80 ∨ 0xBF < b2
                  · simp [hb2]
                  · simp only [hb2, ↓reduceIte] at h ⊢
                    split_ifs <;> simp

/-- The model of `cesu8.DecodeRune` gives, for bytes that begin with a full
rune, a width within them. -/
theorem cesu8.DecodeRune_within (p : List Nat) (hf : cesu8.FullRune p = true) :
    (cesu8.DecodeRune p).2 ≤ p.length := by
  unfold cesu8.FullRune at hf
  simp only at hf
  by_cases hs : (cesu8.decodeUnit p).2.2 = true
  · simp [hs] at hf
  · have hs2 : (cesu8.decodeUnit p).2.2 = false := by simpa using hs
    obtain ⟨-, hw⟩ := cesu8.decodeUnit_within p hs2
    unfold cesu8.DecodeRune
    simp only
    by_cases hlo : cesu8.isLowSurrogate (cesu8.decodeUnit p).1 = true
    · rw [if_pos hlo]
      exact hw
    · rw [if_neg hlo]
      by_cases hhi : cesu8.isHighSurrogate (cesu8.decodeUnit p).1 = true
      · rw [hs2, hhi] at hf
        simp only [Bool.false_eq_true, ↓reduceIte, Bool.not_true, Bool.not_eq_true'] at hf
        rw [hhi]
        simp only [Bool.not_true, Bool.false_eq_true, ↓reduceIte]
        obtain ⟨-, hw2⟩ := cesu8.decodeUnit_within _ hf
        rw [List.length_drop] at hw2
        split_ifs
        · simp only
          omega
        · exact hw
      · have hhi2 : cesu8.isHighSurrogate (cesu8.decodeUnit p).1 = false := by simpa using hhi
        rw [hhi2]
        simp only [Bool.not_false, ↓reduceIte]
        exact hw

theorem cesu8.model_decodes : cesu8.model.Decodes where
  within := fun p hf => cesu8.DecodeRune_within p hf
  width_pos := by
    intro p _ h
    obtain ⟨c, -, -, t, -, hd⟩ := cesu8.DecodeRune_valid p h
    show 1 ≤ (cesu8.DecodeRune p).2
    rw [hd]
    exact cesu8.runA_pos_cesu c
  scalar := by
    intro p _ h
    obtain ⟨c, h1, h2, t, -, hd⟩ := cesu8.DecodeRune_valid p h
    show utf8.RuneLen (cesu8.DecodeRune p).1 ≠ -1
    rw [hd]
    simp only
    rw [utf8.RuneLen_cast c h1 h2]
    omega

/-- The rune `utf8.DecodeRune` gives for bytes that start at `0x80` or above,
when it is not `RuneError`, is a scalar value from `0x80`. -/
theorem utf8.DecodeRune_high (b : Nat) (t : List Nat) (hb : utf8.RuneSelf ≤ b)
    (h : (utf8.DecodeRune (b :: t)).1 ≠ utf8.RuneError) :
    ∃ u : Nat, isScalar u ∧ 0x80 ≤ u ∧ (utf8.DecodeRune (b :: t)).1 = (u : Int) := by
  rw [utf8.DecodeRune_eq_decodeA] at h ⊢
  obtain ⟨c, h1, h2, t2, hp, hd⟩ := utf8.decodeA_valid (b :: t) h
  refine ⟨c, ⟨h1, h2⟩, ?_, by rw [hd]⟩
  by_contra hlt
  have hlt : c < 0x80 := by omega
  have hrun : utf8.runA c = [c] := by simp [utf8.runA, hlt]
  rw [hrun] at hp
  simp only [List.cons_append, List.nil_append, List.cons.injEq] at hp
  simp only [utf8.RuneSelf] at hb
  omega

theorem utf8ToCesu8With_safe (pkg : Cesu8) (run : Nat → List Nat) (hp : pkg.Encodes run)
    (hpos : ∀ u, isScalar u → 0x80 ≤ u → 1 ≤ (run u).length) : (utf8ToCesu8With pkg).Safe where
  encode_length := hp.keeps_length
  invalid_ok := fun _ _ _ _ => ⟨Error.ErrInvalidUtf8, rfl⟩
  width_pos := fun p _ h => (utf8.DecodeRune_width p h).1
  len_pos := by
    intro b t hb _ h
    obtain ⟨u, hu, h80, hr⟩ := utf8.DecodeRune_high b t hb h
    show 1 ≤ pkg.RuneLen (utf8.DecodeRune (b :: t)).1
    rw [hr, hp.rune_len u hu h80]
    have := hpos u hu h80
    omega
  encode_ok := by
    intro b t q hb _ h hfit
    obtain ⟨u, hu, h80, hr⟩ := utf8.DecodeRune_high b t hb h
    have hfit2 : pkg.RuneLen (utf8.DecodeRune (b :: t)).1 ≤ (q.length : Int) := hfit
    show ∃ p k, pkg.EncodeRune q (utf8.DecodeRune (b :: t)).1 = some (p, k)
    rw [hr] at hfit2 ⊢
    rw [hp.rune_len u hu h80] at hfit2
    exact ⟨_, _, hp.encode u hu h80 q (by omega)⟩

theorem cesu8ToUtf8With_safe (pkg : Cesu8) (hd : pkg.Decodes) : (cesu8ToUtf8With pkg).Safe where
  encode_length := fun p r q k h => utf8.EncodeRune_length p r q k h
  invalid_ok := by
    intro i p hf _
    have hw : (pkg.DecodeRune p).2 ≤ p.length := hd.within p hf
    exact ⟨newInvalidCesu8Error i (p.take (pkg.DecodeRune p).2), by
      show (if (pkg.DecodeRune p).2 ≤ p.length then _ else _) = _
      rw [if_pos hw]
      rfl⟩
  width_pos := fun p hf h => hd.width_pos p hf h
  len_pos := by
    intro b t _ hf h
    obtain ⟨u, hr, hu⟩ := utf8.RuneLen_valid _ (hd.scalar (b :: t) hf h)
    show 1 ≤ utf8.RuneLen (pkg.DecodeRune (b :: t)).1
    rw [hr, utf8.RuneLen_cast u hu.1 hu.2]
    have := utf8.runA_pos u
    omega
  encode_ok := by
    intro b t q _ hf h hfit
    obtain ⟨u, hr, hu⟩ := utf8.RuneLen_valid _ (hd.scalar (b :: t) hf h)
    have hfit2 : utf8.RuneLen (pkg.DecodeRune (b :: t)).1 ≤ (q.length : Int) := hfit
    show ∃ p k, utf8.EncodeRune q (pkg.DecodeRune (b :: t)).1 = some (p, k)
    rw [hr] at hfit2 ⊢
    rw [utf8.RuneLen_cast u hu.1 hu.2] at hfit2
    rw [utf8.EncodeRune_cast u hu.1 hu.2, if_pos (by omega)]
    exact ⟨_, _, rfl⟩

/-! # The claims -/


/-- C2. ASCII passthrough: for a source `s` of bytes in `0x00-0x7F`, a
destination at least as long and either value of `atEOF`, both transformers
return `(len(s), len(s), nil)` and leave `s` in the first `len(s)` bytes of the
destination (the bytes after them are untouched).  No function of package
`cesu8` is reached, so this holds whatever that package does. -/
theorem C2_ascii_passthrough (pkg : Cesu8) (s dst : List Nat) (atEOF : Bool) (hs : isAscii s)
    (hd : s.length ≤ dst.length) :
    Utf8ToCesu8Transform pkg dst s atEOF = Outcome.ret (s ++ dst.drop s.length) s.length s.length none ∧
    Cesu8ToUtf8Transform pkg dst s atEOF = Outcome.ret (s ++ dst.drop s.length) s.length s.length none :=
  ⟨by rw [Utf8ToCesu8Transform_with]; exact (utf8ToCesu8With pkg).transform_all_ascii s dst hs hd,
   by rw [Cesu8ToUtf8Transform_with]; exact (cesu8ToUtf8With pkg).transform_all_ascii s dst hs hd⟩

theorem C2_ascii_passthrough_witness :
    isAscii [0x48, 0x69, 0x21] ∧ [0x48, 0x69, 0x21].length ≤ [7, 7, 7, 7].length ∧
    (Utf8ToCesu8Transform cesu8.model [7, 7, 7, 7] [0x48, 0x69, 0x21] false
        = Outcome.ret ([0x48, 0x69, 0x21] ++ [7, 7, 7, 7].drop [0x48, 0x69, 0x21].length)
            [0x48, 0x69, 0x21].length [0x48, 0x69, 0x21].length none ∧
      Cesu8ToUtf8Transform cesu8.model [7, 7, 7, 7] [0x48, 0x69, 0x21] false
        = Outcome.ret ([0x48, 0x69, 0x21] ++ [7, 7, 7, 7].drop [0x48, 0x69, 0x21].length)
            [0x48, 0x69, 0x21].length [0x48, 0x69, 0x21].length none) :=
  ⟨by decide, by decide,
    C2_ascii_passthrough cesu8.model [0x48, 0x69, 0x21] [7, 7, 7, 7] false (by decide) (by decide)⟩

theorem utf8.runA_length4 (c : Nat) (h : 0x10000 ≤ c) : (utf8.runA c).length = 4 := by
  rw [utf8.runA_length, if_neg (by omega), if_neg (by omega), if_neg (by omega)]

theorem surrogate_units (c : Nat) (h1 : 0x10000 ≤ c) (h2 : c ≤ 0x10FFFF) :
    cesu8.runA c
      = unit3 (0xD800 + ((c - 0x10000) >>> 10)) ++ unit3 (0xDC00 + ((c - 0x10000) &&& 0x3FF)) := by
  have e1 : (c - 0x10000) >>> 10 = (c - 0x10000) / 1024 := Nat.shiftRight_eq_div_pow _ 10
  have e2 : (c - 0x10000) &&& 0x3FF = (c - 0x10000) % 1024 := Nat.and_pow_two_sub_one_eq_mod _ 10
  rw [e1, e2, unit3_eq _ (by omega) (by omega), unit3_eq _ (by omega) (by omega), cesu8.runA,
    if_neg (by omega)]

/-- C3. Supplementary-plane expansion: for a codepoint `c` in
`0x10000..0x10FFFF` and a destination of at least 6 bytes,
`utf8ToCesu8Transformer.Transform` on the 4-byte UTF-8 run of `c` returns
`(6, 4, nil)`, and the six bytes written are the 3-byte unit of the high
surrogate `0xD800 + ((c - 0x10000) >> 10)` followed by the 3-byte unit of the
low surrogate `0xDC00 + ((c - 0x10000) & 0x3FF)`. -/
theorem C3_supplementary_expansion (c : Nat) (dst : List Nat) (atEOF : Bool)
    (h1 : 0x10000 ≤ c) (h2 : c ≤ 0x10FFFF) (hd : 6 ≤ dst.length) :
    (utf8Run c).length = 4 ∧
    Utf8ToCesu8Transform cesu8.model dst (utf8Run c) atEOF =
      Outcome.ret
        (unit3 (0xD800 + ((c - 0x10000) >>> 10)) ++ unit3 (0xDC00 + ((c - 0x10000) &&& 0x3FF))
          ++ dst.drop 6) 6 4 none := by
  have hu : isScalar c := ⟨h2, by omega⟩
  have hne : (c : Int) ≠ utf8.RuneError := by simp only [utf8.RuneError]; omega
  have hl := cesu8.runA_length_cesu c h2
  rw [if_neg (by omega)] at hl
  have hl4 := utf8.runA_length4 c h1
  rw [utf8Run_eq c hu, Utf8ToCesu8Transform_eq]
  refine ⟨hl4, ?_⟩
  have := utf8ToCesu8Codec.transform_run utf8ToCesu8Codec_lawful _ _ utf8ToCesu8Codec_runs c hu hne dst []
  rw [List.append_nil, hl, if_pos hd, utf8ToCesu8Codec.transform_nil utf8ToCesu8Codec_lawful, hl4] at this
  rw [this, ← surrogate_units c h1 h2]
  simp [Outcome.shift]

theorem C3_supplementary_expansion_witness :
    (0x10000 ≤ 0x1F600 ∧ 0x1F600 ≤ 0x10FFFF ∧ 6 ≤ [0, 0, 0, 0, 0, 0, 9].length) ∧
    utf8Run 0x1F600 = [0xF0, 0x9F, 0x98, 0x80] ∧
    unit3 (0xD800 + ((0x1F600 - 0x10000) >>> 10)) ++ unit3 (0xDC00 + ((0x1F600 - 0x10000) &&& 0x3FF))
      = [0xED, 0xA0, 0xBD, 0xED, 0xB8, 0x80] ∧
    ((utf8Run 0x1F600).length = 4 ∧
      Utf8ToCesu8Transform cesu8.model [0, 0, 0, 0, 0, 0, 9] (utf8Run 0x1F600) true =
        Outcome.ret
          (unit3 (0xD800 + ((0x1F600 - 0x10000) >>> 10))
            ++ unit3 (0xDC00 + ((0x1F600 - 0x10000) &&& 0x3FF))
            ++ [0, 0, 0, 0, 0, 0, 9].drop 6) 6 4 none) :=
  ⟨by decide, by decide, by decide,
    C3_supplementary_expansion 0x1F600 [0, 0, 0, 0, 0, 0, 9] true (by decide) (by decide) (by decide)⟩

/-- C4. Surrogate-pair reassembly: for a codepoint `c` in `0x10000..0x10FFFF`
and a destination of at least 4 bytes, `cesu8ToUtf8Transformer.Transform` on
the 6-byte CESU-8 run of `c` returns `(4, 6, nil)` and writes exactly the
4-byte UTF-8 run of `c`. -/
theorem C4_surrogate_pair_reassembly (c : Nat) (dst : List Nat) (atEOF : Bool)
    (h1 : 0x10000 ≤ c) (h2 : c ≤ 0x10FFFF) (hd : 4 ≤ dst.length) :
    (cesu8Run c).length = 6 ∧ (utf8Run c).length = 4 ∧
    Cesu8ToUtf8Transform cesu8.model dst (cesu8Run c) atEOF = Outcome.ret (utf8Run c ++ dst.drop 4) 4 6 none := by
  have hu : isScalar c := ⟨h2, by omega⟩
  have hne : (c : Int) ≠ utf8.RuneError := by simp only [utf8.RuneError]; omega
  have hl := cesu8.runA_length_cesu c h2
  rw [if_neg (by omega)] at hl
  have hl4 := utf8.runA_length4 c h1
  rw [utf8Run_eq c hu, cesu8Run_eq c h2, Cesu8ToUtf8Transform_eq]
  refine ⟨hl, hl4, ?_⟩
  have := cesu8ToUtf8Codec.transform_run cesu8ToUtf8Codec_lawful _ _ cesu8ToUtf8Codec_runs c hu hne dst []
  rw [List.append_nil, hl4, if_pos hd, cesu8ToUtf8Codec.transform_nil cesu8ToUtf8Codec_lawful, hl] at this
  rw [this]
  simp [Outcome.shift]

theorem C4_surrogate_pair_reassembly_witness :
    (0x10000 ≤ 0x1F600 ∧ 0x1F600 ≤ 0x10FFFF ∧ 4 ≤ [1, 2, 3, 4, 5].length) ∧
    cesu8Run 0x1F600 = [0xED, 0xA0, 0xBD, 0xED, 0xB8, 0x80] ∧
    utf8Run 0x1F600 = [0xF0, 0x9F, 0x98, 0x80] ∧
    ((cesu8Run 0x1F600).length = 6 ∧ (utf8Run 0x1F600).length = 4 ∧
      Cesu8ToUtf8Transform cesu8.model [1, 2, 3, 4, 5] (cesu8Run 0x1F600) false
        = Outcome.ret (utf8Run 0x1F600 ++ [1, 2, 3, 4, 5].drop 4) 4 6 none) :=
  ⟨by decide, by decide, by decide,
    C4_surrogate_pair_reassembly 0x1F600 [1, 2, 3, 4, 5] false (by decide) (by decide) (by decide)⟩

theorem newInvalidCesu8Error_eq (p : Nat) (v : List Nat) :
    newInvalidCesu8Error p v = Error.InvalidCesu8Error p v := by
  simp [newInvalidCesu8Error, make, copy]

/-- The run `EF BF BD` of U+FFFD at the head of the source: both directions
report it as invalid, whatever follows it and whatever the destination. -/
theorem replacement_char_rejected (dst t : List Nat) (atEOF : Bool) :
    Utf8ToCesu8Transform cesu8.model dst ([0xEF, 0xBF, 0xBD] ++ t) atEOF
      = Outcome.ret dst 0 0 (some Error.ErrInvalidUtf8) ∧
    Cesu8ToUtf8Transform cesu8.model dst ([0xEF, 0xBF, 0xBD] ++ t) atEOF
      = Outcome.ret dst 0 0 (some (Error.InvalidCesu8Error 0 [0xEF, 0xBF, 0xBD])) := by
  have hs : [0xEF, 0xBF, 0xBD] ++ t = 0xEF :: 0xBF :: 0xBD :: t := rfl
  rw [hs]
  constructor
  · rw [Utf8ToCesu8Transform_eq, utf8ToCesu8Codec.transform_eq utf8ToCesu8Codec_lawful]
    have hf : utf8.FullRune (0xEF :: 0xBF :: 0xBD :: t) = true := by
      rw [utf8.FullRune_eq_fullA]; simp [utf8.fullA]
    have hd : utf8.DecodeRune (0xEF :: 0xBF :: 0xBD :: t) = (utf8.RuneError, 3) := by
      rw [utf8.DecodeRune_eq_decodeA]
      simp [utf8.decodeA, utf8.loA, utf8.hiA, utf8.RuneError]
    simp [utf8ToCesu8Codec, hf, hd, utf8.RuneSelf]
  · rw [Cesu8ToUtf8Transform_eq, cesu8ToUtf8Codec.transform_eq cesu8ToUtf8Codec_lawful]
    have hr := cesu8.DecodeRune_unit 0xFFFD (by omega) (by omega) t
    have hrun : utf8.runA 0xFFFD = [0xEF, 0xBF, 0xBD] := by decide
    rw [hrun, hs] at hr
    obtain ⟨hf, hd⟩ := hr
    have hd2 : cesu8.DecodeRune (0xEF :: 0xBF :: 0xBD :: t) = (utf8.RuneError, 3) := by
      rw [hd]; rfl
    have hlen : 0 < (0xEF :: 0xBF :: 0xBD :: t).length := by simp
    have hc1 : cesu8ToUtf8Codec.fullRune = cesu8.FullRune := rfl
    have hc2 : cesu8ToUtf8Codec.decodeRune = cesu8.DecodeRune := rfl
    have hinv : cesu8ToUtf8Codec.invalid 0 (0xEF :: 0xBF :: 0xBD :: t) 3
        = Except.ok (Error.InvalidCesu8Error 0 [0xEF, 0xBF, 0xBD]) := by
      simp [cesu8ToUtf8Codec, newInvalidCesu8Error_eq]
    rw [dif_pos hlen, hc1, hc2, hf, hd2]
    simp only [List.getElem_cons_zero]
    rw [if_neg (by decide), if_neg (by decide), if_pos trivial, hinv]

/-- The run `EF BF BD` of U+FFFD at the head of the source is reported as
invalid UTF-8, whatever package `cesu8` does. -/
theorem replacement_char_rejected_utf8 (pkg : Cesu8) (dst t : List Nat) (atEOF : Bool) :
    Utf8ToCesu8Transform pkg dst ([0xEF, 0xBF, 0xBD] ++ t) atEOF
      = Outcome.ret dst 0 0 (some Error.ErrInvalidUtf8) := by
  have hs : [0xEF, 0xBF, 0xBD] ++ t = 0xEF :: 0xBF :: 0xBD :: t := rfl
  have hf : utf8.FullRune (0xEF :: 0xBF :: 0xBD :: t) = true := by
    rw [utf8.FullRune_eq_fullA]; simp [utf8.fullA]
  have hd : utf8.DecodeRune (0xEF :: 0xBF :: 0xBD :: t) = (utf8.RuneError, 3) := by
    rw [utf8.DecodeRune_eq_decodeA]
    simp [utf8.decodeA, utf8.loA, utf8.hiA, utf8.RuneError]
  rw [hs]
  simp [Utf8ToCesu8Transform, utf8ToCesu8Loop, hf, hd, utf8.RuneSelf]

/-- The round trip of C1 for every scalar value other than U+FFFD: the UTF-8
run of `c` is transcoded to its CESU-8 run and the CESU-8 run back to the
UTF-8 run, both with a nil error. -/
theorem roundtrip_other_scalars (c : Nat) (hc : isScalar c) (hne : c ≠ 0xFFFD)
    (d6 d4 : List Nat) (h6 : 6 ≤ d6.length) (h4 : 4 ≤ d4.length) (a1 a2 : Bool) :
    Utf8ToCesu8Transform cesu8.model d6 (utf8Run c) a1
      = Outcome.ret (cesu8Run c ++ d6.drop (cesu8Run c).length) (cesu8Run c).length
          (utf8Run c).length none ∧
    Cesu8ToUtf8Transform cesu8.model d4 (cesu8Run c) a2
      = Outcome.ret (utf8Run c ++ d4.drop (utf8Run c).length) (utf8Run c).length
          (cesu8Run c).length none := by
  have hne2 : (c : Int) ≠ utf8.RuneError := by simp only [utf8.RuneError]; omega
  have hl6 : (cesu8.runA c).length ≤ 6 := by
    rw [cesu8.runA_length_if c hc.1]; split_ifs <;> omega
  have hl4 : (utf8.runA c).length ≤ 4 := by
    rw [utf8.runA_length]; split_ifs <;> omega
  rw [utf8Run_eq c hc, cesu8Run_eq c hc.1, Utf8ToCesu8Transform_eq, Cesu8ToUtf8Transform_eq]
  constructor
  · have := utf8ToCesu8Codec.transform_run utf8ToCesu8Codec_lawful _ _ utf8ToCesu8Codec_runs c hc hne2
      d6 []
    rw [List.append_nil, if_pos (by omega), utf8ToCesu8Codec.transform_nil utf8ToCesu8Codec_lawful] at this
    rw [this]
    simp [Outcome.shift]
  · have := cesu8ToUtf8Codec.transform_run cesu8ToUtf8Codec_lawful _ _ cesu8ToUtf8Codec_runs c hc hne2
      d4 []
    rw [List.append_nil, if_pos (by omega), cesu8ToUtf8Codec.transform_nil cesu8ToUtf8Codec_lawful] at this
    rw [this]
    simp [Outcome.shift]

/-- C1 at its failing input, the codepoint U+FFFD: it is a scalar value, its
UTF-8 run and its CESU-8 run are both `EF BF BD`, and on this run with a
destination of 6 bytes `utf8ToCesu8Transformer.Transform` returns
`ErrInvalidUtf8` and `cesu8ToUtf8Transformer.Transform` an `InvalidCesu8Error`,
where the round trip asks for nil errors. -/
theorem C1_roundtrip_replacement_char :
    isScalar 0xFFFD ∧ utf8Run 0xFFFD = [0xEF, 0xBF, 0xBD] ∧ cesu8Run 0xFFFD = [0xEF, 0xBF, 0xBD] ∧
    Utf8ToCesu8Transform cesu8.model (make 6) (utf8Run 0xFFFD) true
      = Outcome.ret (make 6) 0 0 (some Error.ErrInvalidUtf8) ∧
    Cesu8ToUtf8Transform cesu8.model (make 6) (cesu8Run 0xFFFD) true
      = Outcome.ret (make 6) 0 0 (some (Error.InvalidCesu8Error 0 [0xEF, 0xBF, 0xBD])) := by
  decide

/-- C5 at its failing input: a source that starts with the well-formed run
`EF BF BD` (the UTF-8 and CESU-8 encoding of the scalar value U+FFFD) is
reported as invalid at offset 0 by both directions, for every destination and
whatever follows the run (in the UTF-8 to CESU-8 direction whatever package
`cesu8` does). -/
theorem C5_invalid_error_on_valid_run (pkg : Cesu8) (dst t : List Nat) (atEOF : Bool) :
    isScalar 0xFFFD ∧
    (utf8Run 0xFFFD ++ t).drop 0 = utf8Run 0xFFFD ++ t ∧
    Utf8ToCesu8Transform pkg dst (utf8Run 0xFFFD ++ t) atEOF
      = Outcome.ret dst 0 0 (some Error.ErrInvalidUtf8) ∧
    Cesu8ToUtf8Transform cesu8.model dst (cesu8Run 0xFFFD ++ t) atEOF
      = Outcome.ret dst 0 0 (some (Error.InvalidCesu8Error 0 (cesu8Run 0xFFFD))) := by
  have h1 : utf8Run 0xFFFD = [0xEF, 0xBF, 0xBD] := by decide
  have h2 : cesu8Run 0xFFFD = [0xEF, 0xBF, 0xBD] := by decide
  rw [h1, h2]
  exact ⟨by decide, rfl, replacement_char_rejected_utf8 pkg dst t atEOF,
    (replacement_char_rejected dst t atEOF).2⟩

/-- What `newInvalidCesu8Error` leaves in memory: one new backing array, which
holds the bytes of `v`, and the error's slice is all of that array. -/
theorem newInvalidCesu8ErrorIn_arrays (m : Memory) (p : Nat) (v : Slice)
    (hb : v.buf < m.arrays.length) (hl : (m.read v).length = v.len) :
    (newInvalidCesu8ErrorIn m p v).1.arrays = m.arrays ++ [m.read v] ∧
    (newInvalidCesu8ErrorIn m p v).2 = ⟨p, ⟨m.arrays.length, 0, v.len⟩⟩ := by
  have hr : Memory.read ⟨m.arrays ++ [List.replicate v.len 0]⟩ v = m.read v := by
    simp only [Memory.read]
    rw [List.getD_append _ _ _ _ hb]
  have hz : (m.arrays ++ [List.replicate v.len 0]).getD m.arrays.length [] = List.replicate v.len 0 := by
    rw [List.getD_append_right _ _ _ _ (Nat.le_refl _)]
    simp
  have ht : (m.read v).take v.len = m.read v := List.take_of_length_le (by omega)
  refine ⟨?_, rfl⟩
  simp only [newInvalidCesu8ErrorIn, makeIn, copyIn, Memory.write]
  rw [hr, hz, ht, hl]
  simp

/-- The value `newInvalidCesu8Error` gives the error is a copy: it is in a
backing array that did not exist before the call, it holds the bytes `v` had at
the call, and no later store into a slice of an array that existed before the
call (the source among them) changes it. -/
theorem newInvalidCesu8ErrorIn_copy (m : Memory) (p : Nat) (v : Slice)
    (hb : v.buf < m.arrays.length) (hl : (m.read v).length = v.len) :
    (newInvalidCesu8ErrorIn m p v).2.p = p ∧
    (newInvalidCesu8ErrorIn m p v).2.v.buf = m.arrays.length ∧
    (newInvalidCesu8ErrorIn m p v).1.read (newInvalidCesu8ErrorIn m p v).2.v = m.read v ∧
    (∀ (w : Slice) (bytes : List Nat), w.buf < m.arrays.length →
      ((newInvalidCesu8ErrorIn m p v).1.write w bytes).read (newInvalidCesu8ErrorIn m p v).2.v
        = m.read v) ∧
    newInvalidCesu8Error p (m.read v)
      = Error.InvalidCesu8Error p
          ((newInvalidCesu8ErrorIn m p v).1.read (newInvalidCesu8ErrorIn m p v).2.v) := by
  obtain ⟨h1, h2⟩ := newInvalidCesu8ErrorIn_arrays m p v hb hl
  have hread : (newInvalidCesu8ErrorIn m p v).1.read (newInvalidCesu8ErrorIn m p v).2.v
      = m.read v := by
    rw [h2]
    simp only [Memory.read, h1]
    rw [List.getD_append_right _ _ _ _ (Nat.le_refl _)]
    simp only [Nat.sub_self, List.getD_cons_zero, List.drop_zero]
    exact List.take_of_length_le (Nat.le_of_eq hl)
  refine ⟨by rw [h2], by rw [h2], hread, fun w bytes hw => ?_, ?_⟩
  · rw [h2]
    simp only [Memory.read, Memory.write, h1]
    have hne : w.buf ≠ m.arrays.length := by omega
    rw [List.getD_eq_getElem?_getD, List.getElem?_set_ne hne, ← List.getD_eq_getElem?_getD,
      List.getD_append_right _ _ _ _ (Nat.le_refl _)]
    simp only [Nat.sub_self, List.getD_cons_zero, List.drop_zero]
    exact List.take_of_length_le (Nat.le_of_eq hl)
  · rw [hread, newInvalidCesu8Error_eq]

/-- The slice `s[i:i+1]` of a slice whose bytes are `a ++ [c] ++ t`, at
`i = len(a)`, holds the byte `c`. -/
theorem Memory.read_slice_one (m : Memory) (s : Slice) (a t : List Nat) (c : Nat)
    (h : m.read s = a ++ [c] ++ t) :
    s.buf < m.arrays.length ∧ m.read (s.slice a.length (a.length + 1)) = [c] := by
  simp only [Memory.read, Slice.slice] at h ⊢
  constructor
  · by_contra hge
    rw [List.getD_eq_default _ _ (by omega)] at h
    simp at h
  · have e1 : a.length + 1 - a.length = 1 := by omega
    rw [e1]
    have h2 := congrArg (fun l => (l.drop a.length).take 1) h
    simp only [List.append_assoc, List.drop_left, List.singleton_append, List.take_succ_cons,
      List.take_zero] at h2
    rw [List.drop_take, List.take_take, List.drop_drop] at h2
    have hlen := congrArg List.length h
    simp only [List.length_take, List.length_drop, List.length_append, List.length_singleton,
      List.length_cons] at hlen
    have hmin : min 1 (s.len - a.length) = 1 := by omega
    rw [hmin] at h2
    exact h2

/-- A store does not change the number of backing arrays. -/
theorem Memory.write_length (m : Memory) (w : Slice) (bytes : List Nat) :
    (m.write w bytes).arrays.length = m.arrays.length := by
  simp [Memory.write]

/-- A store into a slice of one backing array does not change what a slice of
another backing array holds. -/
theorem Memory.read_write_ne (m : Memory) (w s : Slice) (bytes : List Nat) (h : w.buf ≠ s.buf) :
    (m.write w bytes).read s = m.read s := by
  simp only [Memory.read, Memory.write]
  rw [List.getD_eq_getElem?_getD, List.getElem?_set_ne h, ← List.getD_eq_getElem?_getD]

/-- Stores into slices of other backing arrays do not change what a slice
holds. -/
theorem Memory.read_writes_ne (ws : List (Slice × List Nat)) (m : Memory) (s : Slice)
    (h : ∀ w ∈ ws, w.1.buf ≠ s.buf) : (m.writes ws).read s = m.read s := by
  induction ws generalizing m with
  | nil => rfl
  | cons w ws ih =>
    have h1 : w.1.buf ≠ s.buf := h w (List.mem_cons_self _ _)
    have h2 : ∀ x ∈ ws, x.1.buf ≠ s.buf := fun x hx => h x (List.mem_cons_of_mem _ hx)
    show ((m.write w.1 w.2).writes ws).read s = m.read s
    rw [ih _ h2, Memory.read_write_ne m w.1 s w.2 h1]

/-- Package `cesu8` as modelled takes a lone continuation byte for a full rune
and decodes it to `(RuneError, 1)`. -/
theorem cesu8.model_rejects_continuation (c : Nat) (t : List Nat) (h1 : 0x80 ≤ c) (h2 : c ≤ 0xBF) :
    cesu8.model.FullRune (c :: t) = true ∧
    cesu8.model.DecodeRune (c :: t) = (utf8.RuneError, 1) := by
  have hu : cesu8.decodeUnit (c :: t) = (utf8.RuneError, 1, false) := by
    have hl : ¬ (c :: t).length < 1 := by simp
    simp only [cesu8.decodeUnit, utf8.byteAt, List.getD_cons_zero, utf8.tx, utf8.t2]
    rw [if_neg hl, if_neg (by omega), if_pos (by omega)]
  constructor
  · show cesu8.FullRune (c :: t) = true
    simp only [cesu8.FullRune, hu, cesu8.isHigh_RuneError]
    rfl
  · show cesu8.DecodeRune (c :: t) = (utf8.RuneError, 1)
    simp only [cesu8.DecodeRune, hu, cesu8.isHigh_RuneError, cesu8.isLow_RuneError]
    rfl

/-- A lone continuation byte after an ASCII prefix is invalid UTF-8, whatever
package `cesu8` does. -/
theorem utf8_continuation_after_ascii (pkg : Cesu8) (a t dst : List Nat) (c : Nat) (atEOF : Bool)
    (ha : isAscii a) (h1 : 0x80 ≤ c) (h2 : c ≤ 0xBF) (hd : a.length ≤ dst.length) :
    Utf8ToCesu8Transform pkg dst (a ++ c :: t) atEOF
      = Outcome.ret (a ++ dst.drop a.length) a.length a.length (some Error.ErrInvalidUtf8) := by
  have hf : utf8.FullRune (c :: t) = true := by
    rw [utf8.FullRune_eq_fullA]
    simp only [utf8.fullA]
    rw [if_pos (by omega)]
  have hdec : utf8.DecodeRune (c :: t) = (utf8.RuneError, 1) := by
    rw [utf8.DecodeRune_eq_decodeA]
    simp only [utf8.decodeA]
    rw [if_neg (by omega), if_pos (by omega)]
  have hn : ¬ c < utf8.RuneSelf := by simp only [utf8.RuneSelf]; omega
  have hc1 : (utf8ToCesu8With pkg).fullRune = utf8.FullRune := rfl
  have hc2 : (utf8ToCesu8With pkg).decodeRune = utf8.DecodeRune := rfl
  have hi : a.length < (a ++ c :: t).length := by simp
  have hb0 : (a ++ c :: t)[a.length] = c := by
    rw [List.getElem_append_right (Nat.le_refl _)]
    simp
  have hdrop : (a ++ c :: t).drop a.length = c :: t := by simp
  rw [Utf8ToCesu8Transform_with, (utf8ToCesu8With pkg).transform_ascii_loop a _ dst ha hd,
    List.length_cons, Codec.loop, dif_pos hi, hb0, if_neg hn, hdrop, hc1, hc2, hf, hdec]
  rfl

/-- A lone continuation byte after an ASCII prefix is invalid CESU-8, for every
package `cesu8` that decodes it to `(RuneError, 1)`; the error is the one
`newInvalidCesu8Error(i, src[i:i+n])` builds. -/
theorem cesu8_continuation_after_ascii (pkg : Cesu8) (a t dst : List Nat) (c : Nat) (atEOF : Bool)
    (ha : isAscii a) (h1 : 0x80 ≤ c) (hd : a.length ≤ dst.length)
    (hfull : pkg.FullRune (c :: t) = true) (hdec : pkg.DecodeRune (c :: t) = (utf8.RuneError, 1)) :
    Cesu8ToUtf8Transform pkg dst (a ++ c :: t) atEOF
      = Outcome.ret (a ++ dst.drop a.length) a.length a.length
          (some (newInvalidCesu8Error a.length (((a ++ c :: t).drop a.length).take 1))) := by
  have hn : ¬ c < utf8.RuneSelf := by simp only [utf8.RuneSelf]; omega
  have hc1 : (cesu8ToUtf8With pkg).fullRune = pkg.FullRune := rfl
  have hc2 : (cesu8ToUtf8With pkg).decodeRune = pkg.DecodeRune := rfl
  have hi : a.length < (a ++ c :: t).length := by simp
  have hb0 : (a ++ c :: t)[a.length] = c := by
    rw [List.getElem_append_right (Nat.le_refl _)]
    simp
  have hdrop : (a ++ c :: t).drop a.length = c :: t := by simp
  have hinv : (cesu8ToUtf8With pkg).invalid a.length (c :: t) 1
      = Except.ok (newInvalidCesu8Error a.length ((c :: t).take 1)) := by
    show (if 1 ≤ (c :: t).length then _ else _) = _
    rw [if_pos (by simp)]
  rw [Cesu8ToUtf8Transform_with, (cesu8ToUtf8With pkg).transform_ascii_loop a _ dst ha hd,
    List.length_cons, Codec.loop, dif_pos hi, hb0, if_neg hn, hdrop, hc1, hc2, hfull, hdec]
  simp only [Bool.not_true, Bool.false_eq_true, if_false, if_true]
  rw [hinv]

/-- C6. Invalid input detection at the correct offset: for a source
`a ++ [c] ++ t` with `a` in ASCII, `c` a continuation byte `0x80-0xBF` and `t`
arbitrary, and a destination of at least `len(a)` bytes,
`utf8ToCesu8Transformer.Transform` returns `(len(a), len(a), ErrInvalidUtf8)`,
whatever package `cesu8` does, and `cesu8ToUtf8Transformer.Transform` returns
`(len(a), len(a), e)` with `e = newInvalidCesu8Error(len(a), src[p : p+1])`, for
every package `cesu8` that takes the lone byte `c` for a full rune and decodes
it to `(RuneError, 1)`.  The error `e` has the position `len(a)` and the value
`[c]`.  That value is a fresh copy: whatever the memory `m` and the slice `s`
that holds the source in it, `newInvalidCesu8Error` applied to `s[p : p+1]`
leaves the source as it is and returns an error with the position `len(a)`
whose slice lies in a backing array that did not exist before the call (so not
in the one of the source), holds `[c]`, and still holds `[c]` after any
sequence of later stores into slices of the backing arrays that existed at the
call, the source buffer among them; and what that slice holds is the value of
`e`. -/
theorem C6_lone_continuation_byte (pkg : Cesu8) (a t dst : List Nat) (c : Nat) (atEOF : Bool)
    (ha : isAscii a) (h1 : 0x80 ≤ c) (h2 : c ≤ 0xBF) (hd : a.length ≤ dst.length)
    (hrej : pkg.FullRune (c :: t) = true ∧ pkg.DecodeRune (c :: t) = (utf8.RuneError, 1)) :
    Utf8ToCesu8Transform pkg dst (a ++ [c] ++ t) atEOF
      = Outcome.ret (a ++ dst.drop a.length) a.length a.length (some Error.ErrInvalidUtf8) ∧
    Cesu8ToUtf8Transform pkg dst (a ++ [c] ++ t) atEOF
      = Outcome.ret (a ++ dst.drop a.length) a.length a.length
          (some (newInvalidCesu8Error a.length (((a ++ [c] ++ t).drop a.length).take 1))) ∧
    newInvalidCesu8Error a.length (((a ++ [c] ++ t).drop a.length).take 1)
      = Error.InvalidCesu8Error a.length [c] ∧
    ∀ (m : Memory) (s : Slice), m.read s = a ++ [c] ++ t →
      ∃ (m2 : Memory) (e : InvalidCesu8ErrorIn),
        newInvalidCesu8ErrorIn m a.length (s.slice a.length (a.length + 1)) = (m2, e) ∧
        e.p = a.length ∧
        s.buf < m.arrays.length ∧ e.v.buf = m.arrays.length ∧ e.v.buf ≠ s.buf ∧
        m2.read s = a ++ [c] ++ t ∧
        m2.read e.v = [c] ∧
        (∀ ws : List (Slice × List Nat), (∀ w ∈ ws, w.1.buf < m.arrays.length) →
          (m2.writes ws).read e.v = [c]) ∧
        newInvalidCesu8Error a.length (((a ++ [c] ++ t).drop a.length).take 1)
          = Error.InvalidCesu8Error e.p (m2.read e.v) := by
  have hs : a ++ [c] ++ t = a ++ (c :: t) := by simp
  have hv : ((a ++ (c :: t)).drop a.length).take 1 = [c] := by
    rw [List.drop_left]; rfl
  refine ⟨?_, ?_, ?_, fun m s hm => ?_⟩
  · rw [hs]
    exact utf8_continuation_after_ascii pkg a t dst c atEOF ha h1 h2 hd
  · rw [hs]
    exact cesu8_continuation_after_ascii pkg a t dst c atEOF ha h1 hd hrej.1 hrej.2
  · rw [hs, hv, newInvalidCesu8Error_eq]
  · obtain ⟨hb, hr⟩ := Memory.read_slice_one m s a t c hm
    have hb2 : (s.slice a.length (a.length + 1)).buf < m.arrays.length := hb
    have hl : (m.read (s.slice a.length (a.length + 1))).length
        = (s.slice a.length (a.length + 1)).len := by
      rw [hr]
      show 1 = a.length + 1 - a.length
      omega
    obtain ⟨k1, k2⟩ := newInvalidCesu8ErrorIn_arrays m a.length _ hb2 hl
    obtain ⟨c1, c2, c3, c4, c5⟩ := newInvalidCesu8ErrorIn_copy m a.length _ hb2 hl
    have hne : (newInvalidCesu8ErrorIn m a.length (s.slice a.length (a.length + 1))).2.v.buf
        ≠ s.buf := by
      rw [c2]; omega
    refine ⟨(newInvalidCesu8ErrorIn m a.length (s.slice a.length (a.length + 1))).1,
      (newInvalidCesu8ErrorIn m a.length (s.slice a.length (a.length + 1))).2,
      rfl, c1, hb, c2, hne, ?_, ?_, fun ws hws => ?_, ?_⟩
    · rw [← hm]
      simp only [Memory.read, k1]
      rw [List.getD_append _ _ _ _ hb]
    · rw [c3, hr]
    · rw [Memory.read_writes_ne ws _ _ (fun w hw => ?_), c3, hr]
      rw [c2]
      exact Nat.ne_of_lt (hws w hw)
    · rw [c3, hr, c1, hs, hv, newInvalidCesu8Error_eq]

theorem C6_lone_continuation_byte_witness :
    (isAscii [0x61, 0x62] ∧ 0x80 ≤ 0x9F ∧ 0x9F ≤ 0xBF ∧ [0x61, 0x62].length ≤ [0, 0].length ∧
      cesu8.model.FullRune [0x9F, 0x63] = true ∧
      cesu8.model.DecodeRune [0x9F, 0x63] = (utf8.RuneError, 1)) ∧
    Cesu8ToUtf8Transform cesu8.model [0, 0] ([0x61, 0x62] ++ [0x9F] ++ [0x63]) true
      = Outcome.ret [0x61, 0x62] 2 2 (some (Error.InvalidCesu8Error 2 [0x9F])) ∧
    newInvalidCesu8ErrorIn ⟨[[0x61, 0x62, 0x9F, 0x63]]⟩ 2 ((⟨0, 0, 4⟩ : Slice).slice 2 3)
      = (⟨[[0x61, 0x62, 0x9F, 0x63], [0x9F]]⟩, ⟨2, ⟨1, 0, 1⟩⟩) ∧
    (Utf8ToCesu8Transform cesu8.model [0, 0] ([0x61, 0x62] ++ [0x9F] ++ [0x63]) true
      = Outcome.ret ([0x61, 0x62] ++ [0, 0].drop [0x61, 0x62].length) [0x61, 0x62].length
          [0x61, 0x62].length (some Error.ErrInvalidUtf8) ∧
    Cesu8ToUtf8Transform cesu8.model [0, 0] ([0x61, 0x62] ++ [0x9F] ++ [0x63]) true
      = Outcome.ret ([0x61, 0x62] ++ [0, 0].drop [0x61, 0x62].length) [0x61, 0x62].length
          [0x61, 0x62].length
          (some (newInvalidCesu8Error [0x61, 0x62].length
            ((([0x61, 0x62] ++ [0x9F] ++ [0x63]).drop [0x61, 0x62].length).take 1))) ∧
    newInvalidCesu8Error [0x61, 0x62].length
        ((([0x61, 0x62] ++ [0x9F] ++ [0x63]).drop [0x61, 0x62].length).take 1)
      = Error.InvalidCesu8Error [0x61, 0x62].length [0x9F] ∧
    ∀ (m : Memory) (s : Slice), m.read s = [0x61, 0x62] ++ [0x9F] ++ [0x63] →
      ∃ (m2 : Memory) (e : InvalidCesu8ErrorIn),
        newInvalidCesu8ErrorIn m [0x61, 0x62].length
            (s.slice [0x61, 0x62].length ([0x61, 0x62].length + 1)) = (m2, e) ∧
        e.p = [0x61, 0x62].length ∧
        s.buf < m.arrays.length ∧ e.v.buf = m.arrays.length ∧ e.v.buf ≠ s.buf ∧
        m2.read s = [0x61, 0x62] ++ [0x9F] ++ [0x63] ∧
        m2.read e.v = [0x9F] ∧
        (∀ ws : List (Slice × List Nat), (∀ w ∈ ws, w.1.buf < m.arrays.length) →
          (m2.writes ws).read e.v = [0x9F]) ∧
        newInvalidCesu8Error [0x61, 0x62].length
            ((([0x61, 0x62] ++ [0x9F] ++ [0x63]).drop [0x61, 0x62].length).take 1)
          = Error.InvalidCesu8Error e.p (m2.read e.v)) :=
  ⟨by decide, by decide, by decide,
    C6_lone_continuation_byte cesu8.model [0x61, 0x62] [0x63] [0, 0] 0x9F true (by decide) (by decide)
      (by decide) (by decide) (cesu8.model_rejects_continuation 0x9F [0x63] (by decide) (by decide))⟩

/-- Short-destination atomicity where the code has it: when the first run of
the source is an ASCII byte, whose encoding has length `m = 1`, or starts with
a byte from `0x80` on for which `utf8.FullRune` holds and `utf8.DecodeRune`
gives a rune `r` other than `RuneError` (so not U+FFFD either), with
`m = cesu8.RuneLen(r)`, and the destination
has fewer than `m` bytes, `utf8ToCesu8Transformer.Transform` returns
`(0, 0, ErrShortDst)` and leaves every byte of the destination as it was.  This
holds whatever `cesu8.RuneLen` returns. -/
theorem short_destination_atomicity (pkg : Cesu8) (src dst : List Nat) (atEOF : Bool) (m : Nat)
    (hrun : (∃ b t, src = b :: t ∧ b < 0x80 ∧ m = 1) ∨
      (∃ b t, src = b :: t ∧ 0x80 ≤ b ∧ utf8.FullRune src = true ∧
        (utf8.DecodeRune src).1 ≠ utf8.RuneError ∧
        pkg.RuneLen (utf8.DecodeRune src).1 = (m : Int)))
    (hk : dst.length < m) :
    Utf8ToCesu8Transform pkg dst src atEOF = Outcome.ret dst 0 0 (some Error.ErrShortDst) := by
  rcases hrun with ⟨b, t, rfl, hb, rfl⟩ | ⟨b, t, rfl, hb, hfull, hdec, hm⟩
  · have hb2 : b < utf8.RuneSelf := hb
    have hd : ¬ 0 < dst.length := by omega
    simp [Utf8ToCesu8Transform, utf8ToCesu8Loop, hb2, hd]
  · have hb2 : ¬ b < utf8.RuneSelf := by simp only [utf8.RuneSelf]; omega
    have hm1 : ¬ ((m : Int) = -1) := by omega
    have hfit : ¬ ((m : Int) ≤ (dst.length : Int)) := by omega
    simp [Utf8ToCesu8Transform, utf8ToCesu8Loop, hb2, hfull, hdec, hm, hm1, hfit]

theorem short_destination_atomicity_example :
    (((∃ b t, [0xF0, 0x9F, 0x98, 0x80, 0x41] = b :: t ∧ b < 0x80 ∧ 6 = 1) ∨
      (∃ b t, [0xF0, 0x9F, 0x98, 0x80, 0x41] = b :: t ∧ 0x80 ≤ b ∧
        utf8.FullRune [0xF0, 0x9F, 0x98, 0x80, 0x41] = true ∧
        (utf8.DecodeRune [0xF0, 0x9F, 0x98, 0x80, 0x41]).1 ≠ utf8.RuneError ∧
        cesu8.model.RuneLen (utf8.DecodeRune [0xF0, 0x9F, 0x98, 0x80, 0x41]).1 = ((6 : Nat) : Int))) ∧
      [1, 2, 3, 4, 5].length < 6) ∧
    Utf8ToCesu8Transform cesu8.model [1, 2, 3, 4, 5] [0xF0, 0x9F, 0x98, 0x80, 0x41] false
      = Outcome.ret [1, 2, 3, 4, 5] 0 0 (some Error.ErrShortDst) :=
  ⟨⟨Or.inr ⟨0xF0, [0x9F, 0x98, 0x80, 0x41], rfl, by decide, by decide, by decide, by decide⟩,
      by decide⟩,
    short_destination_atomicity cesu8.model [0xF0, 0x9F, 0x98, 0x80, 0x41] [1, 2, 3, 4, 5] false 6
      (Or.inr ⟨0xF0, [0x9F, 0x98, 0x80, 0x41], rfl, by decide, by decide, by decide, by decide⟩)
      (by decide)⟩

/-- C8. Short-destination atomicity fails for the codepoint U+FFFD.  Its UTF-8
run `EF BF BD` is complete (`utf8.FullRune` holds) and decodes to the
codepoint `0xFFFD` with the width 3, and its CESU-8 encoding has the length
`m = 3`; yet with this run first in the source
`utf8ToCesu8Transformer.Transform` returns `(0, 0, ErrInvalidUtf8)` for every
destination, so also for one of fewer than 3 bytes such as `[7, 7]`, where the
claim says `(0, 0, ErrShortDst)`.  The destination is left as it was. -/
theorem C8_short_destination_replacement_char (pkg : Cesu8) (dst t : List Nat) (atEOF : Bool) :
    isScalar 0xFFFD ∧ utf8Run 0xFFFD = [0xEF, 0xBF, 0xBD] ∧
    utf8.FullRune ([0xEF, 0xBF, 0xBD] ++ t) = true ∧
    utf8.DecodeRune ([0xEF, 0xBF, 0xBD] ++ t) = (0xFFFD, 3) ∧
    (cesu8Run 0xFFFD).length = 3 ∧ cesu8.model.RuneLen 0xFFFD = 3 ∧
    [7, 7].length < (cesu8Run 0xFFFD).length ∧
    Utf8ToCesu8Transform pkg [7, 7] [0xEF, 0xBF, 0xBD] atEOF
      = Outcome.ret [7, 7] 0 0 (some Error.ErrInvalidUtf8) ∧
    Utf8ToCesu8Transform pkg dst ([0xEF, 0xBF, 0xBD] ++ t) atEOF
      = Outcome.ret dst 0 0 (some Error.ErrInvalidUtf8) ∧
    Utf8ToCesu8Transform pkg dst ([0xEF, 0xBF, 0xBD] ++ t) atEOF
      ≠ Outcome.ret dst 0 0 (some Error.ErrShortDst) := by
  have hs : [0xEF, 0xBF, 0xBD] ++ t = 0xEF :: 0xBF :: 0xBD :: t := rfl
  have hf : utf8.FullRune ([0xEF, 0xBF, 0xBD] ++ t) = true := by
    rw [hs, utf8.FullRune_eq_fullA]; simp [utf8.fullA]
  have hdec : utf8.DecodeRune ([0xEF, 0xBF, 0xBD] ++ t) = (0xFFFD, 3) := by
    rw [hs, utf8.DecodeRune_eq_decodeA]
    simp [utf8.decodeA, utf8.loA, utf8.hiA]
  have h := replacement_char_rejected_utf8 pkg dst t atEOF
  have h7 := replacement_char_rejected_utf8 pkg [7, 7] [] atEOF
  refine ⟨by decide, by decide, hf, hdec, by decide, by decide, by decide, h7, h, ?_⟩
  rw [h]
  intro hc
  cases hc

/-- A cut-off multi-byte UTF-8 run is not a full rune. -/
theorem utf8.fullA_take (c k : Nat) (hc : isScalar c) (h80 : 0x80 ≤ c) (hk0 : 0 < k)
    (hk : k < (utf8.runA c).length) :
    utf8.fullA ((utf8.runA c).take k) = false ∧ ∃ b t, (utf8.runA c).take k = b :: t ∧ 0x80 ≤ b := by
  obtain ⟨h1, h2⟩ := hc
  rw [utf8.runA_length] at hk
  unfold utf8.runA
  by_cases c1 : c < 0x80
  · omega
  · rw [if_neg c1] at hk ⊢
    by_cases c2 : c < 0x800
    · rw [if_pos c2] at hk ⊢
      have : k = 1 := by omega
      subst this
      refine ⟨?_, _, _, rfl, by omega⟩
      simp only [List.take, utf8.fullA]
      rw [if_neg (by omega), if_pos (by omega)]
      rfl
    · rw [if_neg c2] at hk ⊢
      by_cases c3 : c < 0x10000
      · rw [if_pos c3] at hk ⊢
        have lo : utf8.loA (0xE0 + c / 4096) ≤ 0x80 + c / 64 % 64 := by
          unfold utf8.loA; split_ifs <;> omega
        have hi : 0x80 + c / 64 % 64 ≤ utf8.hiA (0xE0 + c / 4096) := by
          unfold utf8.hiA; split_ifs <;> omega
        have : k = 1 ∨ k = 2 := by omega
        rcases this with rfl | rfl
        · refine ⟨?_, _, _, rfl, by omega⟩
          simp only [List.take, utf8.fullA]
          rw [if_neg (by omega), if_neg (by omega), if_pos (by omega)]
          simp
        · refine ⟨?_, _, _, rfl, by omega⟩
          simp only [List.take, utf8.fullA]
          rw [if_neg (by omega), if_neg (by omega), if_pos (by omega)]
          simp [utf8.byteAt]
          omega
      · rw [if_neg c3] at hk ⊢
        have lo : utf8.loA (0xF0 + c / 262144) ≤ 0x80 + c / 4096 % 64 := by
          unfold utf8.loA; split_ifs <;> omega
        have hi : 0x80 + c / 4096 % 64 ≤ utf8.hiA (0xF0 + c / 262144) := by
          unfold utf8.hiA; split_ifs <;> omega
        have : k = 1 ∨ k = 2 ∨ k = 3 := by omega
        rcases this with rfl | rfl | rfl
        · refine ⟨?_, _, _, rfl, by omega⟩
          simp only [List.take, utf8.fullA]
          rw [if_neg (by omega), if_neg (by omega), if_neg (by omega), if_pos (by omega)]
          simp
        · refine ⟨?_, _, _, rfl, by omega⟩
          simp only [List.take, utf8.fullA]
          rw [if_neg (by omega), if_neg (by omega), if_neg (by omega), if_pos (by omega)]
          simp [utf8.byteAt]
          omega
        · refine ⟨?_, _, _, rfl, by omega⟩
          simp only [List.take, utf8.fullA]
          rw [if_neg (by omega), if_neg (by omega), if_neg (by omega), if_pos (by omega)]
          simp [utf8.byteAt]
          omega

/-- C10. Short-source boundary: for a source `a ++ p` with `a` in ASCII and
`p` a non-empty proper prefix of the UTF-8 run of a scalar value from `0x80`
(a well-formed run of 2, 3 or 4 bytes), a destination of at least `len(a)`
bytes and either value of `atEOF`, `utf8ToCesu8Transformer.Transform` returns
`(len(a), len(a), ErrShortSrc)`: nothing of `p` is consumed or written.  No
function of package `cesu8` is reached. -/
theorem C10_short_source_boundary (pkg : Cesu8) (a dst : List Nat) (c k : Nat) (atEOF : Bool)
    (ha : isAscii a) (hc : isScalar c) (h80 : 0x80 ≤ c) (hk0 : 0 < k) (hk : k < (utf8Run c).length)
    (hd : a.length ≤ dst.length) :
    Utf8ToCesu8Transform pkg dst (a ++ (utf8Run c).take k) atEOF
      = Outcome.ret (a ++ dst.drop a.length) a.length a.length (some Error.ErrShortSrc) := by
  rw [utf8Run_eq c hc] at hk ⊢
  obtain ⟨hf, b, t, hp, hb⟩ := utf8.fullA_take c k hc h80 hk0 hk
  have hn : ¬ b < utf8.RuneSelf := by simp only [utf8.RuneSelf]; omega
  have hc1 : (utf8ToCesu8With pkg).fullRune = utf8.FullRune := rfl
  have hi : a.length < (a ++ b :: t).length := by simp
  have hb0 : (a ++ b :: t)[a.length] = b := by
    rw [List.getElem_append_right (Nat.le_refl _)]
    simp
  have hdrop : (a ++ b :: t).drop a.length = b :: t := by simp
  rw [Utf8ToCesu8Transform_with, (utf8ToCesu8With pkg).transform_ascii_loop a _ dst ha hd, hp,
    List.length_cons, Codec.loop, dif_pos hi, hb0, if_neg hn, hdrop, hc1, ← hp,
    utf8.FullRune_eq_fullA, hf]
  rfl

theorem C10_short_source_boundary_witness :
    (isAscii [0x41] ∧ isScalar 0x20AC ∧ 0x80 ≤ 0x20AC ∧ 0 < 2 ∧ 2 < (utf8Run 0x20AC).length ∧
      [0x41].length ≤ [9, 9, 9].length) ∧
    (utf8Run 0x20AC).take 2 = [0xE2, 0x82] ∧
    Utf8ToCesu8Transform cesu8.model [9, 9, 9] ([0x41] ++ (utf8Run 0x20AC).take 2) true
      = Outcome.ret ([0x41] ++ [9, 9, 9].drop [0x41].length) [0x41].length [0x41].length
          (some Error.ErrShortSrc) :=
  ⟨by decide, by decide,
    C10_short_source_boundary cesu8.model [0x41] [9, 9, 9] 0x20AC 2 true (by decide) (by decide) (by decide)
      (by decide) (by decide) (by decide)⟩

/-- C9. Resuming after a short-buffer stall equals one unsplit call: if
`utf8ToCesu8Transformer.Transform(dst1, src)` returns `(j1, i1, e1)` with `e1`
`ErrShortDst` or `ErrShortSrc`, and the retried call on `src[i1:] ++ s2` with
`dst2` returns `(j2, i2, e2)`, then a single call on `src ++ s2` with a
destination of length `j1 + len(dst2)` returns `(j1 + j2, i1 + i2, e2)` and its
first `j1 + j2` output bytes are `dst1[0:j1] ++ dst2[0:j2]` (as left by the two
calls).  This holds for every package `cesu8` whose `EncodeRune(p, r)` writes a
run of `RuneLen(r)` bytes that depends on `r` only. -/
theorem C9_resume_equals_unsplit (pkg : Cesu8) (run : Nat → List Nat) (hp : pkg.Encodes run)
    (src s2 dst1 dst2 dst d1 d2 : List Nat) (j1 i1 j2 i2 : Nat)
    (e1 : Error) (e2 : Option Error) (a1 a2 a3 : Bool)
    (h1 : Utf8ToCesu8Transform pkg dst1 src a1 = Outcome.ret d1 j1 i1 (some e1))
    (he : e1 = Error.ErrShortDst ∨ e1 = Error.ErrShortSrc)
    (h2 : Utf8ToCesu8Transform pkg dst2 (src.drop i1 ++ s2) a2 = Outcome.ret d2 j2 i2 e2)
    (hl : dst.length = j1 + dst2.length) :
    ∃ d, Utf8ToCesu8Transform pkg dst (src ++ s2) a3 = Outcome.ret d (j1 + j2) (i1 + i2) e2 ∧
      d.take (j1 + j2) = d1.take j1 ++ d2.take j2 := by
  have hc := utf8ToCesu8With_lawful pkg run hp
  have hr := utf8ToCesu8With_runs pkg run hp
  rw [Utf8ToCesu8Transform_with] at h1 h2 ⊢
  have hA := (utf8ToCesu8With pkg).transform_append hc _ _ hr
    src.length src (Nat.le_refl _) dst1 d1 j1 i1 (some e1) h1 dst s2 (by omega)
  obtain ⟨m1, m0, -, -⟩ := (utf8ToCesu8With pkg).transform_dst hc _ _
    hr src.length src (Nat.le_refl _) dst1 d1 j1 i1 (some e1) h1
  obtain ⟨k1, k0, -, k3⟩ := (utf8ToCesu8With pkg).transform_dst hc _ _
    hr (src.drop i1 ++ s2).length _ (Nat.le_refl _) dst2 d2 j2 i2 e2 h2
  have hB := k3 (dst.drop j1) (by rw [List.length_drop]; omega)
  have hE : Option.map (Error.shift i1) e2 = e2 := by
    cases e2 with
    | none => rfl
    | some e3 =>
      have := utf8ToCesu8With_errors pkg run hp _ _ (Nat.le_refl _) dst2 d2 j2 i2 e3 h2
      rcases this with rfl | rfl | rfl <;> rfl
  have l1 : (d1.take j1).length = j1 := by rw [List.length_take]; omega
  have l2 : (d2.take j2).length = j2 := by rw [List.length_take]; omega
  rw [hA, hB]
  refine ⟨d1.take j1 ++ (d2.take j2 ++ (dst.drop j1).drop j2), ?_, ?_⟩
  · simp only [Outcome.shift, hE]
  · rw [← List.append_assoc, List.take_append_of_le_length (by rw [List.length_append]; omega),
      List.take_of_length_le (by rw [List.length_append]; omega)]

theorem C9_resume_equals_unsplit_witness :
    (cesu8.model.Encodes cesu8.runA ∧
      Utf8ToCesu8Transform cesu8.model [0, 0, 0] [0x41, 0xF0, 0x9F, 0x98, 0x80, 0xC3] false
        = Outcome.ret [0x41, 0, 0] 1 1 (some Error.ErrShortDst) ∧
      (Error.ErrShortDst = Error.ErrShortDst ∨ Error.ErrShortDst = Error.ErrShortSrc) ∧
      Utf8ToCesu8Transform cesu8.model [0, 0, 0, 0, 0, 0, 0, 0, 0]
          ([0x41, 0xF0, 0x9F, 0x98, 0x80, 0xC3].drop 1 ++ [0xA9, 0x42]) true
        = Outcome.ret [0xED, 0xA0, 0xBD, 0xED, 0xB8, 0x80, 0xC3, 0xA9, 0x42] 9 7 none ∧
      [7, 7, 7, 7, 7, 7, 7, 7, 7, 7].length = 1 + [0, 0, 0, 0, 0, 0, 0, 0, 0].length) ∧
    ∃ d, Utf8ToCesu8Transform cesu8.model [7, 7, 7, 7, 7, 7, 7, 7, 7, 7]
          ([0x41, 0xF0, 0x9F, 0x98, 0x80, 0xC3] ++ [0xA9, 0x42]) false
        = Outcome.ret d (1 + 9) (1 + 7) none ∧
      d.take (1 + 9) = [0x41, 0, 0].take 1
        ++ [0xED, 0xA0, 0xBD, 0xED, 0xB8, 0x80, 0xC3, 0xA9, 0x42].take 9 :=
  ⟨⟨cesu8.model_encodes, by decide, by decide, by decide, by decide⟩,
    C9_resume_equals_unsplit cesu8.model cesu8.runA cesu8.model_encodes
      [0x41, 0xF0, 0x9F, 0x98, 0x80, 0xC3] [0xA9, 0x42] [0, 0, 0]
      [0, 0, 0, 0, 0, 0, 0, 0, 0] [7, 7, 7, 7, 7, 7, 7, 7, 7, 7] [0x41, 0, 0]
      [0xED, 0xA0, 0xBD, 0xED, 0xB8, 0x80, 0xC3, 0xA9, 0x42] 1 1 9 7 Error.ErrShortDst none
      false true false (by decide) (by decide) (by decide) (by decide)⟩

/-- A surrogate unit that is not the first half of a well-formed pair, at the
head of the source, is invalid CESU-8. -/
theorem cesu8_lone_surrogate_head (dst rest t : List Nat) (s w : Nat)
    (h : (0xD800 ≤ s ∧ s ≤ 0xDBFF ∧ w < 0x10000 ∧ ¬ (0xDC00 ≤ w ∧ w ≤ 0xDFFF) ∧
            rest = utf8.runA s ++ (utf8.runA w ++ t)) ∨
         (0xDC00 ≤ s ∧ s ≤ 0xDFFF ∧ rest = utf8.runA s ++ t)) :
    cesu8ToUtf8Codec.transform dst rest
      = Outcome.ret dst 0 0 (some (Error.InvalidCesu8Error 0 (utf8.runA s))) := by
  have hs : 0xD800 ≤ s ∧ s ≤ 0xDFFF := by rcases h with h | h <;> omega
  have l3 : (utf8.runA s).length = 3 := by
    rw [utf8.runA_length, if_neg (by omega), if_neg (by omega), if_pos (by omega)]
  obtain ⟨b, tl, hb, hb80⟩ := utf8.runA_head s (by omega)
  have key : ∃ t2, rest = utf8.runA s ++ t2 ∧ cesu8.FullRune rest = true ∧
      cesu8.DecodeRune rest = (utf8.RuneError, 3) := by
    rcases h with ⟨h1, h2, h3, h4, hr⟩ | ⟨h1, h2, hr⟩
    · have d1 := cesu8.decodeUnit_run s (by omega) (utf8.runA w ++ t)
      have d2 := cesu8.decodeUnit_run w h3 t
      rw [l3] at d1
      have hd : List.drop 3 (utf8.runA s ++ (utf8.runA w ++ t)) = utf8.runA w ++ t := by
        rw [List.drop_append_of_le_length (by omega), List.drop_of_length_le (by omega),
          List.nil_append]
      have hh : cesu8.isHighSurrogate (s : Int) = true := by
        rw [cesu8.isHigh_cast]; apply decide_eq_true; omega
      have hl : cesu8.isLowSurrogate (s : Int) = false := by
        rw [cesu8.isLow_cast]; apply decide_eq_false; omega
      have hl2 : cesu8.isLowSurrogate (w : Int) = false := by
        rw [cesu8.isLow_cast]; apply decide_eq_false; omega
      refine ⟨_, hr, ?_, ?_⟩
      · rw [hr]
        simp only [cesu8.FullRune, d1, hd, d2, hh]
        rfl
      · rw [hr]
        simp only [cesu8.DecodeRune, d1, hd, d2, hh, hl, hl2]
        rfl
    · have d1 := cesu8.decodeUnit_run s (by omega) t
      rw [l3] at d1
      have hh : cesu8.isHighSurrogate (s : Int) = false := by
        rw [cesu8.isHigh_cast]; apply decide_eq_false; omega
      have hl : cesu8.isLowSurrogate (s : Int) = true := by
        rw [cesu8.isLow_cast]; apply decide_eq_true; omega
      refine ⟨_, hr, ?_, ?_⟩
      · rw [hr]
        simp only [cesu8.FullRune, d1, hh]
        rfl
      · rw [hr]
        simp only [cesu8.DecodeRune, d1, hl]
        rfl
  obtain ⟨t2, hr, hf, hd⟩ := key
  rw [cesu8ToUtf8Codec.transform_eq cesu8ToUtf8Codec_lawful]
  have hc1 : cesu8ToUtf8Codec.fullRune = cesu8.FullRune := rfl
  have hc2 : cesu8ToUtf8Codec.decodeRune = cesu8.DecodeRune := rfl
  have hlen : 0 < rest.length := by rw [hr, hb]; simp
  have h0 : rest[0] = b := by simp [hr, hb]
  have hn : ¬ b < utf8.RuneSelf := by simp only [utf8.RuneSelf]; omega
  have hinv : cesu8ToUtf8Codec.invalid 0 rest 3
      = Except.ok (Error.InvalidCesu8Error 0 (utf8.runA s)) := by
    have h3 : 3 ≤ rest.length := by rw [hr, List.length_append]; omega
    have ht : rest.take 3 = utf8.runA s := by
      rw [hr, List.take_append_of_le_length (by omega), List.take_of_length_le (by omega)]
    simp only [cesu8ToUtf8Codec, h3, ↓reduceIte, ht, newInvalidCesu8Error_eq]
  rw [dif_pos hlen, hc1, hc2, hf, hd, h0]
  dsimp only
  rw [if_neg hn, if_neg (by decide), if_pos rfl, hinv]

/-- C7. Lone surrogates are invalid in the CESU-8 to UTF-8 direction: after a
prefix `pre` of `k` bytes that is transcoded without error, let the source go
on with the 3-byte unit of a surrogate value `s` that is not part of a
well-formed high-then-low pair: `s` is a high surrogate and the unit after it
is the complete unit of a value `w` that is not a low surrogate, or `s` is a
low surrogate (with anything or nothing after it).  Then, for every
destination that has room for the output of the prefix,
`cesu8ToUtf8Transformer.Transform` returns the consumed count `k` and an
`InvalidCesu8Error` with position `k` (its value is the unit of `s`). -/
theorem C7_lone_surrogate_invalid (pre rest t dst0 d0 dst : List Nat) (j0 s w : Nat)
    (a0 atEOF : Bool)
    (hpre : Cesu8ToUtf8Transform cesu8.model dst0 pre a0 = Outcome.ret d0 j0 pre.length none)
    (hd : j0 ≤ dst.length)
    (hs : (0xD800 ≤ s ∧ s ≤ 0xDBFF ∧ w ≤ 0xFFFF ∧ ¬ (0xDC00 ≤ w ∧ w ≤ 0xDFFF) ∧
            rest = unit3 s ++ (cesu8Run w ++ t)) ∨
          (0xDC00 ≤ s ∧ s ≤ 0xDFFF ∧ rest = unit3 s ++ t)) :
    Cesu8ToUtf8Transform cesu8.model dst (pre ++ rest) atEOF
      = Outcome.ret (d0.take j0 ++ dst.drop j0) j0 pre.length
          (some (Error.InvalidCesu8Error pre.length (unit3 s))) := by
  have hsr : 0xD800 ≤ s ∧ s ≤ 0xDFFF := by rcases hs with h | h <;> omega
  have hu : unit3 s = utf8.runA s := unit3_eq s (by omega) (by omega)
  have hs2 : (0xD800 ≤ s ∧ s ≤ 0xDBFF ∧ w < 0x10000 ∧ ¬ (0xDC00 ≤ w ∧ w ≤ 0xDFFF) ∧
            rest = utf8.runA s ++ (utf8.runA w ++ t)) ∨
         (0xDC00 ≤ s ∧ s ≤ 0xDFFF ∧ rest = utf8.runA s ++ t) := by
    rcases hs with ⟨h1, h2, h3, h4, hr⟩ | ⟨h1, h2, hr⟩
    · refine Or.inl ⟨h1, h2, by omega, h4, ?_⟩
      rw [hr, hu, cesu8Run_eq w (by omega), cesu8.runA, if_pos (by omega)]
    · exact Or.inr ⟨h1, h2, by rw [hr, hu]⟩
  rw [Cesu8ToUtf8Transform_eq] at hpre ⊢
  have hA := cesu8ToUtf8Codec.transform_append cesu8ToUtf8Codec_lawful _ _ cesu8ToUtf8Codec_runs
    pre.length pre (Nat.le_refl _) dst0 d0 j0 pre.length none hpre dst rest hd
  rw [List.drop_length, List.nil_append,
    cesu8_lone_surrogate_head (dst.drop j0) rest t s w hs2] at hA
  rw [hA, hu]
  simp [Outcome.shift, Error.shift]

theorem C7_lone_surrogate_invalid_witness :
    ((Cesu8ToUtf8Transform cesu8.model [0, 0] [0x41, 0x42] false
          = Outcome.ret [0x41, 0x42] 2 [0x41, 0x42].length none ∧
        2 ≤ [5, 5, 5, 5, 5, 5].length ∧
        ((0xD800 ≤ 0xD83D ∧ 0xD83D ≤ 0xDBFF ∧ 0x43 ≤ 0xFFFF ∧ ¬ (0xDC00 ≤ 0x43 ∧ 0x43 ≤ 0xDFFF) ∧
            [0xED, 0xA0, 0xBD, 0x43, 0x44] = unit3 0xD83D ++ (cesu8Run 0x43 ++ [0x44])) ∨
          (0xDC00 ≤ 0xD83D ∧ 0xD83D ≤ 0xDFFF ∧ [0xED, 0xA0, 0xBD, 0x43, 0x44] = unit3 0xD83D ++ [0x44]))) ∧
      Cesu8ToUtf8Transform cesu8.model [5, 5, 5, 5, 5, 5] ([0x41, 0x42] ++ [0xED, 0xA0, 0xBD, 0x43, 0x44]) true
        = Outcome.ret ([0x41, 0x42].take 2 ++ [5, 5, 5, 5, 5, 5].drop 2) 2 [0x41, 0x42].length
            (some (Error.InvalidCesu8Error [0x41, 0x42].length (unit3 0xD83D)))) ∧
    ((Cesu8ToUtf8Transform cesu8.model [0, 0] [0x41, 0x42] false
          = Outcome.ret [0x41, 0x42] 2 [0x41, 0x42].length none ∧
        2 ≤ [5, 5, 5, 5, 5, 5].length ∧
        ((0xD800 ≤ 0xDE00 ∧ 0xDE00 ≤ 0xDBFF ∧ 0 ≤ 0xFFFF ∧ ¬ (0xDC00 ≤ 0 ∧ 0 ≤ 0xDFFF) ∧
            [0xED, 0xB8, 0x80] = unit3 0xDE00 ++ (cesu8Run 0 ++ [])) ∨
          (0xDC00 ≤ 0xDE00 ∧ 0xDE00 ≤ 0xDFFF ∧ [0xED, 0xB8, 0x80] = unit3 0xDE00 ++ []))) ∧
      Cesu8ToUtf8Transform cesu8.model [5, 5, 5, 5, 5, 5] ([0x41, 0x42] ++ [0xED, 0xB8, 0x80]) true
        = Outcome.ret ([0x41, 0x42].take 2 ++ [5, 5, 5, 5, 5, 5].drop 2) 2 [0x41, 0x42].length
            (some (Error.InvalidCesu8Error [0x41, 0x42].length (unit3 0xDE00)))) :=
  ⟨⟨by decide,
      C7_lone_surrogate_invalid [0x41, 0x42] [0xED, 0xA0, 0xBD, 0x43, 0x44] [0x44] [0, 0] [0x41, 0x42]
        [5, 5, 5, 5, 5, 5] 2 0xD83D 0x43 false true (by decide) (by decide) (by decide)⟩,
    ⟨by decide,
      C7_lone_surrogate_invalid [0x41, 0x42] [0xED, 0xB8, 0x80] [] [0, 0] [0x41, 0x42]
        [5, 5, 5, 5, 5, 5] 2 0xDE00 0 false true (by decide) (by decide) (by decide)⟩⟩

/-- C11. Success means the whole source was consumed: when a call of either
`Transform` returns `(nDst, nSrc, err)`, `err` is nil if and only if
`nSrc = len(src)`, and a non-nil `err` comes with `nSrc < len(src)`.  For
`utf8ToCesu8Transformer` this holds whatever package `cesu8` does; for
`cesu8ToUtf8Transformer` it holds for every package whose `DecodeRune` gives,
for a full rune other than `RuneError`, a width within the bytes it is given. -/
theorem C11_nil_iff_source_consumed (pkg : Cesu8) (dst src d : List Nat) (j i : Nat)
    (e : Option Error) (atEOF : Bool)
    (h : Utf8ToCesu8Transform pkg dst src atEOF = Outcome.ret d j i e ∨
      ((∀ p, pkg.FullRune p = true → (pkg.DecodeRune p).1 ≠ utf8.RuneError →
          (pkg.DecodeRune p).2 ≤ p.length) ∧
        Cesu8ToUtf8Transform pkg dst src atEOF = Outcome.ret d j i e)) :
    (e = none ↔ i = src.length) ∧ (e ≠ none → i < src.length) := by
  rcases h with h | ⟨hw, h⟩
  · rw [Utf8ToCesu8Transform_with] at h
    obtain ⟨hi, hx⟩ := utf8ToCesu8With_pos pkg src src.length dst d j i e h
    exact Codec.Exit_nil_iff _ src d i j e hx hi
  · rw [Cesu8ToUtf8Transform_with] at h
    obtain ⟨hi, hx⟩ := cesu8ToUtf8With_pos pkg hw src src.length dst d j i e h
    exact Codec.Exit_nil_iff _ src d i j e hx hi

theorem C11_nil_iff_source_consumed_witness :
    ((Utf8ToCesu8Transform cesu8.model [0, 0, 0] [0x41, 0xC3, 0xA9, 0xE2, 0x82] true
        = Outcome.ret [0x41, 0xC3, 0xA9] 3 3 (some Error.ErrShortSrc) ∨
      ((∀ p, cesu8.model.FullRune p = true → (cesu8.model.DecodeRune p).1 ≠ utf8.RuneError →
          (cesu8.model.DecodeRune p).2 ≤ p.length) ∧
        Cesu8ToUtf8Transform cesu8.model [0, 0, 0] [0x41, 0xC3, 0xA9, 0xE2, 0x82] true
          = Outcome.ret [0x41, 0xC3, 0xA9] 3 3 (some Error.ErrShortSrc))) ∧
      ((some Error.ErrShortSrc = none ↔ 3 = [0x41, 0xC3, 0xA9, 0xE2, 0x82].length) ∧
        (some Error.ErrShortSrc ≠ none → 3 < [0x41, 0xC3, 0xA9, 0xE2, 0x82].length))) ∧
    ((Utf8ToCesu8Transform cesu8.model [0, 0, 0, 0] [0xED, 0xA0, 0xBD, 0xED, 0xB8, 0x80] false
        = Outcome.ret [0xF0, 0x9F, 0x98, 0x80] 4 6 none ∨
      ((∀ p, cesu8.model.FullRune p = true → (cesu8.model.DecodeRune p).1 ≠ utf8.RuneError →
          (cesu8.model.DecodeRune p).2 ≤ p.length) ∧
        Cesu8ToUtf8Transform cesu8.model [0, 0, 0, 0] [0xED, 0xA0, 0xBD, 0xED, 0xB8, 0x80] false
          = Outcome.ret [0xF0, 0x9F, 0x98, 0x80] 4 6 none)) ∧
      (((none : Option Error) = none ↔ 6 = [0xED, 0xA0, 0xBD, 0xED, 0xB8, 0x80].length) ∧
        ((none : Option Error) ≠ none → 6 < [0xED, 0xA0, 0xBD, 0xED, 0xB8, 0x80].length))) :=
  ⟨⟨Or.inl (by decide),
      C11_nil_iff_source_consumed cesu8.model [0, 0, 0] [0x41, 0xC3, 0xA9, 0xE2, 0x82]
        [0x41, 0xC3, 0xA9] 3 3 (some Error.ErrShortSrc) true (Or.inl (by decide))⟩,
    ⟨Or.inr ⟨cesu8.model_within, by decide⟩,
      C11_nil_iff_source_consumed cesu8.model [0, 0, 0, 0] [0xED, 0xA0, 0xBD, 0xED, 0xB8, 0x80]
        [0xF0, 0x9F, 0x98, 0x80] 4 6 none false (Or.inr ⟨cesu8.model_within, by decide⟩)⟩⟩

/-- C12. The end-of-input flag does not alter behaviour: for every package
`cesu8`, destination and source, both `Transform` methods give the same result
(destination contents, `nDst`, `nSrc`, `err`) for `atEOF = true` and
`atEOF = false`; so a source that ends inside a run is reported as `ErrShortSrc`
under either flag. -/
theorem C12_atEOF_does_not_alter (pkg : Cesu8) (dst src : List Nat) (atEOF : Bool) :
    Utf8ToCesu8Transform pkg dst src true = Utf8ToCesu8Transform pkg dst src false ∧
    Cesu8ToUtf8Transform pkg dst src true = Cesu8ToUtf8Transform pkg dst src false ∧
    Utf8ToCesu8Transform cesu8.model [0, 0] [0x41, 0xE2, 0x82] atEOF
      = Outcome.ret [0x41, 0] 1 1 (some Error.ErrShortSrc) ∧
    Cesu8ToUtf8Transform cesu8.model [0, 0] [0x41, 0xE2, 0x82] atEOF
      = Outcome.ret [0x41, 0] 1 1 (some Error.ErrShortSrc) := by
  refine ⟨rfl, rfl, ?_, ?_⟩ <;> cases atEOF <;> decide

/-- C15. Output equals the reference encoding of the consumed prefix: when
`utf8ToCesu8Transformer.Transform` returns `(nDst, nSrc, err)` with any status,
`src[0:nSrc]` is a well-formed UTF-8 sequence, the UTF-8 runs of one list `cs`
of scalar values and of no other list, and `dst[0:nDst]` is the concatenation
of the CESU-8 runs of the values of `cs` in the same order; the CESU-8 run of
`c` is its UTF-8 run when `c ≤ 0xFFFF` and the two 3-byte surrogate halves
when `c > 0xFFFF`. -/
theorem C15_output_is_reference_encoding (dst src d : List Nat) (j i : Nat)
    (e : Option Error) (atEOF : Bool)
    (h : Utf8ToCesu8Transform cesu8.model dst src atEOF = Outcome.ret d j i e) :
    utf8.WellFormed (src.take i) ∧
    ∃ cs : List Nat, (∀ c ∈ cs, isScalar c) ∧
      src.take i = concatRuns utf8Run cs ∧ d.take j = concatRuns cesu8Run cs ∧
      (∀ cs2 : List Nat, (∀ c ∈ cs2, isScalar c) → src.take i = concatRuns utf8Run cs2 →
        cs2 = cs) ∧
      ∀ c ∈ cs, (c ≤ 0xFFFF → cesu8Run c = utf8Run c) ∧
        (0xFFFF < c → cesu8Run c =
          unit3 (0xD800 + ((c - 0x10000) >>> 10)) ++ unit3 (0xDC00 + ((c - 0x10000) &&& 0x3FF))) := by
  rw [Utf8ToCesu8Transform_eq] at h
  obtain ⟨⟨-, -, -, -, us, hus, hs, hd⟩, -⟩ :=
    utf8ToCesu8Codec.loop_traced _ _ utf8ToCesu8Codec_runs src dst src.length d j i e h
  have hsc : ∀ u ∈ us, isScalar u := fun u hu => (hus u hu).1
  have e1 : concatRuns utf8Run us = concatRuns utf8.runA us :=
    concatRuns_congr _ _ us (fun u hu => utf8Run_eq u (hsc u hu))
  have e2 : concatRuns cesu8Run us = concatRuns cesu8.runA us :=
    concatRuns_congr _ _ us (fun u hu => cesu8Run_eq u (hsc u hu).1)
  refine ⟨by rw [hs]; exact utf8.wellFormed_concatRuns us hsc, us, hsc, by rw [e1]; exact hs,
    by rw [e2]; exact hd, ?_, ?_⟩
  · intro cs2 h2 h3
    have e3 : concatRuns utf8Run cs2 = concatRuns utf8.runA cs2 :=
      concatRuns_congr _ _ cs2 (fun u hu => utf8Run_eq u (h2 u hu))
    rw [hs, e3] at h3
    exact (utf8.concatRuns_inj us cs2 hsc h2 h3).symm
  · intro c hc
    have hcs := hsc c hc
    refine ⟨fun hle => ?_, fun hgt => ?_⟩
    · rw [cesu8Run_eq c hcs.1, utf8Run_eq c hcs, cesu8.runA, if_pos (by omega)]
    · rw [cesu8Run_eq c hcs.1]
      exact surrogate_units c (by omega) hcs.1

theorem C15_output_is_reference_encoding_witness :
    Utf8ToCesu8Transform cesu8.model [0, 0, 0, 0, 0, 0, 0, 0, 0]
        [0x41, 0xF0, 0x9F, 0x98, 0x80, 0xC3, 0xA9, 0xE2] true
      = Outcome.ret [0x41, 0xED, 0xA0, 0xBD, 0xED, 0xB8, 0x80, 0xC3, 0xA9] 9 7
          (some Error.ErrShortSrc) ∧
    [0x41, 0xF0, 0x9F, 0x98, 0x80, 0xC3, 0xA9, 0xE2].take 7
      = concatRuns utf8Run [0x41, 0x1F600, 0xE9] ∧
    [0x41, 0xED, 0xA0, 0xBD, 0xED, 0xB8, 0x80, 0xC3, 0xA9].take 9
      = concatRuns cesu8Run [0x41, 0x1F600, 0xE9] ∧
    (utf8.WellFormed ([0x41, 0xF0, 0x9F, 0x98, 0x80, 0xC3, 0xA9, 0xE2].take 7) ∧
    ∃ cs : List Nat, (∀ c ∈ cs, isScalar c) ∧
      [0x41, 0xF0, 0x9F, 0x98, 0x80, 0xC3, 0xA9, 0xE2].take 7 = concatRuns utf8Run cs ∧
      [0x41, 0xED, 0xA0, 0xBD, 0xED, 0xB8, 0x80, 0xC3, 0xA9].take 9 = concatRuns cesu8Run cs ∧
      (∀ cs2 : List Nat, (∀ c ∈ cs2, isScalar c) →
        [0x41, 0xF0, 0x9F, 0x98, 0x80, 0xC3, 0xA9, 0xE2].take 7 = concatRuns utf8Run cs2 →
        cs2 = cs) ∧
      ∀ c ∈ cs, (c ≤ 0xFFFF → cesu8Run c = utf8Run c) ∧
        (0xFFFF < c → cesu8Run c =
          unit3 (0xD800 + ((c - 0x10000) >>> 10)) ++ unit3 (0xDC00 + ((c - 0x10000) &&& 0x3FF)))) :=
  ⟨by decide, by decide, by decide,
    C15_output_is_reference_encoding [0, 0, 0, 0, 0, 0, 0, 0, 0]
      [0x41, 0xF0, 0x9F, 0x98, 0x80, 0xC3, 0xA9, 0xE2]
      [0x41, 0xED, 0xA0, 0xBD, 0xED, 0xB8, 0x80, 0xC3, 0xA9] 9 7 (some Error.ErrShortSrc) true
      (by decide)⟩

/-- C17. Stream-level round trip on the consumed prefix: when
`utf8ToCesu8Transformer.Transform(dst, src)` returns `(j, i, _)` with any
status, `cesu8ToUtf8Transformer.Transform` on the source `dst[0:j]` with a
destination of at least `i` bytes returns `(i, j, nil)` and writes exactly
`src[0:i]`. -/
theorem C17_stream_round_trip (dst src d dst2 : List Nat) (j i : Nat) (e : Option Error)
    (a1 a2 : Bool)
    (h : Utf8ToCesu8Transform cesu8.model dst src a1 = Outcome.ret d j i e)
    (h2 : i ≤ dst2.length) :
    Cesu8ToUtf8Transform cesu8.model dst2 (d.take j) a2
      = Outcome.ret (src.take i ++ dst2.drop i) i j none := by
  rw [Utf8ToCesu8Transform_eq] at h
  obtain ⟨⟨hi, hj, hdl, -, us, hus, hs, hd⟩, -⟩ :=
    utf8ToCesu8Codec.loop_traced _ _ utf8ToCesu8Codec_runs src dst src.length d j i e h
  have li : (concatRuns utf8.runA us).length = i := by
    rw [← hs, List.length_take]; omega
  have lj : (concatRuns cesu8.runA us).length = j := by
    rw [← hd, List.length_take]; omega
  rw [Cesu8ToUtf8Transform_eq, hd,
    cesu8ToUtf8Codec.transform_concat cesu8ToUtf8Codec_lawful _ _ cesu8ToUtf8Codec_runs us hus dst2
      (by omega), li, lj, hs]

theorem C17_stream_round_trip_witness :
    (Utf8ToCesu8Transform cesu8.model [0, 0, 0, 0, 0, 0, 0, 0, 0]
        [0x41, 0xF0, 0x9F, 0x98, 0x80, 0xC3, 0xA9, 0xE2] true
      = Outcome.ret [0x41, 0xED, 0xA0, 0xBD, 0xED, 0xB8, 0x80, 0xC3, 0xA9] 9 7
          (some Error.ErrShortSrc) ∧
      7 ≤ [5, 5, 5, 5, 5, 5, 5, 5].length) ∧
    Cesu8ToUtf8Transform cesu8.model [5, 5, 5, 5, 5, 5, 5, 5]
        ([0x41, 0xED, 0xA0, 0xBD, 0xED, 0xB8, 0x80, 0xC3, 0xA9].take 9) false
      = Outcome.ret ([0x41, 0xF0, 0x9F, 0x98, 0x80, 0xC3, 0xA9, 0xE2].take 7
          ++ [5, 5, 5, 5, 5, 5, 5, 5].drop 7) 7 9 none :=
  ⟨by decide,
    C17_stream_round_trip [0, 0, 0, 0, 0, 0, 0, 0, 0]
      [0x41, 0xF0, 0x9F, 0x98, 0x80, 0xC3, 0xA9, 0xE2]
      [0x41, 0xED, 0xA0, 0xBD, 0xED, 0xB8, 0x80, 0xC3, 0xA9] [5, 5, 5, 5, 5, 5, 5, 5] 9 7
      (some Error.ErrShortSrc) true false (by decide) (by decide)⟩

/-- C19. Destination sizing: the counts returned by
`utf8ToCesu8Transformer.Transform` satisfy `nSrc ≤ nDst` and
`2 * nDst ≤ 3 * nSrc`, and it does not return `ErrShortDst` when
`2 * len(dst) ≥ 3 * len(src)`; the counts returned by
`cesu8ToUtf8Transformer.Transform` satisfy `nDst ≤ nSrc`, and it does not
return `ErrShortDst` when `len(dst) ≥ len(src)`. -/
theorem C19_destination_sizing (dstA srcA dA : List Nat) (jA iA : Nat) (eA : Option Error)
    (aA : Bool) (dstB srcB dB : List Nat) (jB iB : Nat) (eB : Option Error) (aB : Bool)
    (hA : Utf8ToCesu8Transform cesu8.model dstA srcA aA = Outcome.ret dA jA iA eA)
    (hB : Cesu8ToUtf8Transform cesu8.model dstB srcB aB = Outcome.ret dB jB iB eB) :
    (iA ≤ jA ∧ 2 * jA ≤ 3 * iA ∧
      (3 * srcA.length ≤ 2 * dstA.length → eA ≠ some Error.ErrShortDst)) ∧
    (jB ≤ iB ∧ (srcB.length ≤ dstB.length → eB ≠ some Error.ErrShortDst)) := by
  constructor
  · rw [Utf8ToCesu8Transform_eq] at hA
    obtain ⟨⟨hi, hj, hdl, -, us, hus, hs, hd⟩, hx⟩ :=
      utf8ToCesu8Codec.loop_traced _ _ utf8ToCesu8Codec_runs srcA dstA srcA.length dA jA iA eA hA
    have li : (concatRuns utf8.runA us).length = iA := by
      rw [← hs, List.length_take]; omega
    have lj : (concatRuns cesu8.runA us).length = jA := by
      rw [← hd, List.length_take]; omega
    obtain ⟨l1, l2⟩ := concatRuns_lengths us (fun u hu => (hus u hu).1)
    rw [li, lj] at l1 l2
    refine ⟨l1, l2, fun hsz he => ?_⟩
    rcases hx with ⟨-, rfl⟩ | ⟨hlt, hcase⟩
    · cases he
    · rcases hcase with ⟨-, hfull, -⟩ | ⟨-, -, rfl⟩ | ⟨-, -, -, e2, hinv, rfl⟩ |
        ⟨ha, -, hne, -, hfit, -⟩
      · omega
      · cases he
      · simp only [utf8ToCesu8Codec, Except.ok.injEq] at hinv
        subst hinv
        cases he
      · obtain ⟨u, t, hu, -, -, -, hdec, hlen, hin⟩ :=
          Codec.Runs.decode_from _ _ _ utf8ToCesu8Codec_runs srcA iA hlt ha hne
        rw [hdec] at hfit
        simp only at hfit
        rw [hlen] at hfit
        have := run_lengths u hu
        omega
  · rw [Cesu8ToUtf8Transform_eq] at hB
    obtain ⟨⟨hi, hj, hdl, -, us, hus, hs, hd⟩, hx⟩ :=
      cesu8ToUtf8Codec.loop_traced _ _ cesu8ToUtf8Codec_runs srcB dstB srcB.length dB jB iB eB hB
    have li : (concatRuns cesu8.runA us).length = iB := by
      rw [← hs, List.length_take]; omega
    have lj : (concatRuns utf8.runA us).length = jB := by
      rw [← hd, List.length_take]; omega
    obtain ⟨l1, -⟩ := concatRuns_lengths us (fun u hu => (hus u hu).1)
    rw [li, lj] at l1
    refine ⟨l1, fun hsz he => ?_⟩
    rcases hx with ⟨-, rfl⟩ | ⟨hlt, hcase⟩
    · cases he
    · rcases hcase with ⟨-, hfull, -⟩ | ⟨-, -, rfl⟩ | ⟨-, -, -, e2, hinv, rfl⟩ |
        ⟨ha, -, hne, -, hfit, -⟩
      · omega
      · cases he
      · simp only [cesu8ToUtf8Codec] at hinv
        split at hinv
        · simp only [Except.ok.injEq] at hinv
          subst hinv
          rw [newInvalidCesu8Error_eq] at he
          cases he
        · cases hinv
      · obtain ⟨u, t, hu, -, -, -, hdec, hlen, hin⟩ :=
          Codec.Runs.decode_from _ _ _ cesu8ToUtf8Codec_runs srcB iB hlt ha hne
        rw [hdec] at hfit
        simp only at hfit
        rw [hlen] at hfit
        have := run_lengths u hu
        omega

theorem C19_destination_sizing_witness :
    (Utf8ToCesu8Transform cesu8.model [0, 0, 0, 0, 0, 0, 0, 0]
        [0x41, 0xF0, 0x9F, 0x98, 0x80, 0xC3, 0xA9] true
      = Outcome.ret [0x41, 0xED, 0xA0, 0xBD, 0xED, 0xB8, 0x80, 0] 7 5 (some Error.ErrShortDst) ∧
      Cesu8ToUtf8Transform cesu8.model [0, 0, 0, 0, 0, 0]
        [0x41, 0xED, 0xA0, 0xBD, 0xED, 0xB8, 0x80, 0xC3, 0xA9] false
      = Outcome.ret [0x41, 0xF0, 0x9F, 0x98, 0x80, 0] 5 7 (some Error.ErrShortDst)) ∧
    ((5 ≤ 7 ∧ 2 * 7 ≤ 3 * 5 ∧
      (3 * [0x41, 0xF0, 0x9F, 0x98, 0x80, 0xC3, 0xA9].length ≤ 2 * [0, 0, 0, 0, 0, 0, 0, 0].length →
        some Error.ErrShortDst ≠ some Error.ErrShortDst)) ∧
    (5 ≤ 7 ∧
      ([0x41, 0xED, 0xA0, 0xBD, 0xED, 0xB8, 0x80, 0xC3, 0xA9].length ≤ [0, 0, 0, 0, 0, 0].length →
        some Error.ErrShortDst ≠ some Error.ErrShortDst))) :=
  ⟨by decide,
    C19_destination_sizing [0, 0, 0, 0, 0, 0, 0, 0] [0x41, 0xF0, 0x9F, 0x98, 0x80, 0xC3, 0xA9]
      [0x41, 0xED, 0xA0, 0xBD, 0xED, 0xB8, 0x80, 0] 7 5 (some Error.ErrShortDst) true
      [0, 0, 0, 0, 0, 0] [0x41, 0xED, 0xA0, 0xBD, 0xED, 0xB8, 0x80, 0xC3, 0xA9]
      [0x41, 0xF0, 0x9F, 0x98, 0x80, 0] 5 7 (some Error.ErrShortDst) false
      (by decide) (by decide)⟩

/-- C14. No partial run is ever written: when a call of either `Transform`
returns, with whatever status, the destination has its length, every
destination byte at an index `≥ nDst` has the value it had before the call, and
`dst[0:nDst]` is a sequence of complete destination runs of scalar values.  For
`utf8ToCesu8Transformer` this holds for every package `cesu8` whose `EncodeRune`
writes the run `run r` of `RuneLen(r)` bytes (a single byte is copied as
itself); for `cesu8ToUtf8Transformer`, whose runs are UTF-8 runs, whatever the
package does.  The source is only read: the loops hold no assignment to it. -/
theorem C14_no_partial_run (pkg : Cesu8) (run : Nat → List Nat) (hp : pkg.Encodes run)
    (dstA srcA dA : List Nat) (jA iA : Nat) (eA : Option Error) (aA : Bool)
    (dstB srcB dB : List Nat) (jB iB : Nat) (eB : Option Error) (aB : Bool)
    (hA : Utf8ToCesu8Transform pkg dstA srcA aA = Outcome.ret dA jA iA eA)
    (hB : Cesu8ToUtf8Transform pkg dstB srcB aB = Outcome.ret dB jB iB eB) :
    (jA ≤ dstA.length ∧ dA.length = dstA.length ∧ dA.drop jA = dstA.drop jA ∧
      ∃ us : List Nat, (∀ u ∈ us, isScalar u) ∧ dA.take jA = concatRuns (byteOr run) us) ∧
    (jB ≤ dstB.length ∧ dB.length = dstB.length ∧ dB.drop jB = dstB.drop jB ∧
      ∃ us : List Nat, (∀ u ∈ us, isScalar u) ∧ dB.take jB = concatRuns utf8Run us) := by
  constructor
  · rw [Utf8ToCesu8Transform_with] at hA
    obtain ⟨⟨-, h2, h3, h4, us, hus, -, hd⟩, -⟩ :=
      (utf8ToCesu8With pkg).loop_traced _ _ (utf8ToCesu8With_runs pkg run hp) srcA dstA
        srcA.length dA jA iA eA hA
    exact ⟨h2, h3, h4, us, fun u hu => (hus u hu).1, hd⟩
  · rw [Cesu8ToUtf8Transform_with] at hB
    obtain ⟨h2, h3, h4, us, hus, hd⟩ :=
      cesu8ToUtf8With_output pkg srcB dstB srcB.length dB jB iB eB hB
    refine ⟨h2, h3, h4, us, hus, ?_⟩
    rw [hd]
    exact (concatRuns_congr _ _ us (fun u hu => utf8Run_eq u (hus u hu))).symm

theorem C14_no_partial_run_witness :
    (cesu8.model.Encodes cesu8.runA ∧
      Utf8ToCesu8Transform cesu8.model [9, 9, 9, 9, 9, 9, 9, 9]
          [0x41, 0xF0, 0x9F, 0x98, 0x80, 0xC3, 0xA9] true
        = Outcome.ret [0x41, 0xED, 0xA0, 0xBD, 0xED, 0xB8, 0x80, 9] 7 5 (some Error.ErrShortDst) ∧
      Cesu8ToUtf8Transform cesu8.model [9, 9, 9, 9, 9, 9]
          [0x41, 0xED, 0xA0, 0xBD, 0xED, 0xB8, 0x80, 0xC3, 0xA9] false
        = Outcome.ret [0x41, 0xF0, 0x9F, 0x98, 0x80, 9] 5 7 (some Error.ErrShortDst)) ∧
    ((7 ≤ [9, 9, 9, 9, 9, 9, 9, 9].length ∧
      [0x41, 0xED, 0xA0, 0xBD, 0xED, 0xB8, 0x80, 9].length = [9, 9, 9, 9, 9, 9, 9, 9].length ∧
      [0x41, 0xED, 0xA0, 0xBD, 0xED, 0xB8, 0x80, 9].drop 7 = [9, 9, 9, 9, 9, 9, 9, 9].drop 7 ∧
      ∃ us : List Nat, (∀ u ∈ us, isScalar u) ∧
        [0x41, 0xED, 0xA0, 0xBD, 0xED, 0xB8, 0x80, 9].take 7 = concatRuns (byteOr cesu8.runA) us) ∧
    (5 ≤ [9, 9, 9, 9, 9, 9].length ∧
      [0x41, 0xF0, 0x9F, 0x98, 0x80, 9].length = [9, 9, 9, 9, 9, 9].length ∧
      [0x41, 0xF0, 0x9F, 0x98, 0x80, 9].drop 5 = [9, 9, 9, 9, 9, 9].drop 5 ∧
      ∃ us : List Nat, (∀ u ∈ us, isScalar u) ∧
        [0x41, 0xF0, 0x9F, 0x98, 0x80, 9].take 5 = concatRuns utf8Run us)) :=
  ⟨⟨cesu8.model_encodes, by decide, by decide⟩,
    C14_no_partial_run cesu8.model cesu8.runA cesu8.model_encodes
      [9, 9, 9, 9, 9, 9, 9, 9] [0x41, 0xF0, 0x9F, 0x98, 0x80, 0xC3, 0xA9]
      [0x41, 0xED, 0xA0, 0xBD, 0xED, 0xB8, 0x80, 9] 7 5 (some Error.ErrShortDst) true
      [9, 9, 9, 9, 9, 9] [0x41, 0xED, 0xA0, 0xBD, 0xED, 0xB8, 0x80, 0xC3, 0xA9]
      [0x41, 0xF0, 0x9F, 0x98, 0x80, 9] 5 7 (some Error.ErrShortDst) false
      (by decide) (by decide)⟩

/-- C18. The CESU-8 to UTF-8 direction only ever emits valid UTF-8: when
`cesu8ToUtf8Transformer.Transform` returns, with whatever status and for
arbitrary source bytes, the bytes `dst[0:nDst]` it has written are a
well-formed UTF-8 sequence (shortest forms, no encoded surrogate, no code
point above `0x10FFFF`), the UTF-8 runs of a list of scalar values.  This
holds whatever package `cesu8` decodes. -/
theorem C18_emits_valid_utf8 (pkg : Cesu8) (dst src d : List Nat) (j i : Nat)
    (e : Option Error) (atEOF : Bool)
    (h : Cesu8ToUtf8Transform pkg dst src atEOF = Outcome.ret d j i e) :
    utf8.WellFormed (d.take j) ∧
    ∃ us : List Nat, (∀ u ∈ us, isScalar u) ∧ d.take j = concatRuns utf8Run us := by
  rw [Cesu8ToUtf8Transform_with] at h
  obtain ⟨-, -, -, us, hus, hd⟩ := cesu8ToUtf8With_output pkg src dst src.length d j i e h
  refine ⟨by rw [hd]; exact utf8.wellFormed_concatRuns us hus, us, hus, ?_⟩
  rw [hd]
  exact (concatRuns_congr _ _ us (fun u hu => utf8Run_eq u (hus u hu))).symm

theorem C18_emits_valid_utf8_witness :
    Cesu8ToUtf8Transform cesu8.model [9, 9, 9, 9, 9, 9, 9, 9]
        [0x41, 0xED, 0xA0, 0xBD, 0xED, 0xB8, 0x80, 0xED, 0xA0, 0xBD, 0x42] false
      = Outcome.ret [0x41, 0xF0, 0x9F, 0x98, 0x80, 9, 9, 9] 5 7
          (some (Error.InvalidCesu8Error 7 [0xED, 0xA0, 0xBD])) ∧
    (utf8.WellFormed ([0x41, 0xF0, 0x9F, 0x98, 0x80, 9, 9, 9].take 5) ∧
      ∃ us : List Nat, (∀ u ∈ us, isScalar u) ∧
        [0x41, 0xF0, 0x9F, 0x98, 0x80, 9, 9, 9].take 5 = concatRuns utf8Run us) :=
  ⟨by decide,
    C18_emits_valid_utf8 cesu8.model [9, 9, 9, 9, 9, 9, 9, 9]
      [0x41, 0xED, 0xA0, 0xBD, 0xED, 0xB8, 0x80, 0xED, 0xA0, 0xBD, 0x42]
      [0x41, 0xF0, 0x9F, 0x98, 0x80, 9, 9, 9] 5 7
      (some (Error.InvalidCesu8Error 7 [0xED, 0xA0, 0xBD])) false (by decide)⟩

/-- C16. Every call terminates with bounded work, for every package `cesu8`
whose encoder writes runs of `RuneLen(r) ≥ 1` bytes (`Cesu8.Encodes`) and whose
decoder gives widths `≥ 1` within the source and runes `utf8.RuneLen` accepts
(`Cesu8.Decodes`): in both directions the call returns; the number of its
iterations that do not return, the runs it transcodes, is at most
`min(len(src), len(dst))`; and from any state one iteration either returns (or
panics) or leaves the loop in a state with `i` and `j` both advanced by at
least 1. -/
theorem C16_terminates_with_bounded_work (pkg : Cesu8) (run : Nat → List Nat)
    (hp : pkg.Encodes run) (hpos : ∀ u, isScalar u → 0x80 ≤ u → 1 ≤ (run u).length)
    (hd : pkg.Decodes) (dst src : List Nat) (atEOF : Bool) :
    ((∃ d j i e, Utf8ToCesu8Transform pkg dst src atEOF = Outcome.ret d j i e) ∧
      (utf8ToCesu8With pkg).steps src src.length dst 0 0 ≤ min src.length dst.length ∧
      ∀ (d0 : List Nat) (i0 j0 : Nat),
        (∃ o, o ≠ Outcome.outOfFuel ∧ ∀ f, utf8ToCesu8Loop pkg src (f + 1) d0 i0 j0 = o) ∨
        (∃ d2 i2 j2, i0 + 1 ≤ i2 ∧ j0 + 1 ≤ j2 ∧
          ∀ f, utf8ToCesu8Loop pkg src (f + 1) d0 i0 j0 = utf8ToCesu8Loop pkg src f d2 i2 j2)) ∧
    ((∃ d j i e, Cesu8ToUtf8Transform pkg dst src atEOF = Outcome.ret d j i e) ∧
      (cesu8ToUtf8With pkg).steps src src.length dst 0 0 ≤ min src.length dst.length ∧
      ∀ (d0 : List Nat) (i0 j0 : Nat),
        (∃ o, o ≠ Outcome.outOfFuel ∧ ∀ f, cesu8ToUtf8Loop pkg src (f + 1) d0 i0 j0 = o) ∨
        (∃ d2 i2 j2, i0 + 1 ≤ i2 ∧ j0 + 1 ≤ j2 ∧
          ∀ f, cesu8ToUtf8Loop pkg src (f + 1) d0 i0 j0 = cesu8ToUtf8Loop pkg src f d2 i2 j2)) := by
  have sA := utf8ToCesu8With_safe pkg run hp hpos
  have sB := cesu8ToUtf8With_safe pkg hd
  refine ⟨⟨?_, ?_, fun d0 i0 j0 => ?_⟩, ⟨?_, ?_, fun d0 i0 j0 => ?_⟩⟩
  · rw [Utf8ToCesu8Transform_with]
    exact (utf8ToCesu8With pkg).returns sA src dst src.length (Or.inl (Nat.le_refl _))
  · have := (utf8ToCesu8With pkg).steps_le sA src src.length dst 0 0
    simpa using this
  · simp only [utf8ToCesu8Loop_eq]
    exact (utf8ToCesu8With pkg).advance sA src d0 i0 j0
  · rw [Cesu8ToUtf8Transform_with]
    exact (cesu8ToUtf8With pkg).returns sB src dst src.length (Or.inl (Nat.le_refl _))
  · have := (cesu8ToUtf8With pkg).steps_le sB src src.length dst 0 0
    simpa using this
  · simp only [cesu8ToUtf8Loop_eq]
    exact (cesu8ToUtf8With pkg).advance sB src d0 i0 j0

theorem C16_terminates_with_bounded_work_witness :
    (cesu8.model.Encodes cesu8.runA ∧ (∀ u, isScalar u → 0x80 ≤ u → 1 ≤ (cesu8.runA u).length) ∧
      cesu8.model.Decodes) ∧
    (utf8ToCesu8With cesu8.model).steps [0x41, 0xF0, 0x9F, 0x98, 0x80, 0xC3, 0xA9]
        [0x41, 0xF0, 0x9F, 0x98, 0x80, 0xC3, 0xA9].length [0, 0, 0, 0, 0, 0, 0, 0, 0] 0 0 = 3 ∧
    (((∃ d j i e, Utf8ToCesu8Transform cesu8.model [0, 0, 0, 0, 0, 0, 0, 0, 0]
          [0x41, 0xF0, 0x9F, 0x98, 0x80, 0xC3, 0xA9] true = Outcome.ret d j i e) ∧
      (utf8ToCesu8With cesu8.model).steps [0x41, 0xF0, 0x9F, 0x98, 0x80, 0xC3, 0xA9]
          [0x41, 0xF0, 0x9F, 0x98, 0x80, 0xC3, 0xA9].length [0, 0, 0, 0, 0, 0, 0, 0, 0] 0 0
        ≤ min [0x41, 0xF0, 0x9F, 0x98, 0x80, 0xC3, 0xA9].length [0, 0, 0, 0, 0, 0, 0, 0, 0].length ∧
      ∀ (d0 : List Nat) (i0 j0 : Nat),
        (∃ o, o ≠ Outcome.outOfFuel ∧ ∀ f, utf8ToCesu8Loop cesu8.model
            [0x41, 0xF0, 0x9F, 0x98, 0x80, 0xC3, 0xA9] (f + 1) d0 i0 j0 = o) ∨
        (∃ d2 i2 j2, i0 + 1 ≤ i2 ∧ j0 + 1 ≤ j2 ∧
          ∀ f, utf8ToCesu8Loop cesu8.model [0x41, 0xF0, 0x9F, 0x98, 0x80, 0xC3, 0xA9] (f + 1) d0 i0 j0
            = utf8ToCesu8Loop cesu8.model [0x41, 0xF0, 0x9F, 0x98, 0x80, 0xC3, 0xA9] f d2 i2 j2)) ∧
    ((∃ d j i e, Cesu8ToUtf8Transform cesu8.model [0, 0, 0, 0, 0, 0, 0, 0, 0]
          [0x41, 0xF0, 0x9F, 0x98, 0x80, 0xC3, 0xA9] true = Outcome.ret d j i e) ∧
      (cesu8ToUtf8With cesu8.model).steps [0x41, 0xF0, 0x9F, 0x98, 0x80, 0xC3, 0xA9]
          [0x41, 0xF0, 0x9F, 0x98, 0x80, 0xC3, 0xA9].length [0, 0, 0, 0, 0, 0, 0, 0, 0] 0 0
        ≤ min [0x41, 0xF0, 0x9F, 0x98, 0x80, 0xC3, 0xA9].length [0, 0, 0, 0, 0, 0, 0, 0, 0].length ∧
      ∀ (d0 : List Nat) (i0 j0 : Nat),
        (∃ o, o ≠ Outcome.outOfFuel ∧ ∀ f, cesu8ToUtf8Loop cesu8.model
            [0x41, 0xF0, 0x9F, 0x98, 0x80, 0xC3, 0xA9] (f + 1) d0 i0 j0 = o) ∨
        (∃ d2 i2 j2, i0 + 1 ≤ i2 ∧ j0 + 1 ≤ j2 ∧
          ∀ f, cesu8ToUtf8Loop cesu8.model [0x41, 0xF0, 0x9F, 0x98, 0x80, 0xC3, 0xA9] (f + 1) d0 i0 j0
            = cesu8ToUtf8Loop cesu8.model [0x41, 0xF0, 0x9F, 0x98, 0x80, 0xC3, 0xA9] f d2 i2 j2))) :=
  ⟨⟨cesu8.model_encodes, fun u _ _ => cesu8.runA_pos_cesu u, cesu8.model_decodes⟩, by decide,
    C16_terminates_with_bounded_work cesu8.model cesu8.runA cesu8.model_encodes
      (fun u _ _ => cesu8.runA_pos_cesu u) cesu8.model_decodes [0, 0, 0, 0, 0, 0, 0, 0, 0]
      [0x41, 0xF0, 0x9F, 0x98, 0x80, 0xC3, 0xA9] true⟩

/-- C13. The internal-invariant panic is unreachable (with the model of
package `cesu8`): for arbitrary, possibly malformed source bytes neither
`Transform` ends in its `panic("internal ... transformation error")`; every
rune other than `RuneError` that `utf8.DecodeRune` gives has
`cesu8.RuneLen(r) ≠ -1`, and every rune other than `RuneError` that
`cesu8.DecodeRune` gives is a scalar value (no surrogate, not above
`0x10FFFF`) and has `utf8.RuneLen(r) ≠ -1`. -/
theorem C13_internal_panic_unreachable (dst src : List Nat) (atEOF : Bool) :
    Utf8ToCesu8Transform cesu8.model dst src atEOF ≠ Outcome.panicked Abort.internalError ∧
    Cesu8ToUtf8Transform cesu8.model dst src atEOF ≠ Outcome.panicked Abort.internalError ∧
    (∀ p, (utf8.DecodeRune p).1 ≠ utf8.RuneError → cesu8.RuneLen (utf8.DecodeRune p).1 ≠ -1) ∧
    (∀ p, (cesu8.DecodeRune p).1 ≠ utf8.RuneError →
      utf8.RuneLen (cesu8.DecodeRune p).1 ≠ -1 ∧
      ∃ u : Nat, (cesu8.DecodeRune p).1 = (u : Int) ∧ isScalar u) := by
  refine ⟨?_, ?_, ?_, ?_⟩
  · obtain ⟨d, j, i, e, h⟩ := (utf8ToCesu8With cesu8.model).returns
      (utf8ToCesu8With_safe cesu8.model cesu8.runA cesu8.model_encodes
        (fun u _ _ => cesu8.runA_pos_cesu u)) src dst src.length (Or.inl (Nat.le_refl _))
    rw [Utf8ToCesu8Transform_with, Codec.transform, h]
    simp
  · obtain ⟨d, j, i, e, h⟩ := (cesu8ToUtf8With cesu8.model).returns
      (cesu8ToUtf8With_safe cesu8.model cesu8.model_decodes) src dst src.length
      (Or.inl (Nat.le_refl _))
    rw [Cesu8ToUtf8Transform_with, Codec.transform, h]
    simp
  · intro p h
    rw [utf8.DecodeRune_eq_decodeA] at h ⊢
    obtain ⟨c, h1, -, t, -, hd⟩ := utf8.decodeA_valid p h
    rw [hd]
    simp only
    rw [cesu8.RuneLen_cast_cesu c h1]
    omega
  · intro p h
    obtain ⟨c, h1, h2, t, -, hd⟩ := cesu8.DecodeRune_valid p h
    rw [hd]
    simp only
    refine ⟨?_, c, rfl, h1, h2⟩
    rw [utf8.RuneLen_cast c h1 h2]
    omega

/-- C20. Returned counts and all accesses stay in range (with the model of
package `cesu8`): both `Transform` methods return, so no index or slice
expression goes out of range, with `nDst ≤ len(dst)` and `nSrc ≤ len(src)`; in
`cesu8ToUtf8Transformer.Transform` the width `n` that `cesu8.DecodeRune` gives
for bytes that begin with a full rune stays within them, so when an
`InvalidCesu8Error` is returned its position is `nSrc`, `nSrc + n ≤ len(src)`,
and its value is the run `src[nSrc : nSrc+n]`. -/
theorem C20_counts_and_accesses_in_range (dst src : List Nat) (atEOF : Bool) :
    (∃ d j i e, Utf8ToCesu8Transform cesu8.model dst src atEOF = Outcome.ret d j i e ∧
      j ≤ dst.length ∧ i ≤ src.length) ∧
    (∃ d j i e, Cesu8ToUtf8Transform cesu8.model dst src atEOF = Outcome.ret d j i e ∧
      j ≤ dst.length ∧ i ≤ src.length ∧
      ∀ p v, e = some (Error.InvalidCesu8Error p v) →
        p = i ∧ i + (cesu8.DecodeRune (src.drop i)).2 ≤ src.length ∧
        v = (src.drop i).take (cesu8.DecodeRune (src.drop i)).2) ∧
    (∀ p, cesu8.FullRune p = true → (cesu8.DecodeRune p).2 ≤ p.length) := by
  refine ⟨?_, ?_, cesu8.DecodeRune_within⟩
  · obtain ⟨d, j, i, e, h⟩ := (utf8ToCesu8With cesu8.model).returns
      (utf8ToCesu8With_safe cesu8.model cesu8.runA cesu8.model_encodes
        (fun u _ _ => cesu8.runA_pos_cesu u)) src dst src.length (Or.inl (Nat.le_refl _))
    obtain ⟨⟨hi, hj, -⟩, -⟩ :=
      utf8ToCesu8Codec.loop_traced _ _ utf8ToCesu8Codec_runs src dst src.length d j i e h
    exact ⟨d, j, i, e, by rw [Utf8ToCesu8Transform_with]; exact h, hj, hi⟩
  · obtain ⟨d, j, i, e, h⟩ := (cesu8ToUtf8With cesu8.model).returns
      (cesu8ToUtf8With_safe cesu8.model cesu8.model_decodes) src dst src.length
      (Or.inl (Nat.le_refl _))
    obtain ⟨⟨hi, hj, -⟩, hx⟩ :=
      cesu8ToUtf8Codec.loop_traced _ _ cesu8ToUtf8Codec_runs src dst src.length d j i e h
    refine ⟨d, j, i, e, by rw [Cesu8ToUtf8Transform_with]; exact h, hj, hi, fun p v he => ?_⟩
    rcases hx with ⟨-, rfl⟩ | ⟨hlt, hcase⟩
    · cases he
    · rcases hcase with ⟨-, -, rfl⟩ | ⟨-, -, rfl⟩ | ⟨-, hf, -, e2, hinv, rfl⟩ | ⟨-, -, -, -, -, rfl⟩
      · cases he
      · cases he
      · have hw := cesu8.DecodeRune_within (src.drop i) hf
        have hinv2 : (if (cesu8.DecodeRune (src.drop i)).2 ≤ (src.drop i).length then
            Except.ok (newInvalidCesu8Error i ((src.drop i).take (cesu8.DecodeRune (src.drop i)).2))
            else Except.error Abort.outOfRange) = Except.ok e2 := hinv
        rw [if_pos hw, newInvalidCesu8Error_eq] at hinv2
        simp only [Except.ok.injEq] at hinv2
        subst hinv2
        simp only [Option.some.injEq, Error.InvalidCesu8Error.injEq] at he
        obtain ⟨rfl, rfl⟩ := he
        rw [List.length_drop] at hw
        exact ⟨rfl, by omega, rfl⟩
      · cases he
